import Mathlib

/-!
# SearchServer: a shallow embedding and its verified properties

The C++ sources embedded here are `string_processing.cpp`, `search_server.h`,
`search_server.cpp`, `request_queue.h` and `request_queue.cpp`.

Modelling conventions.
* `std::string` / `std::string_view` are lists of characters; a character is
  identified with its code, and `std::set<std::string_view>` orders words
  lexicographically by code.
* `std::map<K, V>` is an association list kept in ascending key order;
  `std::set<K>` is an ascending list.  Iteration is list order.
* `double` is an arbitrary linearly ordered field `R` (arithmetic over the
  reals); `log` of `<cmath>` is the field `log` of a `Toolchain`.
* `int` document ids and ratings are `Int`; the only `int` arithmetic that can
  overflow, the rating sum, wraps to 32 bits.  The size of a container, where
  the program converts it to `int`, is taken to fit.
* An operation that may throw returns `Except Err _`; an operation that may
  throw after it has started to mutate the server returns the server it leaves
  behind together with its outcome.
-/

set_option linter.unusedSectionVars false

namespace Search

/-! ## Outcomes -/

/-- The ways an operation can end other than by returning.  The first two are
C++ exceptions the caller can catch; the others end the process (a failed
`assert`, an integer division by zero, `std::terminate` after an exception
leaves a parallel algorithm) or leave the behaviour undefined (`std::sort`
called with a comparator that is not a strict weak ordering on its range). -/
inductive Err where
  | invalid_argument
  | out_of_range
  | assertion_failed
  | division_by_zero
  | terminate
  | undefined_sort
  deriving DecidableEq, Repr

/-- The catchable outcomes: after one of these the server object lives on. -/
def Err.isException : Err → Bool
  | .invalid_argument => true
  | .out_of_range => true
  | _ => false

/-! ## Ordered containers -/

/-- The words of the engine: `std::string` and `std::string_view`. -/
abbrev Word := List Char

/-- A `std::map<K, V>`: the entries in ascending key order. -/
abbrev OMap (K V : Type) := List (K × V)

/-- A `std::set<K>`: the elements in ascending order. -/
abbrev OSet (K : Type) := List K

namespace OMap

variable {K V : Type}

/-- The lookup of `std::map::find`: the value stored under `k`, if any. -/
def find? [DecidableEq K] : OMap K V → K → Option V
  | [], _ => none
  | (k', v) :: m, k => if k' = k then some v else find? m k

/-- The result of `std::map::count`: 1 when the key is present, else 0. -/
def count [DecidableEq K] (m : OMap K V) (k : K) : Nat :=
  if (find? m k).isSome then 1 else 0

/-- The keys in iteration order. -/
def keys (m : OMap K V) : List K := m.map Prod.fst

/-- Store `v` under `k`, at the key's place in the order, replacing an entry
already there. -/
def insert [LinearOrder K] (k : K) (v : V) : OMap K V → OMap K V
  | [] => [(k, v)]
  | (k', v') :: m =>
    if k < k' then (k, v) :: (k', v') :: m
    else if k' < k then (k', v') :: insert k v m
    else (k, v) :: m

/-- The effect of `std::map::emplace`: insert unless the key is present. -/
def emplace [DecidableEq K] [LinearOrder K] (k : K) (v : V) (m : OMap K V) : OMap K V :=
  if count m k > 0 then m else insert k v m

/-- The effect of `std::map::erase(key)`. -/
def erase [DecidableEq K] (k : K) (m : OMap K V) : OMap K V :=
  m.filter (fun p => decide (p.1 ≠ k))

/-- The value `operator[]` yields: the stored one, or a value-initialised
one. -/
def getD [DecidableEq K] (m : OMap K V) (k : K) (d : V) : V :=
  (find? m k).getD d

/-- The statement `m[k] += x` on a map of numbers. -/
def addAt [DecidableEq K] [LinearOrder K] [Zero V] [Add V] (m : OMap K V) (k : K) (x : V) : OMap K V :=
  insert k (getD m k 0 + x) m

/-- The keys ascend strictly: the representation invariant of a `std::map`. -/
def WF [LT K] (m : OMap K V) : Prop := (keys m).Pairwise (· < ·)

/-- The value under `b` in the map under `a` of a map of maps: `m[a][b]`, when
both keys are present. -/
def find2? {A B : Type} [DecidableEq A] [DecidableEq B] (m : OMap A (OMap B V)) (a : A) (b : B) :
    Option V :=
  (find? m a).bind (fun inner => find? inner b)

end OMap

namespace OSet

variable {K : Type}

/-- The elements ascend strictly: the representation invariant of a `std::set`. -/
def WF [LT K] (s : OSet K) : Prop := s.Pairwise (· < ·)

/-- The effect of `std::set::insert`. -/
def insert [LinearOrder K] (k : K) : OSet K → OSet K
  | [] => [k]
  | k' :: s =>
    if k < k' then k :: k' :: s
    else if k' < k then k' :: insert k s
    else k' :: s

/-- The result of `std::set::count`. -/
def count [DecidableEq K] (s : OSet K) (k : K) : Nat :=
  if k ∈ s then 1 else 0

/-- The effect of `std::set::erase`. -/
def erase [DecidableEq K] (k : K) (s : OSet K) : OSet K :=
  s.filter (fun x => decide (x ≠ k))

end OSet

/-! ## string_processing.cpp -/

/-- The result of `std::string_view::find(c)`: the first position of `c`, or
`none` for `npos`. -/
def find (text : Word) (c : Char) : Option Nat :=
  match text with
  | [] => none
  | x :: xs => if x = c then some 0 else (find xs c).map (· + 1)

/-- The loop of `SplitIntoWords`; `fuel` bounds the number of iterations, and
the length of the text is always enough (`SplitIntoWords_eq_splitOn`). -/
def SplitIntoWordsLoop : Nat → Word → List Word → List Word
  | 0, text, result => result ++ [text]
  | fuel + 1, text, result =>
    match find text ' ' with
    | some space =>
      SplitIntoWordsLoop fuel (text.drop (space + 1)) (result ++ [text.take space])
    | none => result ++ [text]

/-- Embedding of `SplitIntoWords`: cut the text at every space. -/
def SplitIntoWords (text : Word) : List Word :=
  SplitIntoWordsLoop text.length text []

/-! ## document.h -/

/-- Modelled from the spec: the enumeration `DocumentStatus` of `document.h`,
which is not among the sources: "one of {Actual, Irrelevant, Banned,
Removed}". -/
inductive DocumentStatus where
  | ACTUAL
  | IRRELEVANT
  | BANNED
  | REMOVED
  deriving DecidableEq, Repr

/-- Modelled from the spec: the struct `Document` of `document.h`, which is not
among the sources; a search result "{id, relevance, rating}". -/
structure Document (R : Type) where
  id : Int
  relevance : R
  rating : Int
  deriving DecidableEq

/-- Modelled from the spec: the constant `MAX_RESULT_DOCUMENT_COUNT` of
`document.h`, which is not among the sources: "Truncate to the first 5
entries". -/
def MAX_RESULT_DOCUMENT_COUNT : Nat := 5

/-! ## search_server.h: data -/

/-- The struct `SearchServer::DocumentData`. -/
structure DocumentData where
  rating : Int
  status : DocumentStatus
  deriving DecidableEq, Repr

/-- The struct `SearchServer::QueryWord`. -/
structure QueryWord where
  data : Word
  is_minus : Bool
  is_stop : Bool
  deriving DecidableEq, Repr

/-- The struct `SearchServer::Query`. -/
structure Query where
  plus_words : OSet Word
  minus_words : OSet Word
  deriving DecidableEq, Repr

/-- The data members of `class SearchServer`. -/
structure SearchServer (R : Type) where
  stop_words_ : OSet Word
  words_ : OSet Word
  word_to_document_freqs_ : OMap Word (OMap Int R)
  documents_ : OMap Int DocumentData
  document_ids_ : OSet Int
  document_to_word_freqs_ : OMap Int (OMap Word R)

/-- The two execution policies the templates are instantiated with. -/
inductive ExecutionPolicy where
  | seq
  | par
  deriving DecidableEq, Repr

/-- What the program takes from outside the repository: `log` of `<cmath>`,
whether `assert` is compiled out (`NDEBUG`), and `std::sort`. -/
structure Toolchain (R : Type) where
  log : R → R
  ndebug : Bool
  sort : (Document R → Document R → Bool) → List (Document R) → List (Document R)

/-- The precondition of `std::sort` on a range: the comparator is a strict weak
ordering of the elements. -/
def StrictWeakOn {α : Type} (comp : α → α → Bool) (l : List α) : Prop :=
  (∀ a ∈ l, comp a a = false) ∧
  (∀ a ∈ l, ∀ b ∈ l, ∀ c ∈ l, comp a b = true → comp b c = true → comp a c = true) ∧
  (∀ a ∈ l, ∀ b ∈ l, ∀ c ∈ l,
    comp a b = false → comp b a = false → comp b c = false → comp c b = false →
      comp a c = false ∧ comp c a = false)

instance StrictWeakOn.decidable {α : Type} (comp : α → α → Bool) (l : List α) :
    Decidable (StrictWeakOn comp l) :=
  inferInstanceAs (Decidable (_ ∧ _ ∧ _))

/-- The postcondition of `std::sort`: on a range its comparator orders strictly
and weakly, the result is a rearrangement of the range in which no element is
ordered before an earlier one. -/
def SortContract {α : Type} (sort : (α → α → Bool) → List α → List α) : Prop :=
  ∀ comp l, StrictWeakOn comp l →
    (sort comp l).Perm l ∧ (sort comp l).Pairwise (fun a b => comp b a = false)

/-- A call of `std::sort`: outside its precondition the behaviour is
undefined, which the embedding reports instead of inventing a result. -/
def stdSort {α : Type} (sort : (α → α → Bool) → List α → List α)
    (comp : α → α → Bool) (l : List α) : Except Err (List α) :=
  if StrictWeakOn comp l then .ok (sort comp l) else .error .undefined_sort

/-- The insertion of insertion sort: before the first element the comparator
orders `a` before. -/
def insertSorted {α : Type} (comp : α → α → Bool) (a : α) : List α → List α
  | [] => [a]
  | b :: l => if comp a b then a :: b :: l else b :: insertSorted comp a l

/-- Insertion sort, a procedure that meets the contract of `std::sort`
(`insertionSort_contract`). -/
def insertionSort {α : Type} (comp : α → α → Bool) : List α → List α
  | [] => []
  | a :: l => insertSorted comp a (insertionSort comp l)

/-! ## search_server.h, search_server.cpp: operations -/

namespace SearchServer

variable {R : Type} [LinearOrderedField R]

/-- Embedding of `SearchServer::IsValidWord`: no character `c` of the word has
`c >= 0 && c < ' '`.  (Where `char` is signed a code of 0x80 or more is
negative, where it is unsigned it is not below `' '`: valid either way.) -/
def IsValidWord (word : Word) : Bool :=
  word.all (fun c => !(decide (0 ≤ c.toNat) && decide (c.toNat < ' '.toNat)))

/-- Embedding of `SearchServer::MakeUniqueNonEmptyStrings`. -/
def MakeUniqueNonEmptyStrings : List Word → OSet Word → Except Err (OSet Word)
  | [], non_empty_strings => .ok non_empty_strings
  | str :: strings, non_empty_strings =>
    if !IsValidWord str then .error .invalid_argument
    else if !str.isEmpty then
      MakeUniqueNonEmptyStrings strings (OSet.insert str non_empty_strings)
    else MakeUniqueNonEmptyStrings strings non_empty_strings

/-- Embedding of the constructor `SearchServer(const StringContainer stop_words)`. -/
def ofContainer (stop_words : List Word) : Except Err (SearchServer R) :=
  match MakeUniqueNonEmptyStrings stop_words [] with
  | .error e => .error e
  | .ok stop => .ok ⟨stop, [], [], [], [], []⟩

/-- Embedding of the constructors `SearchServer(std::string_view)` and
`SearchServer(const std::string&)`. -/
def ofText (stop_words_text : Word) : Except Err (SearchServer R) :=
  ofContainer (SplitIntoWords stop_words_text)

/-- Embedding of `SearchServer::GetDocumentCount`. -/
def GetDocumentCount (s : SearchServer R) : Int :=
  (s.documents_.length : Int)

/-- Embedding of `SearchServer::GetWordFrequencies`. -/
def GetWordFrequencies (s : SearchServer R) (document_id : Int) : OMap Word R :=
  if OMap.count s.document_to_word_freqs_ document_id > 0 then
    OMap.getD s.document_to_word_freqs_ document_id []
  else []

/-- Embedding of `SearchServer::SetStopWords`. -/
def SetStopWords (s : SearchServer R) (text : Word) : SearchServer R :=
  { s with stop_words_ := (SplitIntoWords text).foldl (fun st word => OSet.insert word st) s.stop_words_ }

/-- Embedding of `SearchServer::IsStopWord`. -/
def IsStopWord (s : SearchServer R) (word : Word) : Bool :=
  decide (OSet.count s.stop_words_ word > 0)

/-- The loop of `SearchServer::SplitIntoWordsNoStop` over the split text. -/
def SplitIntoWordsNoStopLoop (s : SearchServer R) : List Word → List Word → Except Err (List Word)
  | [], words => .ok words
  | word :: rest, words =>
    if !IsValidWord word then .error .invalid_argument
    else if !IsStopWord s word then SplitIntoWordsNoStopLoop s rest (words ++ [word])
    else SplitIntoWordsNoStopLoop s rest words

/-- Embedding of `SearchServer::SplitIntoWordsNoStop`. -/
def SplitIntoWordsNoStop (s : SearchServer R) (text : Word) : Except Err (List Word) :=
  SplitIntoWordsNoStopLoop s (SplitIntoWords text) []

/-- The value an `int` holds after a computation whose mathematical result is
`z`: the representative of `z` modulo 2^32 in the 32-bit signed range. -/
def wrapInt32 (z : Int) : Int :=
  (z + 2 ^ 31) % 2 ^ 32 - 2 ^ 31

/-- Embedding of `SearchServer::ComputeAverageRating`; the division of two
`int`s truncates toward zero, and by zero it faults. -/
def ComputeAverageRating (ratings : List Int) : Except Err Int :=
  let rating_sum := ratings.foldl (fun acc rating => wrapInt32 (acc + rating)) 0
  if ratings.length = 0 then .error .division_by_zero
  else .ok (Int.tdiv rating_sum (ratings.length : Int))

/-- One pass of the loop of `SearchServer::AddDocument`: intern the word and
add the word's share to both indexes. -/
def AddDocumentStep (document_id : Int) (inv_word_count : R) (s : SearchServer R)
    (word : Word) : SearchServer R :=
  { s with
    words_ := OSet.insert word s.words_
    word_to_document_freqs_ :=
      OMap.insert word
        (OMap.addAt (OMap.getD s.word_to_document_freqs_ word []) document_id inv_word_count)
        s.word_to_document_freqs_
    document_to_word_freqs_ :=
      OMap.insert document_id
        (OMap.addAt (OMap.getD s.document_to_word_freqs_ document_id []) word inv_word_count)
        s.document_to_word_freqs_ }

/-- Embedding of `SearchServer::AddDocument`: the server the call leaves
behind, and how the call ended. -/
def AddDocument (s : SearchServer R) (document_id : Int) (document : Word)
    (status : DocumentStatus) (ratings : List Int) : SearchServer R × Except Err Unit :=
  if document_id < 0 ∨ OMap.count s.documents_ document_id > 0 then
    (s, .error .invalid_argument)
  else
    match SplitIntoWordsNoStop s document with
    | .error e => (s, .error e)
    | .ok words =>
      let inv_word_count : R := 1 / (words.length : R)
      let s1 := words.foldl (AddDocumentStep document_id inv_word_count) s
      match ComputeAverageRating ratings with
      | .error e => (s1, .error e)
      | .ok rating =>
        ({ s1 with
           documents_ := OMap.emplace document_id ⟨rating, status⟩ s1.documents_
           document_ids_ := OSet.insert document_id s1.document_ids_ }, .ok ())

/-- The loop of `SearchServer::RemoveDocument` over the words of the document:
`word_to_document_freqs_.at(word).erase(document_id)`.  The second component
is `false` when `at` threw. -/
def RemoveDocumentLoop (document_id : Int) :
    List Word → OMap Word (OMap Int R) → OMap Word (OMap Int R) × Bool
  | [], w2d => (w2d, true)
  | word :: rest, w2d =>
    match OMap.find? w2d word with
    | none => (w2d, false)
    | some docs =>
      RemoveDocumentLoop document_id rest (OMap.insert word (OMap.erase document_id docs) w2d)

/-- Embedding of `SearchServer::RemoveDocument` (the sequenced overload; the
parallel overload runs the same erasures, one per word of the document): the
server the call leaves behind, and how the call ended. -/
def RemoveDocument (s : SearchServer R) (document_id : Int) : SearchServer R × Except Err Unit :=
  if OSet.count s.document_ids_ document_id = 0 then (s, .ok ())
  else
    let s1 : SearchServer R :=
      { s with
        document_ids_ := OSet.erase document_id s.document_ids_
        documents_ := OMap.erase document_id s.documents_ }
    match OMap.find? s1.document_to_word_freqs_ document_id with
    | none => (s1, .error .out_of_range)
    | some word_freqs =>
      match RemoveDocumentLoop document_id (OMap.keys word_freqs) s1.word_to_document_freqs_ with
      | (w2d, false) => ({ s1 with word_to_document_freqs_ := w2d }, .error .out_of_range)
      | (w2d, true) =>
        ({ s1 with
           word_to_document_freqs_ := w2d
           document_to_word_freqs_ := OMap.erase document_id s1.document_to_word_freqs_ }, .ok ())

/-- Embedding of `SearchServer::ParseQueryWord`; the policy only selects how
`IsValidWord` scans the word. -/
def ParseQueryWord (s : SearchServer R) (_policy : ExecutionPolicy) (text : Word) :
    Except Err QueryWord :=
  if text.isEmpty then .error .invalid_argument
  else
    let is_minus : Bool := decide (text.head? = some '-')
    let text : Word := if is_minus then text.drop 1 else text
    if text.isEmpty || decide (text.head? = some '-') || !IsValidWord text then
      .error .invalid_argument
    else .ok ⟨text, is_minus, IsStopWord s text⟩

/-- The loop of `SearchServer::ParseQuery` over the split text. -/
def ParseQueryLoop (s : SearchServer R) (policy : ExecutionPolicy) :
    List Word → Query → Except Err Query
  | [], query => .ok query
  | word :: rest, query =>
    match ParseQueryWord s policy word with
    | .error e => .error e
    | .ok query_word =>
      if !query_word.is_stop then
        if query_word.is_minus then
          ParseQueryLoop s policy rest
            { query with minus_words := OSet.insert query_word.data query.minus_words }
        else
          ParseQueryLoop s policy rest
            { query with plus_words := OSet.insert query_word.data query.plus_words }
      else ParseQueryLoop s policy rest query

/-- Embedding of `SearchServer::ParseQuery`. -/
def ParseQuery (s : SearchServer R) (policy : ExecutionPolicy) (text : Word) : Except Err Query :=
  ParseQueryLoop s policy (SplitIntoWords text) ⟨[], []⟩

/-- Embedding of `SearchServer::ComputeWordInverseDocumentFreq`.  With the
assertions compiled out and an empty document mapping the C++ value is an
infinity or a NaN where the field gives `log 0`; no caller uses the value
then, since each multiplies it only inside a loop over that empty mapping. -/
def ComputeWordInverseDocumentFreq (tc : Toolchain R) (s : SearchServer R) (word : Word) :
    Except Err R :=
  if !tc.ndebug && decide (OMap.count s.word_to_document_freqs_ word = 0) then
    .error .assertion_failed
  else
    match OMap.find? s.word_to_document_freqs_ word with
    | none => .error .out_of_range
    | some docs =>
      let word_size : Int := (docs.length : Int)
      if !tc.ndebug && decide (word_size = 0) then .error .assertion_failed
      else .ok (tc.log (((GetDocumentCount s : Int) : R) * 1 / ((word_size : Int) : R)))

/-- The inner loop of the sequenced `FindAllDocuments` over the documents of
one plus-word. -/
def AccumulateWord (s : SearchServer R) (key_mapper : Int → DocumentStatus → Int → Bool)
    (inverse_document_freq : R) : OMap Int R → OMap Int R → Except Err (OMap Int R)
  | [], document_to_relevance => .ok document_to_relevance
  | (document_id, term_freq) :: rest, document_to_relevance =>
    match OMap.find? s.documents_ document_id with
    | none => .error .out_of_range
    | some data =>
      if key_mapper document_id data.status data.rating then
        AccumulateWord s key_mapper inverse_document_freq rest
          (OMap.addAt document_to_relevance document_id (term_freq * inverse_document_freq))
      else AccumulateWord s key_mapper inverse_document_freq rest document_to_relevance

/-- The first loop of the sequenced `FindAllDocuments`, over the plus-words. -/
def PlusLoop (tc : Toolchain R) (s : SearchServer R)
    (key_mapper : Int → DocumentStatus → Int → Bool) :
    List Word → OMap Int R → Except Err (OMap Int R)
  | [], document_to_relevance => .ok document_to_relevance
  | word :: rest, document_to_relevance =>
    if OMap.count s.word_to_document_freqs_ word = 0 then
      PlusLoop tc s key_mapper rest document_to_relevance
    else
      match ComputeWordInverseDocumentFreq tc s word with
      | .error e => .error e
      | .ok inverse_document_freq =>
        match OMap.find? s.word_to_document_freqs_ word with
        | none => .error .out_of_range
        | some docs =>
          match AccumulateWord s key_mapper inverse_document_freq docs document_to_relevance with
          | .error e => .error e
          | .ok acc => PlusLoop tc s key_mapper rest acc

/-- The loop `for (const auto [document_id, _] : ...) document_to_relevance.erase(document_id)`. -/
def EraseDocs : List Int → OMap Int R → OMap Int R
  | [], document_to_relevance => document_to_relevance
  | document_id :: rest, document_to_relevance =>
    EraseDocs rest (OMap.erase document_id document_to_relevance)

/-- The second loop of `FindAllDocuments`, over the minus-words. -/
def MinusLoop (s : SearchServer R) : List Word → OMap Int R → OMap Int R
  | [], document_to_relevance => document_to_relevance
  | word :: rest, document_to_relevance =>
    if OMap.count s.word_to_document_freqs_ word = 0 then MinusLoop s rest document_to_relevance
    else
      MinusLoop s rest
        (EraseDocs (OMap.keys (OMap.getD s.word_to_document_freqs_ word [])) document_to_relevance)

/-- The last loop of `FindAllDocuments`: one `Document` per surviving entry. -/
def EmitDocuments (s : SearchServer R) : OMap Int R → List (Document R) → Except Err (List (Document R))
  | [], matched_documents => .ok matched_documents
  | (document_id, relevance) :: rest, matched_documents =>
    match OMap.find? s.documents_ document_id with
    | none => .error .out_of_range
    | some data => EmitDocuments s rest (matched_documents ++ [⟨document_id, relevance, data.rating⟩])

/-- Embedding of `SearchServer::FindAllDocuments(const std::execution::sequenced_policy&, ...)`. -/
def FindAllDocumentsSeq (tc : Toolchain R) (s : SearchServer R) (query : Query)
    (key_mapper : Int → DocumentStatus → Int → Bool) : Except Err (List (Document R)) :=
  match PlusLoop tc s key_mapper query.plus_words [] with
  | .error e => .error e
  | .ok document_to_relevance =>
    EmitDocuments s (MinusLoop s query.minus_words document_to_relevance) []

/-- Modelled from the spec: the class `ConcurrentMap` of `concurrent_map.h`,
which is not among the sources: a "mapping from key to numeric value" whose
`operator[]` gives access to a value "initialized to the numeric zero if
absent".  Its shards and locks are not modelled. -/
abbrev ConcurrentMap (K V : Type) := OMap K V

/-- Modelled from the spec: `ConcurrentMap::BuildOrdinaryMap` of
`concurrent_map.h`, which is not among the sources: the "ordinary ordered
mapping combining all shards". -/
def ConcurrentMap.BuildOrdinaryMap {K V : Type} (m : ConcurrentMap K V) : OMap K V := m

/-- How an outcome of the function applied by a parallel algorithm ends the
call: an exception that leaves it calls `std::terminate`. -/
def escapeParallel (e : Err) : Err :=
  if e.isException then .terminate else e

/-- The inner loop of the parallel `FindAllDocuments` over the documents of one
plus-word; `present` is `word_to_document_freqs_.count(word)`. -/
def AccumulateWordPar (s : SearchServer R) (key_mapper : Int → DocumentStatus → Int → Bool)
    (present : Bool) (inverse_document_freq : R) :
    OMap Int R → ConcurrentMap Int R → Except Err (ConcurrentMap Int R)
  | [], document_to_relevance_mt => .ok document_to_relevance_mt
  | (document_id, term_freq) :: rest, document_to_relevance_mt =>
    if present then
      match OMap.find? s.documents_ document_id with
      | none => .error .out_of_range
      | some data =>
        if key_mapper document_id data.status data.rating then
          AccumulateWordPar s key_mapper present inverse_document_freq rest
            (OMap.addAt document_to_relevance_mt document_id (term_freq * inverse_document_freq))
        else
          AccumulateWordPar s key_mapper present inverse_document_freq rest document_to_relevance_mt
    else AccumulateWordPar s key_mapper present inverse_document_freq rest document_to_relevance_mt

/-- The first `for_each` of the parallel `FindAllDocuments`, the plus-words
taken in order (one schedule of the parallel loop). -/
def PlusLoopPar (tc : Toolchain R) (s : SearchServer R)
    (key_mapper : Int → DocumentStatus → Int → Bool) :
    List Word → ConcurrentMap Int R → Except Err (ConcurrentMap Int R)
  | [], document_to_relevance_mt => .ok document_to_relevance_mt
  | word :: rest, document_to_relevance_mt =>
    match ComputeWordInverseDocumentFreq tc s word with
    | .error e => .error (escapeParallel e)
    | .ok inverse_document_freq =>
      match OMap.find? s.word_to_document_freqs_ word with
      | none => .error (escapeParallel .out_of_range)
      | some docs =>
        match AccumulateWordPar s key_mapper
            (decide (OMap.count s.word_to_document_freqs_ word ≠ 0))
            inverse_document_freq docs document_to_relevance_mt with
        | .error e => .error (escapeParallel e)
        | .ok acc => PlusLoopPar tc s key_mapper rest acc

/-- Embedding of `SearchServer::FindAllDocuments(const std::execution::parallel_policy&, ...)`,
each parallel loop run in the order of its range. -/
def FindAllDocumentsPar (tc : Toolchain R) (s : SearchServer R) (query : Query)
    (key_mapper : Int → DocumentStatus → Int → Bool) : Except Err (List (Document R)) :=
  match PlusLoopPar tc s key_mapper query.plus_words [] with
  | .error e => .error e
  | .ok document_to_relevance_mt =>
    match EmitDocuments s
        (MinusLoop s query.minus_words (ConcurrentMap.BuildOrdinaryMap document_to_relevance_mt)) [] with
    | .error e => .error (escapeParallel e)
    | .ok matched_documents => .ok matched_documents

/-- The overload set `FindAllDocuments(policy, query, key_mapper)`. -/
def FindAllDocuments (tc : Toolchain R) (s : SearchServer R) (policy : ExecutionPolicy)
    (query : Query) (key_mapper : Int → DocumentStatus → Int → Bool) :
    Except Err (List (Document R)) :=
  match policy with
  | .seq => FindAllDocumentsSeq tc s query key_mapper
  | .par => FindAllDocumentsPar tc s query key_mapper

/-- The comparator `FindTopDocuments` passes to `std::sort`. -/
def CompareDocuments (lhs rhs : Document R) : Bool :=
  if |lhs.relevance - rhs.relevance| < 1 / 1000000 then decide (lhs.rating > rhs.rating)
  else decide (lhs.relevance > rhs.relevance)

/-- The test of the comparator: the two relevances differ by less than 1e-6. -/
def nearRelevance (a b : Document R) : Prop :=
  |a.relevance - b.relevance| < 1 / 1000000

/-- Embedding of `SearchServer::FindTopDocuments(policy, raw_query, key_mapper)`. -/
def FindTopDocuments (tc : Toolchain R) (s : SearchServer R) (policy : ExecutionPolicy)
    (raw_query : Word) (key_mapper : Int → DocumentStatus → Int → Bool) :
    Except Err (List (Document R)) :=
  match ParseQuery s policy raw_query with
  | .error e => .error e
  | .ok query =>
    match FindAllDocuments tc s policy query key_mapper with
    | .error e => .error e
    | .ok matched_documents =>
      match stdSort tc.sort CompareDocuments matched_documents with
      | .error e => .error e
      | .ok sorted =>
        if sorted.length > MAX_RESULT_DOCUMENT_COUNT then
          .ok (sorted.take MAX_RESULT_DOCUMENT_COUNT)
        else .ok sorted

/-- The lambda of `FindTopDocuments(policy, raw_query, search_status)`:
`status == search_status`. -/
def hasStatus (search_status : DocumentStatus) : Int → DocumentStatus → Int → Bool :=
  fun _document_id status _rating => decide (status = search_status)

/-- Embedding of `SearchServer::FindTopDocuments(policy, raw_query, search_status)`. -/
def FindTopDocumentsByStatus (tc : Toolchain R) (s : SearchServer R) (policy : ExecutionPolicy)
    (raw_query : Word) (search_status : DocumentStatus) : Except Err (List (Document R)) :=
  FindTopDocuments tc s policy raw_query (hasStatus search_status)

/-- The lambda `word_checker` of `SearchServer::MatchDocument`. -/
def word_checker (s : SearchServer R) (document_id : Int) (word : Word) : Bool :=
  match OMap.find? s.word_to_document_freqs_ word with
  | none => false
  | some docs => decide (OMap.count docs document_id ≠ 0)

/-- Embedding of `SearchServer::MatchDocument(policy, raw_query, document_id)`;
under the parallel policy the words are pushed in the order of the range (one
schedule of the parallel loop). -/
def MatchDocument (s : SearchServer R) (policy : ExecutionPolicy) (raw_query : Word)
    (document_id : Int) : Except Err (List Word × DocumentStatus) :=
  if OSet.count s.document_ids_ document_id = 0 then .error .out_of_range
  else
    match ParseQuery s policy raw_query with
    | .error e => .error e
    | .ok query =>
      if query.minus_words.any (word_checker s document_id) then
        match OMap.find? s.documents_ document_id with
        | none => .error .out_of_range
        | some data => .ok ([], data.status)
      else
        let matched_words := query.plus_words.filter (word_checker s document_id)
        match OMap.find? s.documents_ document_id with
        | none => .error .out_of_range
        | some data => .ok (matched_words, data.status)

/-! ## Reachable servers -/

/-- The servers a program can hold: one a constructor returned, and from there
any call of `SetStopWords`, `RemoveDocument` or `AddDocument` that returned or
threw an exception (a call that ends the process leaves no server). -/
inductive Reachable : SearchServer R → Prop
  | ctor (stop_words : List Word) (s : SearchServer R) :
      ofContainer stop_words = .ok s → Reachable s
  | setStopWords (s : SearchServer R) (text : Word) :
      Reachable s → Reachable (SetStopWords s text)
  | addDocument (s : SearchServer R) (document_id : Int) (document : Word)
      (status : DocumentStatus) (ratings : List Int) :
      Reachable s →
      (∀ e, (AddDocument s document_id document status ratings).2 = .error e → e.isException = true) →
      Reachable (AddDocument s document_id document status ratings).1
  | removeDocument (s : SearchServer R) (document_id : Int) :
      Reachable s → Reachable (RemoveDocument s document_id).1

/-! ## Servers whose stop words are those of the constructor -/

/-- The servers a program that never calls `SetStopWords` can hold: one a
constructor returned, and from there any call of `RemoveDocument` or
`AddDocument` that returned or threw an exception. -/
inductive ReachableWithoutSetStopWords : SearchServer R → Prop
  | ctor (stop_words : List Word) (s : SearchServer R) :
      ofContainer stop_words = .ok s → ReachableWithoutSetStopWords s
  | addDocument (s : SearchServer R) (document_id : Int) (document : Word)
      (status : DocumentStatus) (ratings : List Int) :
      ReachableWithoutSetStopWords s →
      (∀ e, (AddDocument s document_id document status ratings).2 = .error e → e.isException = true) →
      ReachableWithoutSetStopWords (AddDocument s document_id document status ratings).1
  | removeDocument (s : SearchServer R) (document_id : Int) :
      ReachableWithoutSetStopWords s → ReachableWithoutSetStopWords (RemoveDocument s document_id).1

/-! ## Malformed queries, in the words of the specification -/

/-- A token that makes a query malformed: it is empty, or is exactly "-", or
begins with "--", or contains a character with code below 0x20. -/
def MalformedToken (tok : Word) : Prop :=
  tok = [] ∨ tok = ['-'] ∨ (∃ rest, tok = '-' :: '-' :: rest) ∨ ∃ c ∈ tok, c.toNat < 0x20

/-- A query text is malformed when, split at every single space, it has a
malformed token. -/
def MalformedQuery (text : Word) : Prop :=
  ∃ tok ∈ text.splitOn ' ', MalformedToken tok

/-! ## Matching and relevance, in the words of the specification -/

/-- Whether the term occurs in the forward-index entry of the document. -/
def InForward (s : SearchServer R) (d : Int) (t : Word) : Bool :=
  (OMap.find2? s.document_to_word_freqs_ d t).isSome

/-- Whether the predicate holds of the document with its stored status and
rating. -/
def Accepts (s : SearchServer R) (key_mapper : Int → DocumentStatus → Int → Bool) (d : Int) :
    Bool :=
  match OMap.find? s.documents_ d with
  | some data => key_mapper d data.status data.rating
  | none => false

/-- Whether the document matches the query under the predicate: the predicate
holds of it, at least one plus-term occurs in its forward-index entry, and no
minus-term does. -/
def Matches (s : SearchServer R) (query : Query) (key_mapper : Int → DocumentStatus → Int → Bool)
    (d : Int) : Bool :=
  Accepts s key_mapper d && query.plus_words.any (InForward s d) &&
    !query.minus_words.any (InForward s d)

/-- The set M of a query: the live ids that match it, in ascending order. -/
def MatchingIds (s : SearchServer R) (query : Query)
    (key_mapper : Int → DocumentStatus → Int → Bool) : List Int :=
  s.document_ids_.filter (Matches s query key_mapper)

/-- The frequency stored for the term in the forward-index entry of the
document. -/
def termFreq (s : SearchServer R) (t : Word) (d : Int) : R :=
  (OMap.find2? s.document_to_word_freqs_ d t).getD 0

/-- The number of live documents that contain the term. -/
def docFreq (s : SearchServer R) (t : Word) : Nat :=
  (s.document_ids_.filter (fun d => InForward s d t)).length

/-- The number of live documents. -/
def liveCount (s : SearchServer R) : Nat :=
  s.document_ids_.length

/-- The relevance of a document for a query: the sum, over the plus-terms that
occur in the forward-index entry of the document, of `tf * log (N / df)`. -/
def Relevance (tc : Toolchain R) (s : SearchServer R) (query : Query) (d : Int) : R :=
  ((query.plus_words.filter (InForward s d)).map
    (fun t => termFreq s t d * tc.log ((liveCount s : R) / (docFreq s t : R)))).sum

/-- The rating stored for a document (0 for a document without a record). -/
def storedRating (s : SearchServer R) (d : Int) : Int :=
  match OMap.find? s.documents_ d with
  | some data => data.rating
  | none => 0

/-! ## Auxiliary notions for the loops of `FindAllDocuments` -/

/-- The value `ComputeWordInverseDocumentFreq` returns for a word. -/
def idfOf (tc : Toolchain R) (s : SearchServer R) (word : Word) : R :=
  tc.log (((GetDocumentCount s : Int) : R) * 1 /
    (((OMap.getD s.word_to_document_freqs_ word []).length : Int) : R))

/-- One more share for a document: `document_to_relevance[document_id] += x`. -/
def bump (o : Option R) (x : R) : Option R := some (o.getD 0 + x)

/-- The shares the words give to a document, in the order of the words. -/
def shares (tc : Toolchain R) (s : SearchServer R) (words : List Word) (d : Int) : List R :=
  words.filterMap (fun t =>
    (OMap.find2? s.word_to_document_freqs_ t d).map (fun tf => tf * idfOf tc s t))

/-! ## The scenario of the specification -/

/-- The server constructed with the stop words "and". -/
def server0 : SearchServer R := ⟨["and".toList], [], [], [], [], []⟩

/-- The server after adding document 0, "white cat and fashionable collar". -/
def server1 : SearchServer R :=
  (AddDocument server0 0 "white cat and fashionable collar".toList .ACTUAL [8, -3]).1

/-- The server after adding document 1, "fluffy cat fluffy tail", as well. -/
def server2 : SearchServer R :=
  (AddDocument server1 1 "fluffy cat fluffy tail".toList .ACTUAL [7, 2, 7]).1

/-- The relevance `FindAllDocuments` computes for document 0 and a query whose
only plus-term in the document is "cat": one of its four words, in both of
the two documents. -/
def rawRelevance0 (tc : Toolchain R) : R :=
  0 + (0 + 1 / ((4 : Nat) : R)) * tc.log ((((2 : Nat) : Int) : R) * 1 / (((2 : Nat) : Int) : R))

/-- The relevance `FindAllDocuments` computes for document 1 and the query
"fluffy well-groomed cat": "cat" as for document 0, and "fluffy", two of its
four words, in one of the two documents. -/
def rawRelevance1 (tc : Toolchain R) : R :=
  0 + (0 + 1 / ((4 : Nat) : R)) * tc.log ((((2 : Nat) : Int) : R) * 1 / (((2 : Nat) : Int) : R))
    + (0 + 1 / ((4 : Nat) : R) + 1 / ((4 : Nat) : R)) *
        tc.log ((((2 : Nat) : Int) : R) * 1 / (((1 : Nat) : Int) : R))

/-! ## Consistency -/

/-- The consistency of the data members that every reachable server has
(`Reachable.inv`): the two indexes are transposes of each other, a document
with a forward-index entry is live, the documents with a record are the live
ones, and every container is in ascending key order. -/
structure Inv (s : SearchServer R) : Prop where
  transpose : ∀ d t, OMap.find2? s.document_to_word_freqs_ d t =
    OMap.find2? s.word_to_document_freqs_ t d
  forward_live : ∀ d, (OMap.find? s.document_to_word_freqs_ d).isSome = true → d ∈ s.document_ids_
  records_live : ∀ d, (OMap.find? s.documents_ d).isSome = true ↔ d ∈ s.document_ids_
  wf_ids : OSet.WF s.document_ids_
  wf_documents : OMap.WF s.documents_
  wf_inverted : OMap.WF s.word_to_document_freqs_
  wf_forward : OMap.WF s.document_to_word_freqs_
  wf_inverted_inner : ∀ t docs, OMap.find? s.word_to_document_freqs_ t = some docs → OMap.WF docs
  wf_forward_inner : ∀ d ws, OMap.find? s.document_to_word_freqs_ d = some ws → OMap.WF ws

/-- The consistency that holds between the passes of the loop of
`AddDocument(document_id, ...)`: as `Inv`, but the document being added may
have a forward-index entry before it is live. -/
structure InvAdding (document_id : Int) (s : SearchServer R) : Prop where
  transpose : ∀ d t, OMap.find2? s.document_to_word_freqs_ d t =
    OMap.find2? s.word_to_document_freqs_ t d
  forward_live : ∀ d, (OMap.find? s.document_to_word_freqs_ d).isSome = true →
    d ∈ s.document_ids_ ∨ d = document_id
  records_live : ∀ d, (OMap.find? s.documents_ d).isSome = true ↔ d ∈ s.document_ids_
  wf_ids : OSet.WF s.document_ids_
  wf_documents : OMap.WF s.documents_
  wf_inverted : OMap.WF s.word_to_document_freqs_
  wf_forward : OMap.WF s.document_to_word_freqs_
  wf_inverted_inner : ∀ t docs, OMap.find? s.word_to_document_freqs_ t = some docs → OMap.WF docs
  wf_forward_inner : ∀ d ws, OMap.find? s.document_to_word_freqs_ d = some ws → OMap.WF ws

/-! ## More servers for the scenarios -/

/-- The server with the stop word "and" after adding document 0, "and": a
document all of whose tokens are stop words. -/
def serverStopOnly : SearchServer R :=
  (AddDocument server0 0 "and".toList .ACTUAL [1]).1

/-- The server with the stop word "and" after adding document 0, "cat". -/
def serverCat : SearchServer R :=
  (AddDocument server0 0 "cat".toList .ACTUAL [1]).1

/-- The server with the stop word "and" and the document 0, "cat", after
`SetStopWords("cat")`. -/
def serverCatStop : SearchServer R :=
  SetStopWords serverCat "cat".toList

/-- The scenario after `RemoveDocument(1)`: document 0, "white cat and
fashionable collar", is left. -/
def serverEmptied : SearchServer R :=
  (RemoveDocument server2 1).1

end SearchServer

/-! ## request_queue.h, request_queue.cpp -/

/-- The struct `RequestQueue::QueryResult`. -/
structure QueryResult where
  raw_query_ : Word
  documents_size_ : Int
  deriving DecidableEq, Repr

/-- The data members of `class RequestQueue` other than the reference
`search_server_`, whose referent the operations take as an argument. -/
structure RequestQueue where
  requests_ : List QueryResult
  empty_query_ : Int
  deriving DecidableEq, Repr

namespace RequestQueue

variable {R : Type} [LinearOrderedField R]

/-- The constant `RequestQueue::kMinInDay`. -/
def kMinInDay : Nat := 1440

/-- Embedding of the constructor `RequestQueue(SearchServer&)`: an empty deque
and the member initialiser `empty_query_ = 0`. -/
def new : RequestQueue := ⟨[], 0⟩

/-- Embedding of `RequestQueue::GetNoResultRequests`. -/
def GetNoResultRequests (q : RequestQueue) : Int := q.empty_query_

/-- Embedding of `RequestQueue::Add`. -/
def Add (q : RequestQueue) (raw_query : Word) (documents_size : Int) : RequestQueue :=
  { requests_ := q.requests_ ++ [⟨raw_query, documents_size⟩]
    empty_query_ := if documents_size = 0 then q.empty_query_ + 1 else q.empty_query_ }

/-- Embedding of `RequestQueue::Remove`, which `Update` calls on a deque that is
not empty. -/
def Remove (q : RequestQueue) : RequestQueue :=
  match q.requests_ with
  | [] => q
  | front :: rest =>
    { requests_ := rest
      empty_query_ := if front.documents_size_ = 0 then q.empty_query_ - 1 else q.empty_query_ }

/-- Embedding of `RequestQueue::Update`. -/
def Update (q : RequestQueue) (result : List (Document R)) (raw_query : Word) : RequestQueue :=
  let q1 := Add q raw_query (result.length : Int)
  if q1.requests_.length > kMinInDay then Remove q1 else q1

/-- Embedding of `RequestQueue::AddFindRequest(raw_query, document_predicate)`
on a queue whose `search_server_` refers to `server`: the queue the call
leaves behind, and its outcome. -/
def AddFindRequest (tc : Toolchain R) (server : SearchServer R) (q : RequestQueue)
    (raw_query : Word) (document_predicate : Int → DocumentStatus → Int → Bool) :
    RequestQueue × Except Err (List (Document R)) :=
  match SearchServer.FindTopDocuments tc server .seq raw_query document_predicate with
  | .error e => (q, .error e)
  | .ok result => (Update q result raw_query, .ok result)

/-- Embedding of `RequestQueue::AddFindRequest(raw_query, search_status)`. -/
def AddFindRequestByStatus (tc : Toolchain R) (server : SearchServer R) (q : RequestQueue)
    (raw_query : Word) (search_status : DocumentStatus) :
    RequestQueue × Except Err (List (Document R)) :=
  AddFindRequest tc server q raw_query (SearchServer.hasStatus search_status)

/-- A sequence of calls of `AddFindRequest`, each with the state of the server
at the time of the call: when every call returns, the queue after the last
one, and for each call its query and the size of its result, in order. -/
def AddFindRequests (tc : Toolchain R) :
    RequestQueue → List (SearchServer R × Word × (Int → DocumentStatus → Int → Bool)) →
      Option (RequestQueue × List QueryResult)
  | q, [] => some (q, [])
  | q, (server, raw_query, document_predicate) :: rest =>
    match AddFindRequest tc server q raw_query document_predicate with
    | (_, .error _) => none
    | (q1, .ok result) =>
      match AddFindRequests tc q1 rest with
      | none => none
      | some (q2, log) => some (q2, ⟨raw_query, (result.length : Int)⟩ :: log)

/-- The number of entries of a log whose result was empty. -/
def emptyResults (log : List QueryResult) : Nat :=
  (log.filter (fun e => decide (e.documents_size_ = 0))).length

/-- The most recent `n` entries of a log, in order. -/
def mostRecent (n : Nat) (log : List QueryResult) : List QueryResult :=
  log.drop (log.length - n)

end RequestQueue

end Search

namespace Search

/-! ## Facts about the ordered containers -/

namespace OMap

variable {K V : Type}

theorem find?_insert [DecidableEq K] [LinearOrder K] (k k' : K) (v : V) (m : OMap K V) :
    find? (insert k v m) k' = if k' = k then some v else find? m k' := by
  induction m with
  | nil =>
    by_cases h : k' = k
    · simp [insert, find?, h]
    · have h' : ¬ k = k' := fun e => h e.symm
      simp [insert, find?, h, h']
  | cons p m ih =>
    obtain ⟨a, b⟩ := p
    unfold insert
    by_cases h1 : k < a
    · by_cases h : k' = k
      · simp [h1, find?, h]
      · have h' : ¬ k = k' := fun e => h e.symm
        simp [h1, find?, h, h']
    · by_cases h2 : a < k
      · simp only [h1, h2, if_false, if_true, find?]
        by_cases h3 : a = k'
        · have h4 : ¬ k' = k := fun e => (ne_of_lt h2) (h3.trans e)
          simp [h3, h4]
        · simp [h3, ih]
      · have e : k = a := le_antisymm (not_lt.1 h2) (not_lt.1 h1)
        subst e
        by_cases h : k' = k
        · simp [find?, h]
        · have h' : ¬ k = k' := fun e => h e.symm
          simp [find?, h, h']

theorem find?_erase [DecidableEq K] (k k' : K) (m : OMap K V) :
    find? (erase k m) k' = if k' = k then none else find? m k' := by
  induction m with
  | nil => simp [erase, find?]
  | cons p m ih =>
    obtain ⟨a, b⟩ := p
    simp only [erase, ne_eq, decide_not] at ih ⊢
    by_cases h1 : a = k
    · subst h1
      by_cases h : k' = a
      · subst h
        simpa [List.filter] using ih
      · have h' : ¬ a = k' := fun e => h e.symm
        simp [List.filter, ih, h, h', find?]
    · by_cases h : k' = k
      · subst h
        simp [List.filter, h1, find?, ih]
      · simp [List.filter, h1, find?, ih, h]

theorem mem_keys_iff [DecidableEq K] (m : OMap K V) (k : K) :
    k ∈ keys m ↔ (find? m k).isSome = true := by
  induction m with
  | nil => simp [keys, find?]
  | cons p m ih =>
    obtain ⟨a, b⟩ := p
    by_cases h : a = k
    · simp [keys, find?, h]
    · have h' : ¬ k = a := fun e => h e.symm
      simp only [keys, List.map_cons, List.mem_cons, h', false_or, find?, h, if_false]
      exact ih

theorem find?_of_mem [DecidableEq K] [LT K] [IsIrrefl K (· < ·)] {m : OMap K V} (hm : WF m)
    {k : K} {v : V} (h : (k, v) ∈ m) : find? m k = some v := by
  induction m with
  | nil => cases h
  | cons p m ih =>
    obtain ⟨a, b⟩ := p
    simp only [WF, keys, List.map_cons, List.pairwise_cons] at hm
    rcases List.mem_cons.1 h with h | h
    · cases h
      simp [find?]
    · have hk : k ∈ List.map Prod.fst m := List.mem_map.2 ⟨(k, v), h, rfl⟩
      have hne : a ≠ k := by
        intro e
        subst e
        exact irrefl a (hm.1 a hk)
      simp only [find?, hne, if_false]
      exact ih hm.2 h

theorem mem_of_find? [DecidableEq K] {m : OMap K V} {k : K} {v : V} (h : find? m k = some v) :
    (k, v) ∈ m := by
  induction m with
  | nil => simp [find?] at h
  | cons p m ih =>
    obtain ⟨a, b⟩ := p
    by_cases e : a = k
    · simp [find?, e] at h
      simp [e, h]
    · simp only [find?, e, if_false] at h
      exact List.mem_cons_of_mem _ (ih h)

theorem mem_keys_insert [DecidableEq K] [LinearOrder K] (k x : K) (v : V) (m : OMap K V) :
    x ∈ keys (insert k v m) ↔ x = k ∨ x ∈ keys m := by
  rw [mem_keys_iff, mem_keys_iff, find?_insert]
  by_cases h : x = k <;> simp [h]

theorem WF_insert [DecidableEq K] [LinearOrder K] (k : K) (v : V) {m : OMap K V} (hm : WF m) :
    WF (insert k v m) := by
  induction m with
  | nil => simp [WF, keys, insert]
  | cons p m ih =>
    obtain ⟨a, b⟩ := p
    have hm' := hm
    simp only [WF, keys, List.map_cons, List.pairwise_cons] at hm
    unfold insert
    by_cases h1 : k < a
    · simp only [h1, if_true, WF, keys, List.map_cons, List.pairwise_cons]
      refine ⟨?_, hm⟩
      intro x hx
      rcases List.mem_cons.1 hx with hx | hx
      · exact hx ▸ h1
      · exact lt_trans h1 (hm.1 x hx)
    · by_cases h2 : a < k
      · simp only [h1, h2, if_false, if_true]
        have ih' := ih hm.2
        simp only [WF, keys, List.map_cons, List.pairwise_cons]
        refine ⟨?_, ih'⟩
        intro x hx
        rcases (mem_keys_insert k x v m).1 hx with hx | hx
        · exact hx ▸ h2
        · exact hm.1 x hx
      · have e : k = a := le_antisymm (not_lt.1 h2) (not_lt.1 h1)
        subst e
        simpa [WF, keys] using hm

theorem WF_erase [DecidableEq K] [LT K] (k : K) {m : OMap K V} (hm : WF m) : WF (erase k m) := by
  unfold WF keys erase at *
  exact List.Pairwise.sublist (List.Sublist.map _ (List.filter_sublist m)) hm

theorem mem_keys_erase [DecidableEq K] (k x : K) (m : OMap K V) :
    x ∈ keys (erase k m) ↔ x ≠ k ∧ x ∈ keys m := by
  rw [mem_keys_iff, mem_keys_iff, find?_erase]
  by_cases h : x = k <;> simp [h]

theorem WF_nodup [Preorder K] {m : OMap K V} (hm : WF m) : (keys m).Nodup :=
  List.Pairwise.imp (fun h => ne_of_lt h) hm

end OMap

namespace OSet

variable {K : Type}

theorem mem_insert [LinearOrder K] (k x : K) (s : OSet K) :
    x ∈ insert k s ↔ x = k ∨ x ∈ s := by
  induction s with
  | nil => simp [insert]
  | cons a s ih =>
    unfold insert
    by_cases h1 : k < a
    · simp [h1]
    · by_cases h2 : a < k
      · simp only [h1, h2, if_false, if_true, List.mem_cons, ih]
        tauto
      · have e : k = a := le_antisymm (not_lt.1 h2) (not_lt.1 h1)
        subst e
        simp

theorem insert_WF [LinearOrder K] (k : K) {s : OSet K} (hs : WF s) : WF (insert k s) := by
  induction s with
  | nil => simp [WF, insert]
  | cons a s ih =>
    have hs' := hs
    simp only [WF, List.pairwise_cons] at hs
    unfold insert
    by_cases h1 : k < a
    · simp only [h1, if_true, WF, List.pairwise_cons]
      refine ⟨?_, hs⟩
      intro x hx
      rcases List.mem_cons.1 hx with hx | hx
      · exact hx ▸ h1
      · exact lt_trans h1 (hs.1 x hx)
    · by_cases h2 : a < k
      · simp only [h1, h2, if_false, if_true]
        simp only [WF, List.pairwise_cons]
        refine ⟨?_, ih hs.2⟩
        intro x hx
        rcases (mem_insert k x s).1 hx with hx | hx
        · exact hx ▸ h2
        · exact hs.1 x hx
      · have e : k = a := le_antisymm (not_lt.1 h2) (not_lt.1 h1)
        subst e
        simpa [WF] using hs

theorem mem_erase [DecidableEq K] (k x : K) (s : OSet K) :
    x ∈ erase k s ↔ x ≠ k ∧ x ∈ s := by
  simp [erase, List.mem_filter, and_comm]

theorem erase_WF [DecidableEq K] [LT K] (k : K) {s : OSet K} (hs : WF s) : WF (erase k s) :=
  List.Pairwise.sublist (List.filter_sublist s) hs

end OSet

end Search

namespace Search

namespace SearchServer

variable {R : Type} [LinearOrderedField R]

/-! ## The scenario servers are reachable -/

theorem server0_reachable : Reachable (server0 : SearchServer R) :=
  Reachable.ctor ["and".toList] server0 rfl

theorem server1_reachable : Reachable (server1 : SearchServer R) :=
  Reachable.addDocument server0 0 "white cat and fashionable collar".toList .ACTUAL [8, -3]
    server0_reachable
    (fun e he => by
      have h2 : (AddDocument (server0 : SearchServer R) 0
          "white cat and fashionable collar".toList .ACTUAL [8, -3]).2 = .ok () := rfl
      rw [h2] at he
      cases he)

theorem server2_reachable : Reachable (server2 : SearchServer R) :=
  Reachable.addDocument server1 1 "fluffy cat fluffy tail".toList .ACTUAL [7, 2, 7]
    server1_reachable
    (fun e he => by
      have h2 : (AddDocument (server1 : SearchServer R) 1
          "fluffy cat fluffy tail".toList .ACTUAL [7, 2, 7]).2 = .ok () := rfl
      rw [h2] at he
      cases he)

end SearchServer

end Search

namespace Search

namespace OMap

variable {K V : Type}

theorem find?_getD_nil {A B : Type} [DecidableEq A] [DecidableEq B] (m : OMap A (OMap B V))
    (a : A) (b : B) : find? (getD m a []) b = find2? m a b := by
  unfold getD find2?
  cases find? m a <;> simp [find?]

theorem find2?_insert {A B : Type} [DecidableEq A] [LinearOrder A] [DecidableEq B] (m : OMap A (OMap B V))
    (a a' : A) (inner : OMap B V) (b : B) :
    find2? (insert a inner m) a' b = if a' = a then find? inner b else find2? m a' b := by
  unfold find2?
  rw [find?_insert]
  by_cases h : a' = a <;> simp [h]

theorem find2?_erase {A B : Type} [DecidableEq A] [DecidableEq B] (m : OMap A (OMap B V))
    (a a' : A) (b : B) :
    find2? (erase a m) a' b = if a' = a then none else find2? m a' b := by
  unfold find2?
  rw [find?_erase]
  by_cases h : a' = a <;> simp [h]

theorem getD_getD_nil {A B : Type} [DecidableEq A] [DecidableEq B] (m : OMap A (OMap B V))
    (a : A) (b : B) (d : V) : getD (getD m a []) b d = (find2? m a b).getD d := by
  unfold getD
  rw [← find?_getD_nil]
  rfl

theorem WF_nil [LT K] : WF ([] : OMap K V) := List.Pairwise.nil

theorem WF_getD_nil {A B : Type} [DecidableEq A] [LT B] (m : OMap A (OMap B V)) (a : A)
    (h : ∀ inner, find? m a = some inner → WF inner) : WF (getD m a []) := by
  unfold getD
  cases e : find? m a with
  | none => exact WF_nil
  | some inner => exact h inner e

theorem erase_erase [DecidableEq K] (k : K) (m : OMap K V) : erase k (erase k m) = erase k m := by
  simp [erase, List.filter_filter]

end OMap

namespace SearchServer

variable {R : Type} [LinearOrderedField R]

/-! ## The consistency of reachable servers -/

theorem Inv.toAdding {s : SearchServer R} (h : Inv s) (document_id : Int) :
    InvAdding document_id s :=
  { transpose := h.transpose
    forward_live := fun d hd => Or.inl (h.forward_live d hd)
    records_live := h.records_live
    wf_ids := h.wf_ids
    wf_documents := h.wf_documents
    wf_inverted := h.wf_inverted
    wf_forward := h.wf_forward
    wf_inverted_inner := h.wf_inverted_inner
    wf_forward_inner := h.wf_forward_inner }

theorem AddDocumentStep_inverted (s : SearchServer R) (document_id : Int) (x : R) (word : Word)
    (t : Word) (d : Int) :
    OMap.find2? (AddDocumentStep document_id x s word).word_to_document_freqs_ t d =
      if t = word then
        (if d = document_id then
          some ((OMap.find2? s.word_to_document_freqs_ word document_id).getD 0 + x)
        else OMap.find2? s.word_to_document_freqs_ word d)
      else OMap.find2? s.word_to_document_freqs_ t d := by
  simp only [AddDocumentStep, OMap.find2?_insert, OMap.addAt, OMap.find?_insert,
    OMap.getD_getD_nil, OMap.find?_getD_nil]

theorem AddDocumentStep_forward (s : SearchServer R) (document_id : Int) (x : R) (word : Word)
    (d : Int) (t : Word) :
    OMap.find2? (AddDocumentStep document_id x s word).document_to_word_freqs_ d t =
      if d = document_id then
        (if t = word then
          some ((OMap.find2? s.document_to_word_freqs_ document_id word).getD 0 + x)
        else OMap.find2? s.document_to_word_freqs_ document_id t)
      else OMap.find2? s.document_to_word_freqs_ d t := by
  simp only [AddDocumentStep, OMap.find2?_insert, OMap.addAt, OMap.find?_insert,
    OMap.getD_getD_nil, OMap.find?_getD_nil]

theorem InvAdding.step {document_id : Int} {s : SearchServer R} (h : InvAdding document_id s)
    (x : R) (word : Word) : InvAdding document_id (AddDocumentStep document_id x s word) := by
  refine
    { transpose := ?_
      forward_live := ?_
      records_live := h.records_live
      wf_ids := h.wf_ids
      wf_documents := h.wf_documents
      wf_inverted := OMap.WF_insert _ _ h.wf_inverted
      wf_forward := OMap.WF_insert _ _ h.wf_forward
      wf_inverted_inner := ?_
      wf_forward_inner := ?_ }
  · intro d t
    rw [AddDocumentStep_inverted, AddDocumentStep_forward]
    by_cases hd : d = document_id
    · by_cases ht : t = word
      · subst hd
        subst ht
        simp [h.transpose]
      · subst hd
        simp [ht, h.transpose]
    · by_cases ht : t = word
      · subst ht
        simp [hd, h.transpose]
      · simp [hd, ht, h.transpose]
  · intro d hd
    simp only [AddDocumentStep, OMap.find?_insert] at hd
    by_cases e : d = document_id
    · exact Or.inr e
    · simp only [e, if_false] at hd
      exact h.forward_live d hd
  · intro t docs ht
    simp only [AddDocumentStep, OMap.find?_insert] at ht
    by_cases e : t = word
    · simp only [e, if_true, Option.some.injEq] at ht
      rw [← ht]
      exact OMap.WF_insert _ _ (OMap.WF_getD_nil _ _ (h.wf_inverted_inner word))
    · simp only [e, if_false] at ht
      exact h.wf_inverted_inner t docs ht
  · intro d ws hd
    simp only [AddDocumentStep, OMap.find?_insert] at hd
    by_cases e : d = document_id
    · simp only [e, if_true, Option.some.injEq] at hd
      rw [← hd]
      exact OMap.WF_insert _ _ (OMap.WF_getD_nil _ _ (h.wf_forward_inner document_id))
    · simp only [e, if_false] at hd
      exact h.wf_forward_inner d ws hd

theorem InvAdding.foldl {document_id : Int} (x : R) (words : List Word) :
    ∀ {s : SearchServer R}, InvAdding document_id s →
      InvAdding document_id (words.foldl (AddDocumentStep document_id x) s) := by
  induction words with
  | nil => intro s h; exact h
  | cons w ws ih => intro s h; exact ih (h.step x w)

theorem AddDocumentStep_fixed (document_id : Int) (x : R) (s : SearchServer R) (word : Word) :
    (AddDocumentStep document_id x s word).documents_ = s.documents_ ∧
    (AddDocumentStep document_id x s word).document_ids_ = s.document_ids_ ∧
    (AddDocumentStep document_id x s word).stop_words_ = s.stop_words_ :=
  ⟨rfl, rfl, rfl⟩

theorem AddDocument_foldl_fixed (document_id : Int) (x : R) (words : List Word) :
    ∀ s : SearchServer R,
      (words.foldl (AddDocumentStep document_id x) s).documents_ = s.documents_ ∧
      (words.foldl (AddDocumentStep document_id x) s).document_ids_ = s.document_ids_ ∧
      (words.foldl (AddDocumentStep document_id x) s).stop_words_ = s.stop_words_ := by
  induction words with
  | nil => intro s; exact ⟨rfl, rfl, rfl⟩
  | cons w ws ih =>
    intro s
    obtain ⟨h1, h2, h3⟩ := ih (AddDocumentStep document_id x s w)
    exact ⟨h1, h2, h3⟩

/-- Recording the document and making its id live completes the addition. -/
theorem InvAdding.finish {document_id : Int} {s : SearchServer R} (h : InvAdding document_id s)
    (data : DocumentData) :
    Inv { s with
          documents_ := OMap.emplace document_id data s.documents_
          document_ids_ := OSet.insert document_id s.document_ids_ } := by
  refine
    { transpose := h.transpose
      forward_live := ?_
      records_live := ?_
      wf_ids := OSet.insert_WF _ h.wf_ids
      wf_documents := ?_
      wf_inverted := h.wf_inverted
      wf_forward := h.wf_forward
      wf_inverted_inner := h.wf_inverted_inner
      wf_forward_inner := h.wf_forward_inner }
  · intro d hd
    show d ∈ OSet.insert document_id s.document_ids_
    rw [OSet.mem_insert]
    rcases h.forward_live d hd with h1 | h1
    · exact Or.inr h1
    · exact Or.inl h1
  · intro d
    show (OMap.find? (OMap.emplace document_id data s.documents_) d).isSome = true ↔
      d ∈ OSet.insert document_id s.document_ids_
    rw [OSet.mem_insert]
    unfold OMap.emplace OMap.count
    by_cases hc : (OMap.find? s.documents_ document_id).isSome = true
    · simp only [hc, if_true, Nat.lt_one_iff, gt_iff_lt, Nat.zero_lt_one]
      constructor
      · intro hd
        exact Or.inr ((h.records_live d).1 hd)
      · rintro (hd | hd)
        · rw [hd]; exact hc
        · exact (h.records_live d).2 hd
    · simp only [hc, if_false, gt_iff_lt, Nat.lt_irrefl, Bool.false_eq_true]
      rw [OMap.find?_insert]
      by_cases e : d = document_id
      · simp [e]
      · simp only [e, if_false, false_or]
        exact h.records_live d
  · show OMap.WF (OMap.emplace document_id data s.documents_)
    unfold OMap.emplace
    split
    · exact h.wf_documents
    · exact OMap.WF_insert _ _ h.wf_documents

theorem ComputeAverageRating_error {ratings : List Int} {e : Err}
    (h : ComputeAverageRating ratings = .error e) : e = .division_by_zero ∧ ratings = [] := by
  unfold ComputeAverageRating at h
  simp only at h
  split at h
  · rename_i h0
    cases h
    exact ⟨rfl, List.length_eq_zero.1 h0⟩
  · cases h

theorem Inv.addDocument {s : SearchServer R} (h : Inv s) (document_id : Int) (document : Word)
    (status : DocumentStatus) (ratings : List Int)
    (hex : ∀ e, (AddDocument s document_id document status ratings).2 = .error e →
      e.isException = true) :
    Inv (AddDocument s document_id document status ratings).1 := by
  by_cases hg : document_id < 0 ∨ OMap.count s.documents_ document_id > 0
  · simp only [AddDocument, hg, if_true]
    exact h
  · cases hw : SplitIntoWordsNoStop s document with
    | error e =>
      simp only [AddDocument, hg, if_false, hw]
      exact h
    | ok words =>
      cases hr : ComputeAverageRating ratings with
      | error e =>
        exfalso
        have he := (ComputeAverageRating_error hr).1
        have h2 := hex e (by simp only [AddDocument, hg, if_false, hw, hr])
        rw [he] at h2
        cases h2
      | ok rating =>
        simp only [AddDocument, hg, if_false, hw, hr]
        exact ((h.toAdding document_id).foldl _ words).finish ⟨rating, status⟩

/-- The loop of `RemoveDocument` runs to its end when every word it visits is a
key of the inverted index, and erases the document under exactly those
words. -/
theorem RemoveDocumentLoop_spec (document_id : Int) (words : List Word) :
    ∀ (w2d : OMap Word (OMap Int R)),
      (∀ w ∈ words, (OMap.find? w2d w).isSome = true) →
      ∃ w2d', RemoveDocumentLoop document_id words w2d = (w2d', true) ∧
        (∀ t, OMap.find? w2d' t =
          if t ∈ words then (OMap.find? w2d t).map (OMap.erase document_id)
          else OMap.find? w2d t) ∧
        (OMap.WF w2d → OMap.WF w2d') := by
  induction words with
  | nil =>
    intro w2d _
    exact ⟨w2d, rfl, fun t => by simp, fun h => h⟩
  | cons word rest ih =>
    intro w2d hw
    have h1 := hw word (List.mem_cons_self _ _)
    obtain ⟨docs, hdocs⟩ := Option.isSome_iff_exists.1 h1
    have hrest : ∀ w ∈ rest,
        (OMap.find? (OMap.insert word (OMap.erase document_id docs) w2d) w).isSome = true := by
      intro w hwr
      rw [OMap.find?_insert]
      by_cases e : w = word
      · simp [e]
      · simp only [e, if_false]
        exact hw w (List.mem_cons_of_mem _ hwr)
    obtain ⟨w2d', hrun, hfind, hwf⟩ := ih _ hrest
    refine ⟨w2d', ?_, ?_, ?_⟩
    · simp only [RemoveDocumentLoop, hdocs]
      exact hrun
    · intro t
      rw [hfind t, OMap.find?_insert]
      by_cases e : t = word
      · subst e
        by_cases hr : t ∈ rest
        · simp [hr, hdocs, OMap.erase_erase]
        · simp [hr, hdocs]
      · by_cases hr : t ∈ rest
        · simp [hr, e]
        · simp [hr, e]
    · intro h
      exact hwf (OMap.WF_insert _ _ h)

theorem Inv.removeDocument {s : SearchServer R} (h : Inv s) (document_id : Int) :
    Inv (RemoveDocument s document_id).1 := by
  unfold RemoveDocument
  by_cases hc : OSet.count s.document_ids_ document_id = 0
  · simp only [hc, if_true]
    exact h
  · simp only [hc, if_false]
    have hrec : ∀ d, (OMap.find? (OMap.erase document_id s.documents_) d).isSome = true ↔
        d ∈ OSet.erase document_id s.document_ids_ := by
      intro d
      rw [OMap.find?_erase, OSet.mem_erase]
      by_cases e : d = document_id
      · simp [e]
      · simp only [e, if_false, ne_eq, not_false_eq_true, true_and]
        exact h.records_live d
    cases hf : OMap.find? s.document_to_word_freqs_ document_id with
    | none =>
      simp only
      refine
        { transpose := h.transpose
          forward_live := ?_
          records_live := hrec
          wf_ids := OSet.erase_WF _ h.wf_ids
          wf_documents := OMap.WF_erase _ h.wf_documents
          wf_inverted := h.wf_inverted
          wf_forward := h.wf_forward
          wf_inverted_inner := h.wf_inverted_inner
          wf_forward_inner := h.wf_forward_inner }
      intro d hd
      show d ∈ OSet.erase document_id s.document_ids_
      rw [OSet.mem_erase]
      refine ⟨?_, h.forward_live d hd⟩
      intro e
      rw [e, hf] at hd
      cases hd
    | some word_freqs =>
      simp only
      have hkeys : ∀ w ∈ OMap.keys word_freqs,
          (OMap.find? s.word_to_document_freqs_ w).isSome = true := by
        intro w hw
        have h1 := (OMap.mem_keys_iff word_freqs w).1 hw
        have h2 : (OMap.find2? s.document_to_word_freqs_ document_id w).isSome = true := by
          simpa [OMap.find2?, hf] using h1
        rw [h.transpose] at h2
        unfold OMap.find2? at h2
        cases e : OMap.find? s.word_to_document_freqs_ w with
        | none => simp [e] at h2
        | some v => rfl
      obtain ⟨w2d', hrun, hfind, hwf⟩ :=
        RemoveDocumentLoop_spec document_id (OMap.keys word_freqs) s.word_to_document_freqs_ hkeys
      rw [hrun]
      simp only
      refine
        { transpose := ?_
          forward_live := ?_
          records_live := hrec
          wf_ids := OSet.erase_WF _ h.wf_ids
          wf_documents := OMap.WF_erase _ h.wf_documents
          wf_inverted := hwf h.wf_inverted
          wf_forward := OMap.WF_erase _ h.wf_forward
          wf_inverted_inner := ?_
          wf_forward_inner := ?_ }
      · intro d t
        show OMap.find2? (OMap.erase document_id s.document_to_word_freqs_) d t =
          OMap.find2? w2d' t d
        rw [OMap.find2?_erase]
        have hw : OMap.find2? w2d' t d =
            if d = document_id then none else OMap.find2? s.word_to_document_freqs_ t d := by
          unfold OMap.find2?
          rw [hfind t]
          by_cases ht : t ∈ OMap.keys word_freqs
          · simp only [ht, if_true]
            cases e : OMap.find? s.word_to_document_freqs_ t with
            | none => simp
            | some docs => simp [OMap.find?_erase]
          · simp only [ht, if_false]
            by_cases e : d = document_id
            · subst e
              simp only [if_true]
              have h3 := h.transpose d t
              unfold OMap.find2? at h3
              rw [← h3, hf]
              simp only [Option.some_bind]
              cases e2 : OMap.find? word_freqs t with
              | none => rfl
              | some v =>
                exact absurd ((OMap.mem_keys_iff word_freqs t).2 (by simp [e2])) ht
            · simp [e]
        rw [hw]
        by_cases e : d = document_id
        · simp [e]
        · simp only [e, if_false]
          exact h.transpose d t
      · intro d hd
        show d ∈ OSet.erase document_id s.document_ids_
        have hd' : (OMap.find? (OMap.erase document_id s.document_to_word_freqs_) d).isSome = true := hd
        rw [OMap.find?_erase] at hd'
        rw [OSet.mem_erase]
        by_cases e : d = document_id
        · simp [e] at hd'
        · simp only [e, if_false] at hd'
          exact ⟨e, h.forward_live d hd'⟩
      · intro t docs ht
        have ht' : OMap.find? w2d' t = some docs := ht
        rw [hfind t] at ht'
        by_cases hk : t ∈ OMap.keys word_freqs
        · simp only [hk, if_true] at ht'
          cases e : OMap.find? s.word_to_document_freqs_ t with
          | none => simp [e] at ht'
          | some docs0 =>
            simp only [e, Option.map_some', Option.some.injEq] at ht'
            rw [← ht']
            exact OMap.WF_erase _ (h.wf_inverted_inner t docs0 e)
        · simp only [hk, if_false] at ht'
          exact h.wf_inverted_inner t docs ht'
      · intro d ws hd
        have hd' : OMap.find? (OMap.erase document_id s.document_to_word_freqs_) d = some ws := hd
        rw [OMap.find?_erase] at hd'
        by_cases e : d = document_id
        · simp [e] at hd'
        · simp only [e, if_false] at hd'
          exact h.wf_forward_inner d ws hd'

theorem Inv.ofContainer {stop_words : List Word} {s : SearchServer R}
    (h : ofContainer stop_words = .ok s) : Inv s := by
  unfold SearchServer.ofContainer at h
  cases hm : MakeUniqueNonEmptyStrings stop_words [] with
  | error e => simp [hm] at h
  | ok stop =>
    simp only [hm, Except.ok.injEq] at h
    subst h
    exact
      { transpose := fun d t => rfl
        forward_live := fun d hd => by simp [OMap.find?] at hd
        records_live := fun d => by simp [OMap.find?]
        wf_ids := List.Pairwise.nil
        wf_documents := List.Pairwise.nil
        wf_inverted := List.Pairwise.nil
        wf_forward := List.Pairwise.nil
        wf_inverted_inner := fun t docs ht => by simp [OMap.find?] at ht
        wf_forward_inner := fun d ws hd => by simp [OMap.find?] at hd }

theorem Inv.setStopWords {s : SearchServer R} (h : Inv s) (text : Word) :
    Inv (SetStopWords s text) :=
  { transpose := h.transpose
    forward_live := h.forward_live
    records_live := h.records_live
    wf_ids := h.wf_ids
    wf_documents := h.wf_documents
    wf_inverted := h.wf_inverted
    wf_forward := h.wf_forward
    wf_inverted_inner := h.wf_inverted_inner
    wf_forward_inner := h.wf_forward_inner }

/-- Every reachable server is consistent. -/
theorem Reachable.inv {s : SearchServer R} (h : Reachable s) : Inv s := by
  induction h with
  | ctor stop_words s hs => exact Inv.ofContainer hs
  | setStopWords s text _ ih => exact ih.setStopWords text
  | addDocument s document_id document status ratings _ hex ih =>
    exact ih.addDocument document_id document status ratings hex
  | removeDocument s document_id _ ih => exact ih.removeDocument document_id

end SearchServer

end Search

namespace Search

/-! ## The tokenizer -/

theorem find_eq_none {text : Word} {c : Char} : find text c = none ↔ c ∉ text := by
  induction text with
  | nil => simp [find]
  | cons x xs ih =>
    unfold find
    by_cases h : x = c
    · simp [h]
    · have h' : ¬ c = x := fun e => h e.symm
      simp [h, h', ih]

theorem find_eq_some {text : Word} {c : Char} {i : Nat} (h : find text c = some i) :
    text = text.take i ++ c :: text.drop (i + 1) ∧ c ∉ text.take i := by
  induction text generalizing i with
  | nil => simp [find] at h
  | cons x xs ih =>
    unfold find at h
    by_cases hx : x = c
    · simp only [hx, if_true, Option.some.injEq] at h
      subst h
      simp [hx]
    · simp only [hx, if_false, Option.map_eq_some'] at h
      obtain ⟨j, hj, rfl⟩ := h
      obtain ⟨h1, h2⟩ := ih hj
      have hx' : ¬ c = x := fun e => hx e.symm
      refine ⟨?_, ?_⟩
      · simp only [List.take_succ_cons, List.drop_succ_cons, List.cons_append]
        rw [← h1]
      · simp [hx', h2]

theorem SplitIntoWordsLoop_eq (fuel : Nat) :
    ∀ (text : Word) (result : List Word), text.length ≤ fuel →
      SplitIntoWordsLoop fuel text result = result ++ text.splitOn ' ' := by
  induction fuel with
  | zero =>
    intro text result h
    have : text = [] := List.length_eq_zero.1 (Nat.le_zero.1 h)
    subst this
    simp [SplitIntoWordsLoop, List.splitOn, List.splitOnP_nil]
  | succ fuel ih =>
    intro text result h
    unfold SplitIntoWordsLoop
    cases hf : find text ' ' with
    | none =>
      simp only
      have hno : ∀ x ∈ text, ¬ ((x == ' ') = true) := by
        intro x hx e
        have : x = ' ' := by simpa using e
        exact (find_eq_none.1 hf) (this ▸ hx)
      rw [List.splitOn, List.splitOnP_eq_single _ _ hno]
    | some space =>
      simp only
      obtain ⟨h1, h2⟩ := find_eq_some hf
      have hno : ∀ x ∈ text.take space, ¬ ((x == ' ') = true) := by
        intro x hx e
        have : x = ' ' := by simpa using e
        exact h2 (this ▸ hx)
      have hlen : (text.drop (space + 1)).length ≤ fuel := by
        have h3 : text.length = (text.take space).length + ((text.drop (space + 1)).length + 1) := by
          conv_lhs => rw [h1]
          simp
        omega
      rw [ih _ _ hlen]
      conv_rhs => rw [h1, List.splitOn, List.splitOnP_first _ _ hno ' ' (by simp)]
      simp [List.splitOn]

/-- The embedded loop computes the split of the text at every space. -/
theorem SplitIntoWords_eq_splitOn (text : Word) : SplitIntoWords text = text.splitOn ' ' := by
  unfold SplitIntoWords
  rw [SplitIntoWordsLoop_eq _ _ _ (Nat.le_refl _)]
  rfl

theorem splitOn_nil_char : ([] : Word).splitOn ' ' = [[]] := by
  simp [List.splitOn, List.splitOnP_nil]

theorem splitOn_cons_char (c : Char) (cs : Word) :
    (c :: cs).splitOn ' ' =
      if c = ' ' then [] :: cs.splitOn ' ' else (cs.splitOn ' ').modifyHead (List.cons c) := by
  simp only [List.splitOn, List.splitOnP_cons, beq_iff_eq]

namespace SearchServer

variable {R : Type} [LinearOrderedField R]

theorem IsValidWord_eq_false_iff (word : Word) :
    IsValidWord word = false ↔ ∃ c ∈ word, c.toNat < 0x20 := by
  unfold IsValidWord
  rw [← Bool.not_eq_true, List.all_eq_true]
  simp only [Bool.not_eq_true', Bool.and_eq_true, decide_eq_true_eq, Bool.not_eq_eq_eq_not,
    Bool.not_true, Bool.and_eq_false_imp, decide_eq_false_iff_not, not_forall]
  constructor
  · rintro ⟨c, hc, h⟩
    refine ⟨c, hc, ?_⟩
    obtain ⟨_, h3⟩ := h
    have h4 : c.toNat < ' '.toNat := not_not.1 h3
    exact h4
  · rintro ⟨c, hc, h⟩
    exact ⟨c, hc, Nat.zero_le _, not_not.2 h⟩

theorem IsValidWord_eq_true_iff (word : Word) :
    IsValidWord word = true ↔ ∀ c ∈ word, ¬ c.toNat < 0x20 := by
  rw [← Bool.not_eq_false, IsValidWord_eq_false_iff]
  simp

/-- The loop of `SplitIntoWordsNoStop` throws exactly when a token is not a
valid word, and otherwise returns the tokens that are not stop words. -/
theorem SplitIntoWordsNoStopLoop_spec (s : SearchServer R) (tokens : List Word) :
    ∀ words : List Word,
      ((∃ tok ∈ tokens, IsValidWord tok = false) ∧
        SplitIntoWordsNoStopLoop s tokens words = .error .invalid_argument) ∨
      ((∀ tok ∈ tokens, IsValidWord tok = true) ∧
        SplitIntoWordsNoStopLoop s tokens words =
          .ok (words ++ tokens.filter (fun w => !IsStopWord s w))) := by
  induction tokens with
  | nil => intro words; right; simp [SplitIntoWordsNoStopLoop]
  | cons tok rest ih =>
    intro words
    unfold SplitIntoWordsNoStopLoop
    by_cases hv : IsValidWord tok = true
    · by_cases hstop : IsStopWord s tok = true
      · rcases ih words with ⟨⟨t, ht, hbad⟩, herr⟩ | ⟨hall, hok⟩
        · left
          exact ⟨⟨t, List.mem_cons_of_mem _ ht, hbad⟩, by simp [hv, hstop, herr]⟩
        · right
          refine ⟨?_, by simp [hv, hstop, hok]⟩
          intro t ht
          rcases List.mem_cons.1 ht with ht | ht
          · exact ht ▸ hv
          · exact hall t ht
      · rcases ih (words ++ [tok]) with ⟨⟨t, ht, hbad⟩, herr⟩ | ⟨hall, hok⟩
        · left
          exact ⟨⟨t, List.mem_cons_of_mem _ ht, hbad⟩, by simp [hv, hstop, herr]⟩
        · right
          refine ⟨?_, by simp [hv, hstop, hok]⟩
          intro t ht
          rcases List.mem_cons.1 ht with ht | ht
          · exact ht ▸ hv
          · exact hall t ht
    · left
      have hv' : IsValidWord tok = false := by simpa using hv
      exact ⟨⟨tok, List.mem_cons_self _ _, hv'⟩, by simp [hv']⟩

end SearchServer

end Search

namespace Search

theorem splitOn_ne_nil (text : Word) : text.splitOn ' ' ≠ [] := by
  unfold List.splitOn
  exact List.splitOnP_ne_nil _ _

/-- Splitting at a space splits the token lists. -/
theorem splitOn_append_space (pre post : Word) :
    (pre ++ ' ' :: post).splitOn ' ' = pre.splitOn ' ' ++ post.splitOn ' ' := by
  induction pre with
  | nil => simp [splitOn_cons_char, splitOn_nil_char]
  | cons c cs ih =>
    rw [List.cons_append, splitOn_cons_char, splitOn_cons_char, ih]
    by_cases h : c = ' '
    · simp [h]
    · simp only [h, if_false]
      cases e : cs.splitOn ' ' with
      | nil => exact absurd e (splitOn_ne_nil cs)
      | cons w ws => rfl

namespace SearchServer

variable {R : Type} [LinearOrderedField R]

/-! ## Query parsing -/

/-- A token of a query that `ParseQueryWord` rejects: it is empty, or "-", or
begins with "--", or contains a character with code below 0x20. -/
theorem ParseQueryWord_error_iff (s : SearchServer R) (policy : ExecutionPolicy) (tok : Word) :
    ParseQueryWord s policy tok = .error .invalid_argument ↔
      (tok = [] ∨ tok = ['-'] ∨ (∃ rest, tok = '-' :: '-' :: rest) ∨
        ∃ c ∈ tok, c.toNat < 0x20) := by
  cases tok with
  | nil => simp [ParseQueryWord]
  | cons a rest =>
    by_cases ha : a = '-'
    · subst ha
      cases rest with
      | nil => simp [ParseQueryWord]
      | cons b rest2 =>
        by_cases hb : b = '-'
        · subst hb
          simp [ParseQueryWord]
        · have hv := IsValidWord_eq_false_iff (b :: rest2)
          have h45 : ¬ ('-'.toNat < 32) := by decide
          simp only [ParseQueryWord, List.isEmpty_cons, Bool.false_eq_true, if_false,
            List.head?_cons, decide_True, if_true, List.drop_succ_cons, List.drop_zero,
            Option.some.injEq, hb, decide_False, Bool.false_or, Bool.not_eq_true']
          constructor
          · intro h
            split at h
            · rename_i hinv
              obtain ⟨c, hc, hlt⟩ := hv.1 hinv
              exact Or.inr (Or.inr (Or.inr ⟨c, List.mem_cons_of_mem _ hc, hlt⟩))
            · cases h
          · intro h
            have hinv : IsValidWord (b :: rest2) = false := by
              rcases h with h | h | ⟨r, h⟩ | ⟨c, hc, hlt⟩
              · cases h
              · cases h
              · simp only [List.cons.injEq, true_and] at h
                exact absurd h.1 hb
              · rcases List.mem_cons.1 hc with hc | hc
                · subst hc
                  exact absurd hlt h45
                · exact hv.2 ⟨c, hc, hlt⟩
            simp [hinv]
    · have hv := IsValidWord_eq_false_iff (a :: rest)
      simp only [ParseQueryWord, List.isEmpty_cons, Bool.false_eq_true, if_false,
        List.head?_cons, Option.some.injEq, ha, decide_False, Bool.false_or,
        Bool.not_eq_true']
      constructor
      · intro h
        split at h
        · rename_i hinv
          exact Or.inr (Or.inr (Or.inr (hv.1 hinv)))
        · cases h
      · intro h
        have hinv : IsValidWord (a :: rest) = false := by
          rcases h with h | h | ⟨r, h⟩ | h
          · cases h
          · simp only [List.cons.injEq] at h
            exact absurd h.1 ha
          · simp only [List.cons.injEq] at h
            exact absurd h.1 ha
          · exact hv.2 h
        simp [hinv]

theorem ParseQueryWord_error_kind (s : SearchServer R) (policy : ExecutionPolicy) (tok : Word)
    (e : Err) (h : ParseQueryWord s policy tok = .error e) : e = .invalid_argument := by
  unfold ParseQueryWord at h
  simp only at h
  split_ifs at h <;> cases h <;> rfl

/-- The loop of `ParseQuery` throws exactly when `ParseQueryWord` rejects one
of the tokens. -/
theorem ParseQueryLoop_spec (s : SearchServer R) (policy : ExecutionPolicy) (tokens : List Word) :
    ∀ query : Query,
      ((∃ tok ∈ tokens, ParseQueryWord s policy tok = .error .invalid_argument) ∧
        ParseQueryLoop s policy tokens query = .error .invalid_argument) ∨
      ((∀ tok ∈ tokens, ParseQueryWord s policy tok ≠ .error .invalid_argument) ∧
        ∃ q, ParseQueryLoop s policy tokens query = .ok q) := by
  induction tokens with
  | nil => intro query; right; exact ⟨by simp, query, rfl⟩
  | cons tok rest ih =>
    intro query
    unfold ParseQueryLoop
    cases hw : ParseQueryWord s policy tok with
    | error e =>
      have he := ParseQueryWord_error_kind s policy tok e hw
      subst he
      left
      exact ⟨⟨tok, List.mem_cons_self _ _, hw⟩, rfl⟩
    | ok query_word =>
      simp only
      have key : ∀ q' : Query,
          ((∃ t ∈ tok :: rest, ParseQueryWord s policy t = .error .invalid_argument) ∧
            ParseQueryLoop s policy rest q' = .error .invalid_argument) ∨
          ((∀ t ∈ tok :: rest, ParseQueryWord s policy t ≠ .error .invalid_argument) ∧
            ∃ q, ParseQueryLoop s policy rest q' = .ok q) := by
        intro q'
        rcases ih q' with ⟨⟨t, ht, hbad⟩, herr⟩ | ⟨hall, hok⟩
        · left
          exact ⟨⟨t, List.mem_cons_of_mem _ ht, hbad⟩, herr⟩
        · right
          refine ⟨?_, hok⟩
          intro t ht
          rcases List.mem_cons.1 ht with ht | ht
          · subst ht
            rw [hw]
            intro h
            cases h
          · exact hall t ht
      split
      · split
        · exact key _
        · exact key _
      · exact key _

theorem ParseQuery_error_kind (s : SearchServer R) (policy : ExecutionPolicy) (text : Word)
    (e : Err) (h : ParseQuery s policy text = .error e) : e = .invalid_argument := by
  unfold ParseQuery at h
  rcases ParseQueryLoop_spec s policy (SplitIntoWords text) ⟨[], []⟩ with
    ⟨_, herr⟩ | ⟨_, q, hok⟩
  · rw [herr] at h
    cases h
    rfl
  · rw [hok] at h
    cases h

/-- When a query is malformed. -/
theorem ParseQuery_error_iff (s : SearchServer R) (policy : ExecutionPolicy) (text : Word) :
    ParseQuery s policy text = .error .invalid_argument ↔
      ∃ tok ∈ text.splitOn ' ',
        (tok = [] ∨ tok = ['-'] ∨ (∃ rest, tok = '-' :: '-' :: rest) ∨
          ∃ c ∈ tok, c.toNat < 0x20) := by
  unfold ParseQuery
  rw [SplitIntoWords_eq_splitOn]
  rcases ParseQueryLoop_spec s policy (text.splitOn ' ') ⟨[], []⟩ with
    ⟨⟨t, ht, hbad⟩, herr⟩ | ⟨hall, q, hok⟩
  · rw [herr]
    constructor
    · intro _
      exact ⟨t, ht, (ParseQueryWord_error_iff s policy t).1 hbad⟩
    · intro _
      rfl
  · rw [hok]
    constructor
    · intro h
      cases h
    · rintro ⟨t, ht, hbad⟩
      exact absurd ((ParseQueryWord_error_iff s policy t).2 hbad) (hall t ht)

theorem ParseQuery_ok_or_error (s : SearchServer R) (policy : ExecutionPolicy) (text : Word) :
    (∃ q, ParseQuery s policy text = .ok q) ∨
      ParseQuery s policy text = .error .invalid_argument := by
  cases h : ParseQuery s policy text with
  | ok q => exact Or.inl ⟨q, rfl⟩
  | error e => rw [ParseQuery_error_kind s policy text e h]; exact Or.inr rfl

/-! ## The outcomes of the search other than a list -/

theorem escapeParallel_ne (e : Err) : escapeParallel e ≠ .invalid_argument := by
  cases e <;> decide

theorem ComputeWordInverseDocumentFreq_error (tc : Toolchain R) (s : SearchServer R)
    (word : Word) (e : Err) (h : ComputeWordInverseDocumentFreq tc s word = .error e) :
    e = .assertion_failed ∨ e = .out_of_range := by
  unfold ComputeWordInverseDocumentFreq at h
  split at h
  · cases h; exact Or.inl rfl
  · split at h
    · cases h; exact Or.inr rfl
    · simp only at h
      split at h
      · cases h; exact Or.inl rfl
      · cases h

theorem AccumulateWord_error (s : SearchServer R) (key_mapper : Int → DocumentStatus → Int → Bool)
    (idf : R) (docs : OMap Int R) :
    ∀ (acc : OMap Int R) (e : Err),
      AccumulateWord s key_mapper idf docs acc = .error e → e = .out_of_range := by
  induction docs with
  | nil => intro acc e h; cases h
  | cons p rest ih =>
    obtain ⟨d, tf⟩ := p
    intro acc e h
    unfold AccumulateWord at h
    split at h
    · cases h; rfl
    · split at h
      · exact ih _ e h
      · exact ih _ e h

theorem PlusLoop_error (tc : Toolchain R) (s : SearchServer R)
    (key_mapper : Int → DocumentStatus → Int → Bool) (words : List Word) :
    ∀ (acc : OMap Int R) (e : Err),
      PlusLoop tc s key_mapper words acc = .error e →
        e = .assertion_failed ∨ e = .out_of_range := by
  induction words with
  | nil => intro acc e h; cases h
  | cons w rest ih =>
    intro acc e h
    unfold PlusLoop at h
    split at h
    · exact ih _ e h
    · split at h
      · rename_i e' he'
        cases h
        exact ComputeWordInverseDocumentFreq_error tc s w _ he'
      · split at h
        · cases h; exact Or.inr rfl
        · split at h
          · rename_i e' he'
            cases h
            exact Or.inr (AccumulateWord_error s key_mapper _ _ _ _ he')
          · exact ih _ e h

theorem EmitDocuments_error (s : SearchServer R) (m : OMap Int R) :
    ∀ (acc : List (Document R)) (e : Err),
      EmitDocuments s m acc = .error e → e = .out_of_range := by
  induction m with
  | nil => intro acc e h; cases h
  | cons p rest ih =>
    obtain ⟨d, rel⟩ := p
    intro acc e h
    unfold EmitDocuments at h
    split at h
    · cases h; rfl
    · exact ih _ e h

theorem PlusLoopPar_error (tc : Toolchain R) (s : SearchServer R)
    (key_mapper : Int → DocumentStatus → Int → Bool) (words : List Word) :
    ∀ (acc : OMap Int R) (e : Err),
      PlusLoopPar tc s key_mapper words acc = .error e → e ≠ .invalid_argument := by
  induction words with
  | nil => intro acc e h; cases h
  | cons w rest ih =>
    intro acc e h
    unfold PlusLoopPar at h
    split at h
    · cases h; exact escapeParallel_ne _
    · split at h
      · cases h; exact escapeParallel_ne _
      · split at h
        · cases h; exact escapeParallel_ne _
        · exact ih _ e h

theorem FindAllDocuments_error (tc : Toolchain R) (s : SearchServer R) (policy : ExecutionPolicy)
    (query : Query) (key_mapper : Int → DocumentStatus → Int → Bool) (e : Err)
    (h : FindAllDocuments tc s policy query key_mapper = .error e) : e ≠ .invalid_argument := by
  cases policy with
  | seq =>
    simp only [FindAllDocuments, FindAllDocumentsSeq] at h
    split at h
    · rename_i e' he'
      cases h
      rcases PlusLoop_error tc s key_mapper _ _ _ he' with h1 | h1 <;> rw [h1] <;> decide
    · rw [EmitDocuments_error s _ _ _ h]
      decide
  | par =>
    simp only [FindAllDocuments, FindAllDocumentsPar] at h
    split at h
    · rename_i e' he'
      cases h
      exact PlusLoopPar_error tc s key_mapper _ _ _ he'
    · split at h
      · cases h; exact escapeParallel_ne _
      · cases h

/-- The call `FindTopDocuments` throws `invalid_argument` exactly when the parse of its
query does. -/
theorem FindTopDocuments_invalid_argument_iff (tc : Toolchain R) (s : SearchServer R)
    (policy : ExecutionPolicy) (raw_query : Word)
    (key_mapper : Int → DocumentStatus → Int → Bool) :
    FindTopDocuments tc s policy raw_query key_mapper = .error .invalid_argument ↔
      ParseQuery s policy raw_query = .error .invalid_argument := by
  unfold FindTopDocuments
  cases hq : ParseQuery s policy raw_query with
  | error e =>
    simp only
    rw [ParseQuery_error_kind s policy raw_query e hq]
    exact ⟨fun _ => rfl, fun _ => rfl⟩
  | ok query =>
    simp only
    constructor
    · intro h
      exfalso
      split at h
      · rename_i e' he'
        cases h
        exact FindAllDocuments_error tc s policy query key_mapper _ he' rfl
      · unfold stdSort at h
        split at h
        · rename_i e' he'
          split at he'
          · cases he'
          · cases he'
            cases h
        · split at h <;> cases h
    · intro h
      cases h

/-- The call `MatchDocument` on a live id throws `invalid_argument` exactly when the
parse of its query does. -/
theorem MatchDocument_invalid_argument_iff (s : SearchServer R) (policy : ExecutionPolicy)
    (raw_query : Word) (document_id : Int) (hlive : document_id ∈ s.document_ids_) :
    MatchDocument s policy raw_query document_id = .error .invalid_argument ↔
      ParseQuery s policy raw_query = .error .invalid_argument := by
  unfold MatchDocument
  have hc : ¬ OSet.count s.document_ids_ document_id = 0 := by
    unfold OSet.count
    simp [hlive]
  simp only [hc, if_false]
  cases hq : ParseQuery s policy raw_query with
  | error e =>
    simp only
    rw [ParseQuery_error_kind s policy raw_query e hq]
    exact ⟨fun _ => rfl, fun _ => rfl⟩
  | ok query =>
    simp only
    constructor
    · intro h
      exfalso
      split at h
      · split at h <;> cases h
      · split at h <;> cases h
    · intro h
      cases h

end SearchServer

end Search

namespace Search

namespace SearchServer

variable {R : Type} [LinearOrderedField R]

/-! ## What the loops of `FindAllDocuments` compute -/

theorem find?_addAt (m : OMap Int R) (k k' : Int) (x : R) :
    OMap.find? (OMap.addAt m k x) k' =
      if k' = k then some ((OMap.find? m k).getD 0 + x) else OMap.find? m k' := by
  unfold OMap.addAt OMap.getD
  rw [OMap.find?_insert]

theorem WF_addAt {m : OMap Int R} (h : OMap.WF m) (k : Int) (x : R) :
    OMap.WF (OMap.addAt m k x) :=
  OMap.WF_insert _ _ h

/-- The inner loop adds the share of the word to every accepted document of
the word. -/
theorem AccumulateWord_spec (s : SearchServer R) (key_mapper : Int → DocumentStatus → Int → Bool)
    (idf : R) (docs : OMap Int R) :
    ∀ acc : OMap Int R, OMap.WF docs →
      (∀ d, (OMap.find? docs d).isSome = true → (OMap.find? s.documents_ d).isSome = true) →
      ∃ acc', AccumulateWord s key_mapper idf docs acc = .ok acc' ∧
        (OMap.WF acc → OMap.WF acc') ∧
        ∀ d, OMap.find? acc' d =
          match OMap.find? docs d with
          | some tf =>
            if Accepts s key_mapper d then some ((OMap.find? acc d).getD 0 + tf * idf)
            else OMap.find? acc d
          | none => OMap.find? acc d := by
  induction docs with
  | nil =>
    intro acc _ _
    exact ⟨acc, rfl, fun h => h, fun d => by simp [OMap.find?]⟩
  | cons p rest ih =>
    obtain ⟨d0, tf0⟩ := p
    intro acc hwf hrec
    have hwf' := hwf
    simp only [OMap.WF, OMap.keys, List.map_cons, List.pairwise_cons] at hwf
    have hnot : OMap.find? rest d0 = none := by
      cases e : OMap.find? rest d0 with
      | none => rfl
      | some v =>
        have hm : d0 ∈ OMap.keys rest := (OMap.mem_keys_iff rest d0).2 (by simp [e])
        exact absurd (hwf.1 d0 hm) (lt_irrefl _)
    have hrec' : ∀ d, (OMap.find? rest d).isSome = true →
        (OMap.find? s.documents_ d).isSome = true := by
      intro d hd
      apply hrec
      unfold OMap.find?
      by_cases e : d0 = d
      · simp [e]
      · simp only [e, if_false]
        exact hd
    have hd0 : (OMap.find? s.documents_ d0).isSome = true := by
      apply hrec
      simp [OMap.find?]
    obtain ⟨data, hdata⟩ := Option.isSome_iff_exists.1 hd0
    unfold AccumulateWord
    simp only [hdata]
    by_cases hk : key_mapper d0 data.status data.rating = true
    · simp only [hk, if_true]
      obtain ⟨acc', hrun, hwfa, hfind⟩ :=
        ih (OMap.addAt acc d0 (tf0 * idf)) hwf.2 hrec'
      refine ⟨acc', hrun, fun h => hwfa (WF_addAt h _ _), ?_⟩
      intro d
      rw [hfind d, find?_addAt]
      by_cases e : d = d0
      · subst e
        simp [OMap.find?, hnot, Accepts, hdata, hk]
      · have e' : ¬ d0 = d := fun h => e h.symm
        simp only [OMap.find?, e, e', if_false]
    · simp only [hk, if_false]
      obtain ⟨acc', hrun, hwfa, hfind⟩ := ih acc hwf.2 hrec'
      refine ⟨acc', hrun, hwfa, ?_⟩
      intro d
      rw [hfind d]
      by_cases e : d = d0
      · subst e
        simp [OMap.find?, hnot, Accepts, hdata, hk]
      · have e' : ¬ d0 = d := fun h => e h.symm
        simp only [OMap.find?, e', if_false]

theorem ComputeWordInverseDocumentFreq_ok (tc : Toolchain R) (s : SearchServer R) (word : Word)
    (v : R) (h : ComputeWordInverseDocumentFreq tc s word = .ok v) : v = idfOf tc s word := by
  unfold ComputeWordInverseDocumentFreq at h
  split at h
  · cases h
  · split at h
    · cases h
    · rename_i docs hdocs
      simp only at h
      split at h
      · cases h
      · cases h
        simp [idfOf, OMap.getD, hdocs]

/-- The first loop gives every accepted document the shares of the words it
occurs under. -/
theorem PlusLoop_spec (tc : Toolchain R) (s : SearchServer R)
    (key_mapper : Int → DocumentStatus → Int → Bool) (hs : Inv s) (words : List Word) :
    ∀ acc acc' : OMap Int R, PlusLoop tc s key_mapper words acc = .ok acc' →
      (OMap.WF acc → OMap.WF acc') ∧
      ∀ d, OMap.find? acc' d =
        if Accepts s key_mapper d then (shares tc s words d).foldl bump (OMap.find? acc d)
        else OMap.find? acc d := by
  induction words with
  | nil =>
    intro acc acc' h
    simp only [PlusLoop, Except.ok.injEq] at h
    subst h
    exact ⟨fun h => h, fun d => by simp [shares]⟩
  | cons w rest ih =>
    intro acc acc' h
    unfold PlusLoop at h
    by_cases hc : OMap.count s.word_to_document_freqs_ w = 0
    · simp only [hc, if_true] at h
      have hnone : OMap.find? s.word_to_document_freqs_ w = none := by
        unfold OMap.count at hc
        cases e : OMap.find? s.word_to_document_freqs_ w with
        | none => rfl
        | some v => simp [e] at hc
      obtain ⟨hwf, hfind⟩ := ih acc acc' h
      refine ⟨hwf, ?_⟩
      intro d
      rw [hfind d]
      simp [shares, OMap.find2?, hnone]
    · simp only [hc, if_false] at h
      cases hidf : ComputeWordInverseDocumentFreq tc s w with
      | error e => simp [hidf] at h
      | ok idf =>
        have hv := ComputeWordInverseDocumentFreq_ok tc s w idf hidf
        simp only [hidf] at h
        cases hdocs : OMap.find? s.word_to_document_freqs_ w with
        | none => simp [hdocs] at h
        | some docs =>
          simp only [hdocs] at h
          have hrec : ∀ d, (OMap.find? docs d).isSome = true →
              (OMap.find? s.documents_ d).isSome = true := by
            intro d hd
            rw [hs.records_live]
            apply hs.forward_live
            have h2 : (OMap.find2? s.word_to_document_freqs_ w d).isSome = true := by
              simpa [OMap.find2?, hdocs] using hd
            rw [← hs.transpose] at h2
            unfold OMap.find2? at h2
            cases e : OMap.find? s.document_to_word_freqs_ d with
            | none => simp [e] at h2
            | some v => rfl
          obtain ⟨acc1, hrun, hwf1, hfind1⟩ :=
            AccumulateWord_spec s key_mapper idf docs acc (hs.wf_inverted_inner w docs hdocs) hrec
          simp only [hrun] at h
          obtain ⟨hwf, hfind⟩ := ih acc1 acc' h
          refine ⟨fun h0 => hwf (hwf1 h0), ?_⟩
          intro d
          rw [hfind d]
          by_cases ha : Accepts s key_mapper d = true
          · simp only [ha, if_true]
            rw [hfind1 d]
            simp only [shares, List.filterMap_cons, OMap.find2?, hdocs, Option.some_bind]
            cases e : OMap.find? docs d with
            | none => simp
            | some tf => simp [ha, bump, hv]
          · simp only [ha, if_false]
            rw [hfind1 d]
            cases e : OMap.find? docs d with
            | none => simp
            | some tf => simp [ha]

theorem EraseDocs_spec (ids : List Int) :
    ∀ acc : OMap Int R,
      (OMap.WF acc → OMap.WF (EraseDocs ids acc)) ∧
      ∀ d, OMap.find? (EraseDocs ids acc) d = if d ∈ ids then none else OMap.find? acc d := by
  induction ids with
  | nil => intro acc; exact ⟨fun h => h, fun d => by simp [EraseDocs]⟩
  | cons i rest ih =>
    intro acc
    obtain ⟨hwf, hfind⟩ := ih (OMap.erase i acc)
    refine ⟨fun h => hwf (OMap.WF_erase _ h), ?_⟩
    intro d
    unfold EraseDocs
    rw [hfind d, OMap.find?_erase]
    by_cases h1 : d ∈ rest
    · simp [h1]
    · by_cases h2 : d = i
      · simp [h2]
      · simp [h1, h2]

/-- The second loop drops every document that occurs under a minus-word. -/
theorem MinusLoop_spec (s : SearchServer R) (words : List Word) :
    ∀ acc : OMap Int R,
      (OMap.WF acc → OMap.WF (MinusLoop s words acc)) ∧
      ∀ d, OMap.find? (MinusLoop s words acc) d =
        if words.any (fun t => (OMap.find2? s.word_to_document_freqs_ t d).isSome) then none
        else OMap.find? acc d := by
  induction words with
  | nil => intro acc; exact ⟨fun h => h, fun d => by simp [MinusLoop]⟩
  | cons w rest ih =>
    intro acc
    unfold MinusLoop
    by_cases hc : OMap.count s.word_to_document_freqs_ w = 0
    · simp only [hc, if_true]
      have hnone : OMap.find? s.word_to_document_freqs_ w = none := by
        unfold OMap.count at hc
        cases e : OMap.find? s.word_to_document_freqs_ w with
        | none => rfl
        | some v => simp [e] at hc
      obtain ⟨hwf, hfind⟩ := ih acc
      refine ⟨hwf, ?_⟩
      intro d
      rw [hfind d]
      simp [OMap.find2?, hnone]
    · simp only [hc, if_false]
      obtain ⟨hwf, hfind⟩ :=
        ih (EraseDocs (OMap.keys (OMap.getD s.word_to_document_freqs_ w [])) acc)
      obtain ⟨hwf2, hfind2⟩ :=
        EraseDocs_spec (OMap.keys (OMap.getD s.word_to_document_freqs_ w [])) acc
      refine ⟨fun h => hwf (hwf2 h), ?_⟩
      intro d
      have hk : d ∈ OMap.keys (OMap.getD s.word_to_document_freqs_ w []) ↔
          (OMap.find2? s.word_to_document_freqs_ w d).isSome = true := by
        rw [OMap.mem_keys_iff, OMap.find?_getD_nil]
      rw [hfind d, hfind2 d]
      simp only [List.any_cons, hk]
      by_cases h1 : (OMap.find2? s.word_to_document_freqs_ w d).isSome = true
      · simp [h1]
      · simp [h1]

theorem EmitDocuments_spec (s : SearchServer R) (m : OMap Int R) :
    ∀ acc docs : List (Document R), EmitDocuments s m acc = .ok docs →
      docs = acc ++ m.map (fun p => ⟨p.1, p.2, storedRating s p.1⟩) := by
  induction m with
  | nil =>
    intro acc docs h
    simp only [EmitDocuments, Except.ok.injEq] at h
    simp [h]
  | cons p rest ih =>
    obtain ⟨d, rel⟩ := p
    intro acc docs h
    unfold EmitDocuments at h
    cases hd : OMap.find? s.documents_ d with
    | none => simp [hd] at h
    | some data =>
      simp only [hd] at h
      rw [ih _ _ h]
      simp [storedRating, hd]

end SearchServer

end Search

namespace Search

theorem length_eq_of_nodup_of_mem_iff {α : Type} [DecidableEq α] {l1 l2 : List α}
    (h1 : l1.Nodup) (h2 : l2.Nodup) (h : ∀ a, a ∈ l1 ↔ a ∈ l2) : l1.length = l2.length :=
  List.Perm.length_eq ((List.perm_ext_iff_of_nodup h1 h2).2 h)

namespace SearchServer

variable {R : Type} [LinearOrderedField R]

/-! ## The result of the sequenced `FindAllDocuments` -/

theorem foldl_bump (cs : List R) :
    ∀ o : Option R, cs.foldl bump o = if cs = [] then o else some (o.getD 0 + cs.sum) := by
  induction cs with
  | nil => intro o; simp
  | cons c rest ih =>
    intro o
    rw [List.foldl_cons, ih]
    by_cases h : rest = []
    · simp [h, bump]
    · simp [h, bump, add_assoc]

theorem InForward_eq (s : SearchServer R) (hs : Inv s) (d : Int) (t : Word) :
    InForward s d t = (OMap.find2? s.word_to_document_freqs_ t d).isSome := by
  unfold InForward
  rw [hs.transpose]

theorem InForward_live (s : SearchServer R) (hs : Inv s) (d : Int) (t : Word)
    (h : InForward s d t = true) : d ∈ s.document_ids_ := by
  apply hs.forward_live
  unfold InForward OMap.find2? at h
  cases e : OMap.find? s.document_to_word_freqs_ d with
  | none => simp [e] at h
  | some v => rfl

theorem GetDocumentCount_eq (s : SearchServer R) (hs : Inv s) :
    GetDocumentCount s = (liveCount s : Int) := by
  unfold GetDocumentCount liveCount
  congr 1
  have h1 : (OMap.keys s.documents_).length = s.document_ids_.length :=
    length_eq_of_nodup_of_mem_iff (OMap.WF_nodup hs.wf_documents)
      (List.Pairwise.imp (fun h => ne_of_lt h) hs.wf_ids)
      (fun d => by rw [OMap.mem_keys_iff, hs.records_live])
  simpa [OMap.keys] using h1

theorem word_size_eq (s : SearchServer R) (hs : Inv s) (t : Word) :
    (OMap.getD s.word_to_document_freqs_ t []).length = docFreq s t := by
  unfold docFreq
  have hwf : OMap.WF (OMap.getD s.word_to_document_freqs_ t []) :=
    OMap.WF_getD_nil _ _ (hs.wf_inverted_inner t)
  have h1 : (OMap.keys (OMap.getD s.word_to_document_freqs_ t [])).length =
      (s.document_ids_.filter (fun d => InForward s d t)).length := by
    apply length_eq_of_nodup_of_mem_iff (OMap.WF_nodup hwf)
      ((List.Pairwise.imp (fun h => ne_of_lt h) hs.wf_ids).filter _)
    intro d
    rw [OMap.mem_keys_iff, OMap.find?_getD_nil, List.mem_filter, ← InForward_eq s hs]
    constructor
    · intro h
      exact ⟨InForward_live s hs d t h, h⟩
    · intro h
      exact h.2
  simpa [OMap.keys] using h1

theorem idfOf_eq (tc : Toolchain R) (s : SearchServer R) (hs : Inv s) (t : Word) :
    idfOf tc s t = tc.log ((liveCount s : R) / (docFreq s t : R)) := by
  unfold idfOf
  rw [GetDocumentCount_eq s hs, word_size_eq s hs]
  simp

theorem shares_eq (tc : Toolchain R) (s : SearchServer R) (hs : Inv s) (words : List Word)
    (d : Int) :
    shares tc s words d =
      (words.filter (InForward s d)).map
        (fun t => termFreq s t d * tc.log ((liveCount s : R) / (docFreq s t : R))) := by
  induction words with
  | nil => rfl
  | cons w rest ih =>
    unfold shares at ih ⊢
    rw [List.filterMap_cons, List.filter_cons, ih]
    have h1 := InForward_eq s hs d w
    cases e : OMap.find2? s.word_to_document_freqs_ w d with
    | none =>
      rw [e] at h1
      simp [h1]
    | some tf =>
      rw [e] at h1
      have h2 : termFreq s w d = tf := by
        unfold termFreq
        rw [hs.transpose, e]
        rfl
      simp [h1, h2, idfOf_eq tc s hs]

/-- The documents the sequenced `FindAllDocuments` returns, when it returns:
the documents that match the query, in ascending order of id, each with its
relevance and stored rating. -/
theorem FindAllDocumentsSeq_spec (tc : Toolchain R) (s : SearchServer R) (hs : Inv s)
    (query : Query) (key_mapper : Int → DocumentStatus → Int → Bool)
    (docs : List (Document R))
    (h : FindAllDocumentsSeq tc s query key_mapper = .ok docs) :
    ∃ m : OMap Int R, OMap.WF m ∧
      docs = m.map (fun p => ⟨p.1, p.2, storedRating s p.1⟩) ∧
      ∀ d, OMap.find? m d =
        if Matches s query key_mapper d then some (Relevance tc s query d) else none := by
  unfold FindAllDocumentsSeq at h
  cases hp : PlusLoop tc s key_mapper query.plus_words [] with
  | error e => simp [hp] at h
  | ok acc =>
    simp only [hp] at h
    obtain ⟨hwf1, hfind1⟩ := PlusLoop_spec tc s key_mapper hs query.plus_words [] acc hp
    obtain ⟨hwf2, hfind2⟩ := MinusLoop_spec s query.minus_words acc
    refine ⟨MinusLoop s query.minus_words acc, hwf2 (hwf1 OMap.WF_nil), ?_, ?_⟩
    · have := EmitDocuments_spec s _ _ _ h
      simpa using this
    · intro d
      rw [hfind2 d, hfind1 d, foldl_bump, shares_eq tc s hs]
      have hminus : (query.minus_words.any
          (fun t => (OMap.find2? s.word_to_document_freqs_ t d).isSome)) =
          query.minus_words.any (InForward s d) := by
        congr 1
        funext t
        rw [InForward_eq s hs]
      rw [hminus]
      unfold Matches Relevance
      by_cases h1 : query.minus_words.any (InForward s d) = true
      · simp [h1]
      · by_cases h2 : Accepts s key_mapper d = true
        · by_cases h3 : query.plus_words.any (InForward s d) = true
          · have h4 : ¬ (List.filter (InForward s d) query.plus_words = []) := by
              intro e
              obtain ⟨t, ht, hin⟩ := List.any_eq_true.1 h3
              have : t ∈ List.filter (InForward s d) query.plus_words :=
                List.mem_filter.2 ⟨ht, hin⟩
              rw [e] at this
              cases this
            simp [h1, h2, h3, h4, OMap.find?]
          · have h4 : List.filter (InForward s d) query.plus_words = [] := by
              apply List.filter_eq_nil_iff.2
              intro t ht hin
              exact h3 (List.any_eq_true.2 ⟨t, ht, hin⟩)
            simp [h1, h2, h3, h4, OMap.find?]
        · simp [h1, h2, OMap.find?]

/-- How `FindTopDocuments` returns a list: the query parses, `FindAllDocuments`
returns, `std::sort` is called within its precondition, and the list is the
first five documents of the sorted range. -/
theorem FindTopDocuments_ok (tc : Toolchain R) (s : SearchServer R) (policy : ExecutionPolicy)
    (raw_query : Word) (key_mapper : Int → DocumentStatus → Int → Bool)
    (result : List (Document R))
    (h : FindTopDocuments tc s policy raw_query key_mapper = .ok result) :
    ∃ query docs, ParseQuery s policy raw_query = .ok query ∧
      FindAllDocuments tc s policy query key_mapper = .ok docs ∧
      StrictWeakOn CompareDocuments docs ∧
      result = (tc.sort CompareDocuments docs).take MAX_RESULT_DOCUMENT_COUNT := by
  unfold FindTopDocuments at h
  cases hq : ParseQuery s policy raw_query with
  | error e => simp [hq] at h
  | ok query =>
    simp only [hq] at h
    cases hd : FindAllDocuments tc s policy query key_mapper with
    | error e => simp [hd] at h
    | ok docs =>
      simp only [hd] at h
      unfold stdSort at h
      by_cases hswo : StrictWeakOn CompareDocuments docs
      · simp only [hswo, if_true] at h
        refine ⟨query, docs, rfl, hd, hswo, ?_⟩
        split at h
        · cases h; rfl
        · rename_i hlen
          cases h
          exact (List.take_of_length_le (not_lt.1 hlen)).symm
      · simp [hswo] at h

end SearchServer

end Search

namespace Search

/-! ## Sorting -/

theorem insertSorted_perm {α : Type} (comp : α → α → Bool) (a : α) (l : List α) :
    (insertSorted comp a l).Perm (a :: l) := by
  induction l with
  | nil => exact List.Perm.refl _
  | cons b l ih =>
    unfold insertSorted
    split
    · exact List.Perm.refl _
    · exact (List.Perm.cons b ih).trans (List.Perm.swap a b l)

theorem insertionSort_perm {α : Type} (comp : α → α → Bool) (l : List α) :
    (insertionSort comp l).Perm l := by
  induction l with
  | nil => exact List.Perm.refl _
  | cons a l ih =>
    unfold insertionSort
    exact (insertSorted_perm comp a _).trans (List.Perm.cons a ih)

theorem StrictWeakOn.asymm {α : Type} {comp : α → α → Bool} {l : List α}
    (h : StrictWeakOn comp l) {a b : α} (ha : a ∈ l) (hb : b ∈ l) (hab : comp a b = true) :
    comp b a = false := by
  cases hba : comp b a with
  | false => rfl
  | true =>
    have := h.2.1 a ha b hb a ha hab hba
    rw [h.1 a ha] at this
    cases this

theorem insertSorted_pairwise {α : Type} (comp : α → α → Bool) (S : List α)
    (hS : StrictWeakOn comp S) (a : α) (ha : a ∈ S) (l : List α) (hl : ∀ x ∈ l, x ∈ S)
    (hsorted : l.Pairwise (fun x y => comp y x = false)) :
    (insertSorted comp a l).Pairwise (fun x y => comp y x = false) := by
  induction l with
  | nil => simp [insertSorted]
  | cons b l ih =>
    have hb : b ∈ S := hl b (List.mem_cons_self _ _)
    have hl' : ∀ x ∈ l, x ∈ S := fun x hx => hl x (List.mem_cons_of_mem _ hx)
    rw [List.pairwise_cons] at hsorted
    unfold insertSorted
    by_cases hab : comp a b = true
    · simp only [hab, if_true]
      rw [List.pairwise_cons]
      refine ⟨?_, List.pairwise_cons.2 hsorted⟩
      intro y hy
      rcases List.mem_cons.1 hy with hy | hy
      · subst hy
        exact hS.asymm ha hb hab
      · cases hya : comp y a with
        | false => rfl
        | true =>
          have := hS.2.1 y (hl' y hy) a ha b hb hya hab
          rw [hsorted.1 y hy] at this
          cases this
    · rw [if_neg hab, List.pairwise_cons]
      refine ⟨?_, ih hl' hsorted.2⟩
      intro y hy
      rcases List.mem_cons.1 ((insertSorted_perm comp a l).mem_iff.1 hy) with hy | hy
      · subst hy
        simpa using hab
      · exact hsorted.1 y hy

theorem StrictWeakOn.tail {α : Type} {comp : α → α → Bool} {a : α} {l : List α}
    (h : StrictWeakOn comp (a :: l)) : StrictWeakOn comp l :=
  ⟨fun x hx => h.1 x (List.mem_cons_of_mem _ hx),
   fun x hx y hy z hz => h.2.1 x (List.mem_cons_of_mem _ hx) y (List.mem_cons_of_mem _ hy) z
     (List.mem_cons_of_mem _ hz),
   fun x hx y hy z hz => h.2.2 x (List.mem_cons_of_mem _ hx) y (List.mem_cons_of_mem _ hy) z
     (List.mem_cons_of_mem _ hz)⟩

/-- Insertion sort meets the contract of `std::sort`. -/
theorem insertionSort_contract {α : Type} : SortContract (insertionSort (α := α)) := by
  intro comp l hl
  refine ⟨insertionSort_perm comp l, ?_⟩
  induction l with
  | nil => simp [insertionSort]
  | cons a l ih =>
    unfold insertionSort
    apply insertSorted_pairwise comp (a :: l) hl a (List.mem_cons_self _ _)
    · intro x hx
      exact List.mem_cons_of_mem _ ((insertionSort_perm comp l).mem_iff.1 hx)
    · exact ih hl.tail

/-- An irreflexive, asymmetric comparator is a strict weak ordering of any two
elements. -/
theorem StrictWeakOn_pair {α : Type} (comp : α → α → Bool) (hir : ∀ a, comp a a = false)
    (has : ∀ a b, comp a b = true → comp b a = false) (x y : α) :
    StrictWeakOn comp [x, y] := by
  refine ⟨fun a _ => hir a, ?_, ?_⟩
  · intro a ha b hb c hc hab hbc
    simp only [List.mem_cons, List.mem_singleton, List.not_mem_nil, or_false] at ha hb hc
    rcases ha with rfl | rfl <;> rcases hb with rfl | rfl <;> rcases hc with rfl | rfl <;>
      first
        | exact hab
        | exact hbc
        | (rw [hir] at hab)
        | (rw [hir] at hbc)
        | (rw [has _ _ hab] at hbc; cases hbc)
  · intro a ha b hb c hc hab hba hbc hcb
    simp only [List.mem_cons, List.mem_singleton, List.not_mem_nil, or_false] at ha hb hc
    rcases ha with rfl | rfl <;> rcases hb with rfl | rfl <;> rcases hc with rfl | rfl <;>
      first
        | exact ⟨hir _, hir _⟩
        | exact ⟨hab, hba⟩
        | exact ⟨hbc, hcb⟩

theorem StrictWeakOn_singleton {α : Type} (comp : α → α → Bool) (hir : ∀ a, comp a a = false)
    (x : α) : StrictWeakOn comp [x] := by
  refine ⟨fun a _ => hir a, ?_, ?_⟩
  · intro a ha b hb c hc hab _
    simp only [List.mem_singleton] at ha hb hc
    subst ha; subst hb
    rw [hir] at hab
    cases hab
  · intro a ha b hb c hc _ _ _ _
    simp only [List.mem_singleton] at ha hb hc
    subst ha; subst hc
    exact ⟨hir _, hir _⟩

theorem perm_pair_cases {α : Type} {l : List α} {a b : α} (h : l.Perm [a, b]) :
    l = [a, b] ∨ l = [b, a] := by
  have hlen := h.length_eq
  match l, hlen with
  | [x, y], _ =>
    have hx : x ∈ [a, b] := h.mem_iff.1 (by simp)
    have hy : y ∈ [a, b] := h.mem_iff.1 (by simp)
    have ha : a ∈ [x, y] := h.mem_iff.2 (by simp)
    have hb : b ∈ [x, y] := h.mem_iff.2 (by simp)
    simp only [List.mem_cons, List.mem_singleton, List.not_mem_nil, or_false] at hx hy ha hb
    rcases hx with rfl | rfl <;> rcases hy with rfl | rfl
    · rcases hb with rfl | rfl <;> exact Or.inl rfl
    · exact Or.inl rfl
    · exact Or.inr rfl
    · rcases ha with rfl | rfl <;> exact Or.inl rfl

namespace SearchServer

variable {R : Type} [LinearOrderedField R]

theorem CompareDocuments_irrefl (a : Document R) : CompareDocuments a a = false := by
  unfold CompareDocuments
  simp

theorem CompareDocuments_asymm (a b : Document R) (h : CompareDocuments a b = true) :
    CompareDocuments b a = false := by
  unfold CompareDocuments at h ⊢
  rw [abs_sub_comm b.relevance a.relevance]
  by_cases hc : |a.relevance - b.relevance| < 1 / 1000000
  · simp only [hc, if_true, decide_eq_true_eq, decide_eq_false_iff_not] at h ⊢
    omega
  · simp only [hc, if_false, decide_eq_true_eq, decide_eq_false_iff_not] at h ⊢
    exact not_lt.2 (le_of_lt h)

end SearchServer

end Search

namespace Search

namespace SearchServer

variable {R : Type} [LinearOrderedField R]

/-! ## The queries of the scenario -/

theorem scenario_parse :
    ParseQuery (server2 : SearchServer R) .seq "fluffy well-groomed cat".toList =
      .ok ⟨["cat".toList, "fluffy".toList, "well-groomed".toList], []⟩ :=
  rfl

theorem scenario_docs (tc : Toolchain R) :
    FindAllDocumentsSeq tc server2
        ⟨["cat".toList, "fluffy".toList, "well-groomed".toList], []⟩ (hasStatus .ACTUAL) =
      .ok [⟨0, rawRelevance0 tc, 2⟩, ⟨1, rawRelevance1 tc, 5⟩] := by
  obtain ⟨log, ndebug, sort⟩ := tc
  cases ndebug <;> rfl

theorem scenario_minus_parse :
    ParseQuery (server2 : SearchServer R) .seq "cat -fluffy".toList =
      .ok ⟨["cat".toList], ["fluffy".toList]⟩ :=
  rfl

theorem scenario_minus_docs (tc : Toolchain R) :
    FindAllDocumentsSeq tc server2 ⟨["cat".toList], ["fluffy".toList]⟩ (hasStatus .ACTUAL) =
      .ok [⟨0, rawRelevance0 tc, 2⟩] := by
  obtain ⟨log, ndebug, sort⟩ := tc
  cases ndebug <;> rfl

theorem rawRelevance0_eq (tc : Toolchain R) (h1 : tc.log 1 = 0) : rawRelevance0 tc = 0 := by
  unfold rawRelevance0
  have : ((((2 : Nat) : Int) : R) * 1 / (((2 : Nat) : Int) : R)) = 1 := by norm_num
  rw [this, h1]
  ring

theorem rawRelevance1_eq (tc : Toolchain R) (h1 : tc.log 1 = 0) :
    rawRelevance1 tc = tc.log 2 / 2 := by
  unfold rawRelevance1
  have e1 : ((((2 : Nat) : Int) : R) * 1 / (((2 : Nat) : Int) : R)) = 1 := by norm_num
  have e2 : ((((2 : Nat) : Int) : R) * 1 / (((1 : Nat) : Int) : R)) = 2 := by norm_num
  rw [e1, e2, h1]
  push_cast
  ring

/-- The outcome of the query "fluffy well-groomed cat" of the scenario, for any
`std::sort`: a list of the two documents. -/
theorem scenario_result (tc : Toolchain R) (hsort : SortContract tc.sort) :
    ∃ sorted : List (Document R),
      FindTopDocumentsByStatus tc server2 .seq "fluffy well-groomed cat".toList .ACTUAL =
        .ok sorted ∧
      sorted.Perm [⟨0, rawRelevance0 tc, 2⟩, ⟨1, rawRelevance1 tc, 5⟩] ∧
      sorted.Pairwise (fun a b => CompareDocuments b a = false) := by
  have hswo : StrictWeakOn CompareDocuments
      [(⟨0, rawRelevance0 tc, 2⟩ : Document R), ⟨1, rawRelevance1 tc, 5⟩] :=
    StrictWeakOn_pair _ CompareDocuments_irrefl CompareDocuments_asymm _ _
  obtain ⟨hperm, hpair⟩ := hsort _ _ hswo
  refine ⟨_, ?_, hperm, hpair⟩
  have hlen : ¬ (tc.sort CompareDocuments
      [(⟨0, rawRelevance0 tc, 2⟩ : Document R), ⟨1, rawRelevance1 tc, 5⟩]).length >
      MAX_RESULT_DOCUMENT_COUNT := by
    rw [hperm.length_eq]
    simp [MAX_RESULT_DOCUMENT_COUNT]
  simp only [FindTopDocumentsByStatus, FindTopDocuments, scenario_parse, FindAllDocuments,
    scenario_docs, stdSort, hswo, if_true, hlen, if_false]

/-- The outcome of the query "cat -fluffy" of the scenario: document 0 alone. -/
theorem scenario_minus_result (tc : Toolchain R) (hsort : SortContract tc.sort) :
    FindTopDocumentsByStatus tc server2 .seq "cat -fluffy".toList .ACTUAL =
      .ok [⟨0, rawRelevance0 tc, 2⟩] := by
  have hswo : StrictWeakOn CompareDocuments [(⟨0, rawRelevance0 tc, 2⟩ : Document R)] :=
    StrictWeakOn_singleton _ CompareDocuments_irrefl _
  obtain ⟨hperm, _⟩ := hsort _ _ hswo
  have hsorted := List.perm_singleton.1 hperm
  simp only [FindTopDocumentsByStatus, FindTopDocuments, scenario_minus_parse, FindAllDocuments,
    scenario_minus_docs, stdSort, hswo, if_true, hsorted]
  rfl

/-- The outcome of the query "fluffy well-groomed cat" of the scenario when
`log 1 = 0` and `log 2` is at least 2e-6, as for the logarithm of the reals:
document 1, then document 0. -/
theorem scenario_ranking (tc : Toolchain R) (hsort : SortContract tc.sort)
    (h1 : tc.log 1 = 0) (h2 : 1 / 500000 ≤ tc.log 2) :
    FindTopDocumentsByStatus tc server2 .seq "fluffy well-groomed cat".toList .ACTUAL =
      .ok [⟨1, tc.log 2 / 2, 5⟩, ⟨0, 0, 2⟩] := by
  obtain ⟨sorted, hres, hperm, hpair⟩ := scenario_result tc hsort
  rw [hres, rawRelevance0_eq tc h1, rawRelevance1_eq tc h1] at *
  have hcomp : CompareDocuments (⟨1, tc.log 2 / 2, 5⟩ : Document R) ⟨0, 0, 2⟩ = true := by
    unfold CompareDocuments
    have hpos : (0 : R) < tc.log 2 / 2 := by linarith
    have hn : ¬ |tc.log 2 / 2 - 0| < 1 / 1000000 := by
      rw [sub_zero, abs_of_pos hpos]
      intro hlt
      linarith
    simp only [hn, if_false, decide_eq_true_eq]
    exact hpos
  rcases perm_pair_cases hperm with h | h
  · rw [h] at hpair
    rw [List.pairwise_cons] at hpair
    have := hpair.1 _ (List.mem_singleton_self _)
    rw [hcomp] at this
    cases this
  · rw [h]

end SearchServer

end Search

namespace Search

namespace SearchServer

variable {R : Type} [LinearOrderedField R]

/-! ## Matching one document -/

/-- The term sets of a parsed query are in ascending order. -/
theorem ParseQueryLoop_WF (s : SearchServer R) (policy : ExecutionPolicy) (tokens : List Word) :
    ∀ query q : Query, ParseQueryLoop s policy tokens query = .ok q →
      OSet.WF query.plus_words → OSet.WF query.minus_words →
      OSet.WF q.plus_words ∧ OSet.WF q.minus_words := by
  induction tokens with
  | nil =>
    intro query q h hp hm
    simp only [ParseQueryLoop, Except.ok.injEq] at h
    subst h
    exact ⟨hp, hm⟩
  | cons tok rest ih =>
    intro query q h hp hm
    unfold ParseQueryLoop at h
    cases hw : ParseQueryWord s policy tok with
    | error e => simp [hw] at h
    | ok query_word =>
      simp only [hw] at h
      split at h
      · split at h
        · exact ih _ q h hp (OSet.insert_WF _ hm)
        · exact ih _ q h (OSet.insert_WF _ hp) hm
      · exact ih _ q h hp hm

theorem ParseQuery_WF (s : SearchServer R) (policy : ExecutionPolicy) (text : Word) (q : Query)
    (h : ParseQuery s policy text = .ok q) : OSet.WF q.plus_words ∧ OSet.WF q.minus_words :=
  ParseQueryLoop_WF s policy _ _ q h List.Pairwise.nil List.Pairwise.nil

/-- On a consistent server `word_checker` tests whether the word occurs in the
forward-index entry of the document. -/
theorem word_checker_eq (s : SearchServer R) (hs : Inv s) (d : Int) (t : Word) :
    word_checker s d t = InForward s d t := by
  rw [InForward_eq s hs]
  unfold word_checker OMap.find2? OMap.count
  cases OMap.find? s.word_to_document_freqs_ t with
  | none => rfl
  | some docs =>
    simp only [Option.some_bind]
    cases OMap.find? docs d <;> simp

/-- What `MatchDocument` returns for a live document and a query that parses. -/
theorem MatchDocument_live (s : SearchServer R) (hs : Inv s) (policy : ExecutionPolicy)
    (raw_query : Word) (d : Int) (hd : d ∈ s.document_ids_) (query : Query)
    (hq : ParseQuery s policy raw_query = .ok query) :
    ∃ data, OMap.find? s.documents_ d = some data ∧
      MatchDocument s policy raw_query d =
        .ok (if query.minus_words.any (InForward s d) then []
             else query.plus_words.filter (InForward s d), data.status) := by
  obtain ⟨data, hdata⟩ := Option.isSome_iff_exists.1 ((hs.records_live d).2 hd)
  refine ⟨data, hdata, ?_⟩
  have hc : ¬ OSet.count s.document_ids_ d = 0 := by
    unfold OSet.count
    simp [hd]
  have hw : word_checker s d = InForward s d := funext (word_checker_eq s hs d)
  unfold MatchDocument
  simp only [hc, if_false, hq, hw, hdata]
  split <;> rfl

end SearchServer

end Search

namespace Search

namespace SearchServer

variable {R : Type} [LinearOrderedField R]

/-! ## Removing documents -/

theorem serverStopOnly_reachable : Reachable (serverStopOnly : SearchServer R) :=
  Reachable.addDocument server0 0 "and".toList .ACTUAL [1] server0_reachable
    (fun e he => by
      have h2 : (AddDocument (server0 : SearchServer R) 0 "and".toList .ACTUAL [1]).2 =
          .ok () := rfl
      rw [h2] at he
      cases he)

theorem serverCat_reachable : Reachable (serverCat : SearchServer R) :=
  Reachable.addDocument server0 0 "cat".toList .ACTUAL [1] server0_reachable
    (fun e he => by
      have h2 : (AddDocument (server0 : SearchServer R) 0 "cat".toList .ACTUAL [1]).2 =
          .ok () := rfl
      rw [h2] at he
      cases he)

/-- A call of `RemoveDocument` for an id that is not live returns at once. -/
theorem RemoveDocument_not_live (s : SearchServer R) (d : Int) (h : d ∉ s.document_ids_) :
    RemoveDocument s d = (s, .ok ()) := by
  have hc : OSet.count s.document_ids_ d = 0 := by
    unfold OSet.count
    simp [h]
  simp only [RemoveDocument, hc, if_true]

/-- After a call of `RemoveDocument`, however it ended, the id is not live. -/
theorem RemoveDocument_not_live_after (s : SearchServer R) (d : Int) :
    d ∉ (RemoveDocument s d).1.document_ids_ := by
  by_cases h : d ∈ s.document_ids_
  · have hc : ¬ OSet.count s.document_ids_ d = 0 := by
      unfold OSet.count
      simp [h]
    have hne : d ∉ OSet.erase d s.document_ids_ := by
      rw [OSet.mem_erase]
      exact fun h2 => h2.1 rfl
    unfold RemoveDocument
    simp only [hc, if_false]
    split
    · exact hne
    · split
      · exact hne
      · exact hne
  · rw [RemoveDocument_not_live s d h]
    exact h

end SearchServer

end Search

namespace Search

namespace SearchServer

variable {R : Type} [LinearOrderedField R]

/-! ## The rating and the frequencies `AddDocument` stores -/

theorem wrapInt32_add (a b : Int) : wrapInt32 (wrapInt32 a + b) = wrapInt32 (a + b) := by
  unfold wrapInt32
  omega

theorem wrapInt32_of_fits (z : Int) (h1 : -2 ^ 31 ≤ z) (h2 : z < 2 ^ 31) : wrapInt32 z = z := by
  unfold wrapInt32
  omega

theorem rating_sum_eq (ratings : List Int) :
    ∀ a : Int, ratings.foldl (fun acc rating => wrapInt32 (acc + rating)) (wrapInt32 a) =
      wrapInt32 (a + ratings.sum) := by
  induction ratings with
  | nil => intro a; simp
  | cons r rest ih =>
    intro a
    rw [List.foldl_cons, wrapInt32_add, ih, List.sum_cons, add_assoc]

/-- The rating of a non-empty list of ratings whose sum fits in 32 bits. -/
theorem ComputeAverageRating_of_fits (ratings : List Int) (hne : ratings ≠ [])
    (h1 : -2 ^ 31 ≤ ratings.sum) (h2 : ratings.sum < 2 ^ 31) :
    ComputeAverageRating ratings = .ok (Int.tdiv ratings.sum (ratings.length : Int)) := by
  have hlen : ratings.length ≠ 0 := fun e => hne (List.length_eq_zero.1 e)
  have h0 : wrapInt32 0 = 0 := by decide
  have hsum := rating_sum_eq ratings 0
  rw [h0, zero_add, wrapInt32_of_fits _ h1 h2] at hsum
  simp only [ComputeAverageRating, hlen, if_false, hsum]

/-- The record a successful `AddDocument` stores. -/
theorem AddDocument_record (s : SearchServer R) (document_id : Int) (document : Word)
    (status : DocumentStatus) (ratings : List Int)
    (h : (AddDocument s document_id document status ratings).2 = .ok ()) :
    ∃ rating, ComputeAverageRating ratings = .ok rating ∧
      OMap.find? (AddDocument s document_id document status ratings).1.documents_ document_id =
        some ⟨rating, status⟩ := by
  by_cases hg : document_id < 0 ∨ OMap.count s.documents_ document_id > 0
  · simp [AddDocument, hg] at h
  · cases hw : SplitIntoWordsNoStop s document with
    | error e => simp [AddDocument, hg, hw] at h
    | ok words =>
      cases hr : ComputeAverageRating ratings with
      | error e => simp [AddDocument, hg, hw, hr] at h
      | ok rating =>
        refine ⟨rating, rfl, ?_⟩
        have hc : ¬ OMap.count s.documents_ document_id > 0 := fun h2 => hg (Or.inr h2)
        simp only [AddDocument, hg, if_false, hw, hr]
        simp only [OMap.emplace, (AddDocument_foldl_fixed document_id _ words s).1, hc,
          if_false, OMap.find?_insert, if_true]

/-- With no ratings `AddDocument` never returns. -/
theorem AddDocument_no_ratings (s : SearchServer R) (document_id : Int) (document : Word)
    (status : DocumentStatus) :
    (AddDocument s document_id document status []).2 = .error .invalid_argument ∨
    (AddDocument s document_id document status []).2 = .error .division_by_zero := by
  by_cases hg : document_id < 0 ∨ OMap.count s.documents_ document_id > 0
  · left
    simp only [AddDocument, hg, if_true]
  · rcases SplitIntoWordsNoStopLoop_spec s (SplitIntoWords document) [] with
      ⟨_, herr⟩ | ⟨_, hok⟩
    · left
      simp only [AddDocument, hg, if_false, SplitIntoWordsNoStop, herr]
    · right
      have hr : ComputeAverageRating [] = .error .division_by_zero := rfl
      simp only [AddDocument, hg, if_false, SplitIntoWordsNoStop, hok, hr]

/-- The forward-index entry of the document after the loop of `AddDocument`. -/
theorem foldl_AddDocumentStep_forward (document_id : Int) (x : R) (words : List Word)
    (t : Word) :
    ∀ s : SearchServer R,
      OMap.find2? (words.foldl (AddDocumentStep document_id x) s).document_to_word_freqs_
          document_id t =
        if t ∈ words then
          some ((OMap.find2? s.document_to_word_freqs_ document_id t).getD 0 +
            (words.count t : R) * x)
        else OMap.find2? s.document_to_word_freqs_ document_id t := by
  induction words with
  | nil => intro s; simp
  | cons w rest ih =>
    intro s
    rw [List.foldl_cons, ih, AddDocumentStep_forward]
    simp only [if_true]
    by_cases htw : t = w
    · subst htw
      by_cases hr : t ∈ rest
      · simp only [hr, if_true, List.mem_cons, true_or, Option.getD_some, List.count_cons_self,
          Nat.cast_add, Nat.cast_one]
        congr 1
        ring
      · simp only [hr, if_false, if_true, List.mem_cons, true_or, List.count_cons_self,
          List.count_eq_zero_of_not_mem hr, Nat.cast_zero, zero_add, Nat.cast_one, one_mul]
    · have hwt : ¬ w = t := fun e => htw e.symm
      by_cases hr : t ∈ rest
      · simp [hr, htw, hwt, List.count_cons]
      · simp [hr, htw, hwt]

theorem find?_GetWordFrequencies (s : SearchServer R) (d : Int) (t : Word) :
    OMap.find? (GetWordFrequencies s d) t = OMap.find2? s.document_to_word_freqs_ d t := by
  unfold GetWordFrequencies OMap.count OMap.getD OMap.find2?
  cases OMap.find? s.document_to_word_freqs_ d <;> simp [OMap.find?]

/-- The frequencies a successful `AddDocument` stores for its document on a
consistent server: for every retained token its number of occurrences over
the number of retained tokens. -/
theorem AddDocument_frequencies (s : SearchServer R) (hs : Inv s) (document_id : Int)
    (document : Word) (status : DocumentStatus) (ratings : List Int)
    (h : (AddDocument s document_id document status ratings).2 = .ok ()) (t : Word) :
    OMap.find2? (AddDocument s document_id document status ratings).1.document_to_word_freqs_
        document_id t =
      if t ∈ (document.splitOn ' ').filter (fun w => !IsStopWord s w) then
        some ((((document.splitOn ' ').filter (fun w => !IsStopWord s w)).count t : R) /
          ((((document.splitOn ' ').filter (fun w => !IsStopWord s w)).length : Nat) : R))
      else none := by
  by_cases hg : document_id < 0 ∨ OMap.count s.documents_ document_id > 0
  · simp [AddDocument, hg] at h
  · rcases SplitIntoWordsNoStopLoop_spec s (SplitIntoWords document) [] with
      ⟨_, herr⟩ | ⟨_, hok⟩
    · simp [AddDocument, hg, SplitIntoWordsNoStop, herr] at h
    · cases hr : ComputeAverageRating ratings with
      | error e => simp [AddDocument, hg, SplitIntoWordsNoStop, hok, hr] at h
      | ok rating =>
        have hfresh : OMap.find2? s.document_to_word_freqs_ document_id t = none := by
          have hnl : document_id ∉ s.document_ids_ := by
            intro hl
            apply hg
            right
            have := (hs.records_live document_id).2 hl
            unfold OMap.count
            simp [this]
          unfold OMap.find2?
          cases e : OMap.find? s.document_to_word_freqs_ document_id with
          | none => rfl
          | some ws => exact absurd (hs.forward_live document_id (by simp [e])) hnl
        rw [SplitIntoWords_eq_splitOn, List.nil_append] at hok
        simp only [AddDocument, hg, if_false, SplitIntoWordsNoStop, SplitIntoWords_eq_splitOn,
          hok, hr, foldl_AddDocumentStep_forward, hfresh, Option.getD_none, zero_add]
        split
        · congr 1
          rw [mul_one_div]
        · rfl

end SearchServer

end Search

namespace Search

namespace SearchServer

variable {R : Type} [LinearOrderedField R]

/-! ## The terms of a parsed query -/

theorem IsStopWord_iff (s : SearchServer R) (w : Word) :
    IsStopWord s w = true ↔ w ∈ s.stop_words_ := by
  unfold IsStopWord OSet.count
  by_cases h : w ∈ s.stop_words_ <;> simp [h]

/-- What `ParseQueryWord` returns for a token it accepts: for a token that
begins with '-' the rest of the token as a minus-word, for another token the
token as a plus-word, either marked as a stop word if it is one. -/
theorem ParseQueryWord_ok (s : SearchServer R) (policy : ExecutionPolicy) (tok : Word)
    (qw : QueryWord) (h : ParseQueryWord s policy tok = .ok qw) :
    qw.is_stop = IsStopWord s qw.data ∧
    ((qw.is_minus = true ∧ tok = '-' :: qw.data) ∨
      (qw.is_minus = false ∧ tok = qw.data ∧ tok.head? ≠ some '-')) := by
  cases tok with
  | nil => simp [ParseQueryWord] at h
  | cons a rest =>
    by_cases ha : a = '-'
    · subst ha
      simp only [ParseQueryWord, List.isEmpty_cons, Bool.false_eq_true, if_false,
        List.head?_cons, decide_True, if_true, List.drop_succ_cons, List.drop_zero] at h
      split at h
      · cases h
      · cases h
        exact ⟨rfl, Or.inl ⟨rfl, rfl⟩⟩
    · simp only [ParseQueryWord, List.isEmpty_cons, Bool.false_eq_true, if_false,
        List.head?_cons, Option.some.injEq, ha, decide_False] at h
      split at h
      · cases h
      · cases h
        refine ⟨rfl, Or.inr ⟨rfl, rfl, ?_⟩⟩
        simp [ha]

/-- The term sets after the loop of `ParseQuery`. -/
theorem ParseQueryLoop_mem (s : SearchServer R) (policy : ExecutionPolicy) (tokens : List Word) :
    ∀ query q : Query, ParseQueryLoop s policy tokens query = .ok q →
      (∀ w, w ∈ q.plus_words ↔
        w ∈ query.plus_words ∨ (w ∈ tokens ∧ w.head? ≠ some '-' ∧ w ∉ s.stop_words_)) ∧
      (∀ w, w ∈ q.minus_words ↔
        w ∈ query.minus_words ∨ (('-' :: w) ∈ tokens ∧ w ∉ s.stop_words_)) := by
  induction tokens with
  | nil =>
    intro query q h
    simp only [ParseQueryLoop, Except.ok.injEq] at h
    subst h
    simp
  | cons tok rest ih =>
    intro query q h
    unfold ParseQueryLoop at h
    cases hw : ParseQueryWord s policy tok with
    | error e => simp [hw] at h
    | ok qw =>
      simp only [hw] at h
      obtain ⟨hstop, hkind⟩ := ParseQueryWord_ok s policy tok qw hw
      have hstop' : qw.is_stop = true ↔ qw.data ∈ s.stop_words_ := by
        rw [hstop, IsStopWord_iff]
      by_cases hs : qw.is_stop = true
      · simp only [hs, Bool.not_true, Bool.false_eq_true, if_false] at h
        have hin := hstop'.1 hs
        obtain ⟨hp, hm⟩ := ih query q h
        constructor
        · intro w
          rw [hp w]
          constructor
          · rintro (h1 | ⟨h1, h2, h3⟩)
            · exact Or.inl h1
            · exact Or.inr ⟨List.mem_cons_of_mem _ h1, h2, h3⟩
          · rintro (h1 | ⟨h1, h2, h3⟩)
            · exact Or.inl h1
            · rcases List.mem_cons.1 h1 with h1 | h1
              · exfalso
                rcases hkind with ⟨_, hk⟩ | ⟨_, hk, _⟩
                · rw [h1, hk] at h2
                  simp at h2
                · rw [h1, hk] at h3
                  exact h3 hin
              · exact Or.inr ⟨h1, h2, h3⟩
        · intro w
          rw [hm w]
          constructor
          · rintro (h1 | ⟨h1, h3⟩)
            · exact Or.inl h1
            · exact Or.inr ⟨List.mem_cons_of_mem _ h1, h3⟩
          · rintro (h1 | ⟨h1, h3⟩)
            · exact Or.inl h1
            · rcases List.mem_cons.1 h1 with h1 | h1
              · exfalso
                rcases hkind with ⟨_, hk⟩ | ⟨_, hk, hhead⟩
                · rw [hk] at h1
                  simp only [List.cons.injEq, true_and] at h1
                  rw [h1] at h3
                  exact h3 hin
                · rw [← h1] at hhead
                  simp at hhead
              · exact Or.inr ⟨h1, h3⟩
      · have hnin : qw.data ∉ s.stop_words_ := fun h2 => hs (hstop'.2 h2)
        have hs' : qw.is_stop = false := by simpa using hs
        simp only [hs', Bool.not_false, if_true] at h
        rcases hkind with ⟨hminus, hk⟩ | ⟨hminus, hk, hhead⟩
        · simp only [hminus, if_true] at h
          obtain ⟨hp, hm⟩ := ih _ q h
          constructor
          · intro w
            rw [hp w]
            constructor
            · rintro (h1 | ⟨h1, h2, h3⟩)
              · exact Or.inl h1
              · exact Or.inr ⟨List.mem_cons_of_mem _ h1, h2, h3⟩
            · rintro (h1 | ⟨h1, h2, h3⟩)
              · exact Or.inl h1
              · rcases List.mem_cons.1 h1 with h1 | h1
                · exfalso
                  rw [h1, hk] at h2
                  simp at h2
                · exact Or.inr ⟨h1, h2, h3⟩
          · intro w
            rw [hm w]
            show w ∈ OSet.insert qw.data query.minus_words ∨ _ ↔ _
            rw [OSet.mem_insert]
            constructor
            · rintro ((h1 | h1) | ⟨h1, h3⟩)
              · right
                rw [h1, hk]
                exact ⟨List.mem_cons_self _ _, hnin⟩
              · exact Or.inl h1
              · exact Or.inr ⟨List.mem_cons_of_mem _ h1, h3⟩
            · rintro (h1 | ⟨h1, h3⟩)
              · exact Or.inl (Or.inr h1)
              · rcases List.mem_cons.1 h1 with h1 | h1
                · left
                  left
                  rw [hk] at h1
                  simp only [List.cons.injEq, true_and] at h1
                  exact h1
                · exact Or.inr ⟨h1, h3⟩
        · simp only [hminus, Bool.false_eq_true, if_false] at h
          obtain ⟨hp, hm⟩ := ih _ q h
          constructor
          · intro w
            rw [hp w]
            show w ∈ OSet.insert qw.data query.plus_words ∨ _ ↔ _
            rw [OSet.mem_insert]
            constructor
            · rintro ((h1 | h1) | ⟨h1, h2, h3⟩)
              · right
                rw [h1, ← hk]
                exact ⟨List.mem_cons_self _ _, hhead, hk ▸ hnin⟩
              · exact Or.inl h1
              · exact Or.inr ⟨List.mem_cons_of_mem _ h1, h2, h3⟩
            · rintro (h1 | ⟨h1, h2, h3⟩)
              · exact Or.inl (Or.inr h1)
              · rcases List.mem_cons.1 h1 with h1 | h1
                · left
                  left
                  rw [h1, hk]
                · exact Or.inr ⟨h1, h2, h3⟩
          · intro w
            rw [hm w]
            constructor
            · rintro (h1 | ⟨h1, h3⟩)
              · exact Or.inl h1
              · exact Or.inr ⟨List.mem_cons_of_mem _ h1, h3⟩
            · rintro (h1 | ⟨h1, h3⟩)
              · exact Or.inl h1
              · rcases List.mem_cons.1 h1 with h1 | h1
                · exfalso
                  rw [← h1] at hhead
                  simp at hhead
                · exact Or.inr ⟨h1, h3⟩

end SearchServer

end Search

namespace Search

namespace RequestQueue

variable {R : Type} [LinearOrderedField R]

/-! ## The request queue -/

theorem emptyResults_append (l : List QueryResult) (e : QueryResult) :
    emptyResults (l ++ [e]) = emptyResults l + (if e.documents_size_ = 0 then 1 else 0) := by
  unfold emptyResults
  rw [List.filter_append, List.length_append]
  by_cases h : e.documents_size_ = 0 <;> simp [List.filter, h]

theorem emptyResults_cons (e : QueryResult) (l : List QueryResult) :
    emptyResults (e :: l) = (if e.documents_size_ = 0 then 1 else 0) + emptyResults l := by
  unfold emptyResults
  by_cases h : e.documents_size_ = 0 <;> simp [List.filter, h, Nat.add_comm]

theorem mostRecent_length (n : Nat) (log : List QueryResult) :
    (mostRecent n log).length = min log.length n := by
  unfold mostRecent
  rw [List.length_drop]
  omega

/-- One `Update` keeps the queue the most recent calls and their count of
empty results. -/
theorem Update_spec (q : RequestQueue) (log : List QueryResult) (result : List (Document R))
    (raw_query : Word)
    (hreq : q.requests_ = mostRecent kMinInDay log)
    (hempty : q.empty_query_ = (emptyResults q.requests_ : Int)) :
    (Update q result raw_query).requests_ =
      mostRecent kMinInDay (log ++ [⟨raw_query, (result.length : Int)⟩]) ∧
    (Update q result raw_query).empty_query_ =
      (emptyResults (Update q result raw_query).requests_ : Int) := by
  have hlen := mostRecent_length kMinInDay log
  rw [← hreq] at hlen
  unfold Update
  simp only [Add, List.length_append, List.length_singleton]
  by_cases hbig : q.requests_.length + 1 > kMinInDay
  · simp only [hbig, if_true]
    have hge : kMinInDay ≤ log.length := by
      unfold kMinInDay at *
      omega
    cases hq : q.requests_ with
    | nil =>
      rw [hq] at hbig
      simp [kMinInDay] at hbig
    | cons front rest =>
      have htail : rest = log.drop (log.length - kMinInDay + 1) := by
        have h1 : (mostRecent kMinInDay log).tail = rest := by
          rw [← hreq, hq]
          rfl
        rw [← h1]
        unfold mostRecent
        rw [List.tail_drop]
      simp only [Remove, List.cons_append]
      constructor
      · unfold mostRecent
        rw [List.length_append, List.length_singleton,
          List.drop_append_of_le_length (by unfold kMinInDay at *; omega)]
        have : log.length + 1 - kMinInDay = log.length - kMinInDay + 1 := by
          unfold kMinInDay at *
          omega
        rw [this, ← htail]
      · rw [hempty, hq, emptyResults_cons, emptyResults_append]
        by_cases h1 : front.documents_size_ = 0
        · by_cases h2 : (result.length : Int) = 0
          · simp only [h1, h2, if_true]
            push_cast
            omega
          · simp only [h1, h2, if_true, if_false]
            push_cast
            omega
        · by_cases h2 : (result.length : Int) = 0
          · simp only [h1, h2, if_true, if_false]
            push_cast
            omega
          · simp only [h1, h2, if_false]
            push_cast
            omega
  · simp only [hbig, if_false]
    have hlt : log.length < kMinInDay := by
      unfold kMinInDay at *
      omega
    constructor
    · rw [hreq]
      unfold mostRecent
      rw [List.length_append, List.length_singleton]
      have e1 : log.length - kMinInDay = 0 := by omega
      have e2 : log.length + 1 - kMinInDay = 0 := by omega
      rw [e1, e2]
      rfl
    · rw [hempty, emptyResults_append]
      by_cases h2 : (result.length : Int) = 0 <;> simp [h2]

/-- A sequence of calls that return keeps the queue the most recent calls and
their count of empty results. -/
theorem AddFindRequests_spec (tc : Toolchain R)
    (calls : List (SearchServer R × Word × (Int → DocumentStatus → Int → Bool))) :
    ∀ (q : RequestQueue) (log0 : List QueryResult) (q2 : RequestQueue)
      (log : List QueryResult),
      q.requests_ = mostRecent kMinInDay log0 →
      q.empty_query_ = (emptyResults q.requests_ : Int) →
      AddFindRequests tc q calls = some (q2, log) →
      log.length = calls.length ∧
      log.map (fun e => e.raw_query_) = calls.map (fun c => c.2.1) ∧
      q2.requests_ = mostRecent kMinInDay (log0 ++ log) ∧
      q2.empty_query_ = (emptyResults q2.requests_ : Int) := by
  induction calls with
  | nil =>
    intro q log0 q2 log hreq hempty h
    simp only [AddFindRequests, Option.some.injEq, Prod.mk.injEq] at h
    obtain ⟨rfl, rfl⟩ := h
    simp [hreq, hempty]
  | cons c rest ih =>
    obtain ⟨server, raw_query, document_predicate⟩ := c
    intro q log0 q2 log hreq hempty h
    unfold AddFindRequests at h
    unfold AddFindRequest at h
    cases hf : SearchServer.FindTopDocuments tc server .seq raw_query document_predicate with
    | error e => simp [hf] at h
    | ok result =>
      simp only [hf] at h
      cases hr : AddFindRequests tc (Update q result raw_query) rest with
      | none => simp [hr] at h
      | some p =>
        obtain ⟨q3, log3⟩ := p
        simp only [hr, Option.some.injEq, Prod.mk.injEq] at h
        obtain ⟨rfl, rfl⟩ := h
        obtain ⟨hu1, hu2⟩ := Update_spec q log0 result raw_query hreq hempty
        obtain ⟨h1, h2, h3, h4⟩ := ih _ _ _ _ hu1 hu2 hr
        refine ⟨by simp [h1], by simp [h2], ?_, h4⟩
        rw [h3, List.append_assoc]
        rfl

end RequestQueue

end Search

namespace Search

namespace SearchServer

variable {R : Type} [LinearOrderedField R]

/-! ## The comparator of `FindTopDocuments` -/

theorem nearRelevance_symm (a b : Document R) : nearRelevance a b ↔ nearRelevance b a := by
  unfold nearRelevance
  rw [abs_sub_comm]

theorem nearRelevance_iff (a b : Document R) :
    nearRelevance a b ↔
      a.relevance - b.relevance < 1 / 1000000 ∧ b.relevance - a.relevance < 1 / 1000000 := by
  unfold nearRelevance
  rw [abs_lt]
  constructor
  · rintro ⟨h1, h2⟩
    exact ⟨h2, by linarith⟩
  · rintro ⟨h1, h2⟩
    exact ⟨by linarith, h1⟩

theorem CompareDocuments_eq_true_iff (a b : Document R) :
    CompareDocuments a b = true ↔
      (nearRelevance a b ∧ a.rating > b.rating) ∨
      (¬ nearRelevance a b ∧ a.relevance > b.relevance) := by
  unfold CompareDocuments nearRelevance
  by_cases h : |a.relevance - b.relevance| < 1 / 1000000
  · rw [if_pos h, decide_eq_true_eq]
    constructor
    · exact fun h1 => Or.inl ⟨h, h1⟩
    · rintro (⟨_, h1⟩ | ⟨h1, _⟩)
      · exact h1
      · exact absurd h h1
  · rw [if_neg h, decide_eq_true_eq]
    constructor
    · exact fun h1 => Or.inr ⟨h, h1⟩
    · rintro (⟨h1, _⟩ | ⟨_, h1⟩)
      · exact absurd h1 h
      · exact h1

theorem CompareDocuments_eq_false_iff (a b : Document R) :
    CompareDocuments a b = false ↔
      (nearRelevance a b ∧ a.rating ≤ b.rating) ∨
      (¬ nearRelevance a b ∧ a.relevance ≤ b.relevance) := by
  unfold CompareDocuments nearRelevance
  by_cases h : |a.relevance - b.relevance| < 1 / 1000000
  · rw [if_pos h, decide_eq_false_iff_not, not_lt]
    constructor
    · exact fun h1 => Or.inl ⟨h, h1⟩
    · rintro (⟨_, h1⟩ | ⟨h1, _⟩)
      · exact h1
      · exact absurd h h1
  · rw [if_neg h, decide_eq_false_iff_not, not_lt]
    constructor
    · exact fun h1 => Or.inr ⟨h, h1⟩
    · rintro (⟨h1, _⟩ | ⟨_, h1⟩)
      · exact absurd h1 h
      · exact h1

/-- Documents neither of which the comparator orders before the other have
relevances that differ by less than 1e-6, and the same rating. -/
theorem equivalent_iff (a b : Document R) :
    (CompareDocuments a b = false ∧ CompareDocuments b a = false) ↔
      (nearRelevance a b ∧ a.rating = b.rating) := by
  rw [CompareDocuments_eq_false_iff, CompareDocuments_eq_false_iff, ← nearRelevance_symm a b]
  constructor
  · rintro ⟨h1 | h1, h2 | h2⟩
    · exact ⟨h1.1, le_antisymm h1.2 h2.2⟩
    · exact absurd h1.1 h2.1
    · exact absurd h2.1 h1.1
    · exfalso
      apply h1.1
      rw [nearRelevance_iff]
      constructor <;> linarith [h1.2, h2.2]
  · rintro ⟨h1, h2⟩
    exact ⟨Or.inl ⟨h1, le_of_eq h2⟩, Or.inl ⟨h1, le_of_eq h2.symm⟩⟩

/-- Where "the relevances differ by less than 1e-6" is transitive, the
comparator is a strict weak ordering. -/
theorem CompareDocuments_strictWeakOn (l : List (Document R))
    (hnear : ∀ a ∈ l, ∀ b ∈ l, ∀ c ∈ l,
      nearRelevance a b → nearRelevance b c → nearRelevance a c) :
    StrictWeakOn CompareDocuments l := by
  refine ⟨fun a _ => CompareDocuments_irrefl a, ?_, ?_⟩
  · intro a ha b hb c hc hab hbc
    rw [CompareDocuments_eq_true_iff] at hab hbc ⊢
    rcases hab with ⟨nab, rab⟩ | ⟨nab, rab⟩ <;> rcases hbc with ⟨nbc, rbc⟩ | ⟨nbc, rbc⟩
    · exact Or.inl ⟨hnear a ha b hb c hc nab nbc, lt_trans rbc rab⟩
    · have nac : ¬ nearRelevance a c := fun h =>
        nbc (hnear b hb a ha c hc ((nearRelevance_symm a b).1 nab) h)
      refine Or.inr ⟨nac, ?_⟩
      rw [nearRelevance_iff] at nab nbc
      by_contra hle
      apply nbc
      constructor <;> linarith [nab.1, nab.2]
    · have nac : ¬ nearRelevance a c := fun h =>
        nab (hnear a ha c hc b hb h ((nearRelevance_symm b c).1 nbc))
      refine Or.inr ⟨nac, ?_⟩
      rw [nearRelevance_iff] at nab nbc
      by_contra hle
      apply nab
      constructor <;> linarith [nbc.1, nbc.2]
    · have hac : a.relevance > c.relevance := lt_trans rbc rab
      refine Or.inr ⟨?_, hac⟩
      rw [nearRelevance_iff] at nab ⊢
      intro h
      apply nab
      constructor <;> linarith [h.1, h.2]
  · intro a ha b hb c hc hab hba hbc hcb
    have h1 := (equivalent_iff a b).1 ⟨hab, hba⟩
    have h2 := (equivalent_iff b c).1 ⟨hbc, hcb⟩
    exact (equivalent_iff a c).2 ⟨hnear a ha b hb c hc h1.1 h2.1, h1.2.trans h2.2⟩

end SearchServer

end Search

namespace Search

/-! ## The sorted order under a strict weak ordering -/

/-- In a strict weak ordering, what is ordered before `z` is ordered before
everything that `z` is not ordered after. -/
theorem StrictWeakOn.before_of_not_after {α : Type} {comp : α → α → Bool} {l : List α}
    (h : StrictWeakOn comp l) {x y z : α} (hx : x ∈ l) (hy : y ∈ l) (hz : z ∈ l)
    (hxz : comp x z = true) (hxy : comp x y = false) : comp y z = true := by
  cases hyz : comp y z with
  | true => rfl
  | false =>
    exfalso
    cases hzy : comp z y with
    | true =>
      have := h.2.1 x hx z hz y hy hxz hzy
      rw [hxy] at this
      cases this
    | false =>
      cases hyx : comp y x with
      | true =>
        have := h.2.1 y hy x hx z hz hyx hxz
        rw [hyz] at this
        cases this
      | false =>
        have := (h.2.2 x hx y hy z hz hxy hyx hyz hzy).1
        rw [hxz] at this
        cases this

/-- Two sorted rearrangements of a range do not disagree at any position by
more than equivalence: the entry of the one is not ordered before the entry
of the other. -/
theorem sorted_entry_not_before {α : Type} (comp : α → α → Bool) (l l1 l2 : List α)
    (h : StrictWeakOn comp l) (p1 : l1.Perm l) (p2 : l2.Perm l)
    (s1 : l1.Pairwise (fun a b => comp b a = false))
    (s2 : l2.Pairwise (fun a b => comp b a = false))
    (i : Nat) (h1 : i < l1.length) (h2 : i < l2.length) :
    comp (l1.get ⟨i, h1⟩) (l2.get ⟨i, h2⟩) = false := by
  cases hxz : comp (l1.get ⟨i, h1⟩) (l2.get ⟨i, h2⟩) with
  | false => rfl
  | true =>
    exfalso
    have hx : l1.get ⟨i, h1⟩ ∈ l := p1.mem_iff.1 (List.get_mem _ _ _)
    have hz : l2.get ⟨i, h2⟩ ∈ l := p2.mem_iff.1 (List.get_mem _ _ _)
    have ha : ∀ y ∈ l1.take (i + 1), comp y (l2.get ⟨i, h2⟩) = true := by
      intro y hy
      obtain ⟨j, hj, rfl⟩ := List.mem_take_iff_getElem.1 hy
      have hj1 : j < l1.length := by omega
      have hyl : l1[j] ∈ l := p1.mem_iff.1 (List.getElem_mem _)
      by_cases hji : j = i
      · subst hji
        exact hxz
      · have hlt : j < i := by omega
        have hnot : comp (l1.get ⟨i, h1⟩) l1[j] = false :=
          (List.pairwise_iff_getElem.1 s1) j i hj1 h1 hlt
        exact h.before_of_not_after hx hyl hz hxz hnot
    have hb : ∀ y ∈ l2.drop i, ¬ comp y (l2.get ⟨i, h2⟩) = true := by
      intro y hy
      obtain ⟨j, hj, rfl⟩ := List.mem_drop_iff_getElem.1 hy
      have hj1 : i + j < l2.length := by omega
      by_cases hj0 : j = 0
      · subst hj0
        have : comp (l2.get ⟨i, h2⟩) (l2.get ⟨i, h2⟩) = false := h.1 _ hz
        simpa using this
      · have hlt : i < i + j := by omega
        have := (List.pairwise_iff_getElem.1 s2) i (i + j) h2 hj1 hlt
        simpa using this
    have c1 : i + 1 ≤ List.countP (fun y => comp y (l2.get ⟨i, h2⟩)) l1 := by
      have e : List.countP (fun y => comp y (l2.get ⟨i, h2⟩)) l1 =
          List.countP (fun y => comp y (l2.get ⟨i, h2⟩)) (l1.take (i + 1)) +
            List.countP (fun y => comp y (l2.get ⟨i, h2⟩)) (l1.drop (i + 1)) := by
        rw [← List.countP_append, List.take_append_drop]
      have e2 : List.countP (fun y => comp y (l2.get ⟨i, h2⟩)) (l1.take (i + 1)) =
          (l1.take (i + 1)).length := List.countP_eq_length.2 ha
      rw [List.length_take] at e2
      omega
    have c2 : List.countP (fun y => comp y (l2.get ⟨i, h2⟩)) l2 ≤ i := by
      have e : List.countP (fun y => comp y (l2.get ⟨i, h2⟩)) l2 =
          List.countP (fun y => comp y (l2.get ⟨i, h2⟩)) (l2.take i) +
            List.countP (fun y => comp y (l2.get ⟨i, h2⟩)) (l2.drop i) := by
        rw [← List.countP_append, List.take_append_drop]
      have e2 : List.countP (fun y => comp y (l2.get ⟨i, h2⟩)) (l2.drop i) = 0 :=
        List.countP_eq_zero.2 hb
      have e3 : List.countP (fun y => comp y (l2.get ⟨i, h2⟩)) (l2.take i) ≤
          (l2.take i).length := List.countP_le_length _
      rw [List.length_take] at e3
      omega
    have c3 := (p1.trans p2.symm).countP_eq (fun y => comp y (l2.get ⟨i, h2⟩))
    omega

/-- Under a strict weak ordering the sorted order of a range is determined up
to elements that compare as equivalent. -/
theorem sorted_unique_up_to_equivalence {α : Type} (comp : α → α → Bool) (l l1 l2 : List α)
    (h : StrictWeakOn comp l) (p1 : l1.Perm l) (p2 : l2.Perm l)
    (s1 : l1.Pairwise (fun a b => comp b a = false))
    (s2 : l2.Pairwise (fun a b => comp b a = false)) :
    List.Forall₂ (fun a b => comp a b = false ∧ comp b a = false) l1 l2 := by
  rw [List.forall₂_iff_get]
  refine ⟨(p1.trans p2.symm).length_eq, ?_⟩
  intro i h1 h2
  exact ⟨sorted_entry_not_before comp l l1 l2 h p1 p2 s1 s2 i h1 h2,
    sorted_entry_not_before comp l l2 l1 h p2 p1 s2 s1 i h2 h1⟩

end Search

namespace Search

namespace SearchServer

variable {R : Type} [LinearOrderedField R]

/-! ## The list `FindTopDocuments` returns under the sequenced policy -/

/-- The analysis of a list returned by the sequenced `FindTopDocuments` on a
consistent server: it is the first five entries of a rearrangement, sorted by
the comparator, of the matching documents with their relevances and stored
ratings. -/
theorem FindTopDocuments_seq_ok (tc : Toolchain R) (hsort : SortContract tc.sort)
    (s : SearchServer R) (hs : Inv s) (raw_query : Word)
    (key_mapper : Int → DocumentStatus → Int → Bool) (result : List (Document R))
    (h : FindTopDocuments tc s .seq raw_query key_mapper = .ok result) :
    ∃ (query : Query) (m : OMap Int R) (sorted : List (Document R)),
      ParseQuery s .seq raw_query = .ok query ∧
      OMap.WF m ∧
      (∀ d, OMap.find? m d =
        if Matches s query key_mapper d then some (Relevance tc s query d) else none) ∧
      sorted.Perm (m.map (fun p => ⟨p.1, p.2, storedRating s p.1⟩)) ∧
      sorted.Pairwise (fun a b => CompareDocuments b a = false) ∧
      result = sorted.take MAX_RESULT_DOCUMENT_COUNT := by
  obtain ⟨query, docs, hq, hd, hswo, hres⟩ :=
    FindTopDocuments_ok tc s .seq raw_query key_mapper result h
  obtain ⟨m, hwf, hdocs, hfind⟩ := FindAllDocumentsSeq_spec tc s hs query key_mapper docs hd
  obtain ⟨hperm, hpair⟩ := hsort CompareDocuments docs hswo
  exact ⟨query, m, tc.sort CompareDocuments docs, hq, hwf, hfind, hdocs ▸ hperm, hpair, hres⟩

theorem mem_MatchingIds (s : SearchServer R) (hs : Inv s) (query : Query)
    (key_mapper : Int → DocumentStatus → Int → Bool) (d : Int) :
    d ∈ MatchingIds s query key_mapper ↔ Matches s query key_mapper d = true := by
  unfold MatchingIds
  rw [List.mem_filter]
  constructor
  · exact fun h => h.2
  · intro h
    refine ⟨?_, h⟩
    unfold Matches at h
    simp only [Bool.and_eq_true] at h
    obtain ⟨t, _, hin⟩ := List.any_eq_true.1 h.1.2
    exact InForward_live s hs d t hin

theorem keys_matching (s : SearchServer R) (hs : Inv s) (query : Query)
    (key_mapper : Int → DocumentStatus → Int → Bool) (m : OMap Int R) (rel : Int → R)
    (hfind : ∀ d, OMap.find? m d =
      if Matches s query key_mapper d then some (rel d) else none) (d : Int) :
    d ∈ OMap.keys m ↔ d ∈ MatchingIds s query key_mapper := by
  rw [OMap.mem_keys_iff, hfind d, mem_MatchingIds s hs]
  by_cases h : Matches s query key_mapper d = true <;> simp [h]

/-- The ids of a list returned by the sequenced `FindTopDocuments` on a
consistent server. -/
theorem FindTopDocuments_seq_ids (tc : Toolchain R) (hsort : SortContract tc.sort)
    (s : SearchServer R) (hi : Inv s) (raw_query : Word)
    (key_mapper : Int → DocumentStatus → Int → Bool) (result : List (Document R))
    (h : FindTopDocuments tc s .seq raw_query key_mapper = .ok result) :
    ∃ query, ParseQuery s .seq raw_query = .ok query ∧
      (result.map (fun r => r.id)).Nodup ∧
      (∀ r ∈ result, r.id ∈ MatchingIds s query key_mapper) ∧
      result.length = min 5 (MatchingIds s query key_mapper).length := by
  obtain ⟨query, m, sorted, hq, hwf, hfind, hperm, _, hres⟩ :=
    FindTopDocuments_seq_ok tc hsort s hi raw_query key_mapper result h
  have hids : (sorted.map (fun r => r.id)).Perm (OMap.keys m) := by
    have := hperm.map (fun r : Document R => r.id)
    simpa [OMap.keys, List.map_map, Function.comp_def] using this
  have hnodup : (sorted.map (fun r => r.id)).Nodup :=
    (List.Perm.nodup_iff hids).2 (OMap.WF_nodup hwf)
  refine ⟨query, hq, ?_, ?_, ?_⟩
  · rw [hres, List.map_take]
    exact hnodup.sublist (List.take_sublist _ _)
  · intro r hr
    rw [hres] at hr
    have h1 : r.id ∈ sorted.map (fun r => r.id) :=
      List.mem_map.2 ⟨r, List.mem_of_mem_take hr, rfl⟩
    exact (keys_matching s hi query key_mapper m _ hfind r.id).1 (hids.mem_iff.1 h1)
  · have hlen : sorted.length = (MatchingIds s query key_mapper).length := by
      have h1 : sorted.length = (OMap.keys m).length := by
        simpa using hids.length_eq
      rw [h1]
      exact length_eq_of_nodup_of_mem_iff (OMap.WF_nodup hwf)
        ((List.Pairwise.imp (fun h => ne_of_lt h) hi.wf_ids).filter _)
        (keys_matching s hi query key_mapper m _ hfind)
    rw [hres, List.length_take, hlen]
    rfl

end SearchServer

end Search

namespace Search

namespace SearchServer

variable {R : Type} [LinearOrderedField R]

/-! ## Stop words -/

/-- What `MakeUniqueNonEmptyStrings` returns: every string it was given is a
valid word, and the set holds what it held and the strings given that are not
empty. -/
theorem MakeUniqueNonEmptyStrings_ok (strings : List Word) :
    ∀ (acc out : OSet Word), MakeUniqueNonEmptyStrings strings acc = .ok out →
      (∀ w ∈ strings, IsValidWord w = true) ∧
      ∀ w, w ∈ out ↔ w ∈ acc ∨ (w ∈ strings ∧ w ≠ []) := by
  induction strings with
  | nil =>
    intro acc out h
    simp only [MakeUniqueNonEmptyStrings, Except.ok.injEq] at h
    subst h
    simp
  | cons str rest ih =>
    intro acc out h
    unfold MakeUniqueNonEmptyStrings at h
    by_cases hv : IsValidWord str = true
    · simp only [hv, Bool.not_true, Bool.false_eq_true, if_false] at h
      by_cases he : str = []
      · subst he
        simp only [List.isEmpty_nil, Bool.not_true, Bool.false_eq_true, if_false] at h
        obtain ⟨h1, h2⟩ := ih acc out h
        refine ⟨?_, ?_⟩
        · intro w hw
          rcases List.mem_cons.1 hw with e | hw
          · rw [e]; exact hv
          · exact h1 w hw
        · intro w
          rw [h2 w]
          constructor
          · rintro (h3 | ⟨h3, h4⟩)
            · exact Or.inl h3
            · exact Or.inr ⟨List.mem_cons_of_mem _ h3, h4⟩
          · rintro (h3 | ⟨h3, h4⟩)
            · exact Or.inl h3
            · rcases List.mem_cons.1 h3 with e | h3
              · exact absurd e h4
              · exact Or.inr ⟨h3, h4⟩
      · have hne : str.isEmpty = false := by
          cases str with
          | nil => exact absurd rfl he
          | cons c cs => rfl
        simp only [hne, Bool.not_false, if_true] at h
        obtain ⟨h1, h2⟩ := ih (OSet.insert str acc) out h
        refine ⟨?_, ?_⟩
        · intro w hw
          rcases List.mem_cons.1 hw with e | hw
          · rw [e]; exact hv
          · exact h1 w hw
        · intro w
          rw [h2 w, OSet.mem_insert]
          constructor
          · rintro ((h3 | h3) | ⟨h3, h4⟩)
            · exact Or.inr ⟨by rw [h3]; exact List.mem_cons_self _ _, by rw [h3]; exact he⟩
            · exact Or.inl h3
            · exact Or.inr ⟨List.mem_cons_of_mem _ h3, h4⟩
          · rintro (h3 | ⟨h3, h4⟩)
            · exact Or.inl (Or.inr h3)
            · rcases List.mem_cons.1 h3 with e | h3
              · exact Or.inl (Or.inl e)
              · exact Or.inr ⟨h3, h4⟩
    · have hv' : IsValidWord str = false := by
        cases hb : IsValidWord str with
        | true => exact absurd hb hv
        | false => rfl
      simp [hv'] at h

/-- The function `MakeUniqueNonEmptyStrings` throws `invalid_argument` when one
of the strings is not a valid word. -/
theorem MakeUniqueNonEmptyStrings_error (strings : List Word) :
    ∀ (acc : OSet Word), (∃ w ∈ strings, IsValidWord w = false) →
      MakeUniqueNonEmptyStrings strings acc = .error .invalid_argument := by
  induction strings with
  | nil =>
    rintro acc ⟨w, hw, _⟩
    cases hw
  | cons str rest ih =>
    rintro acc ⟨w, hw, hv⟩
    unfold MakeUniqueNonEmptyStrings
    by_cases hs : IsValidWord str = true
    · have hrest : ∃ w ∈ rest, IsValidWord w = false := by
        rcases List.mem_cons.1 hw with e | hw
        · rw [e, hs] at hv
          cases hv
        · exact ⟨w, hw, hv⟩
      simp only [hs, Bool.not_true, Bool.false_eq_true, if_false]
      split
      · exact ih _ hrest
      · exact ih _ hrest
    · have hs' : IsValidWord str = false := by
        cases hb : IsValidWord str with
        | true => exact absurd hb hs
        | false => rfl
      simp [hs']

/-- A constructor given a stop word with a character of code below 0x20 throws
`invalid_argument`. -/
theorem ofContainer_error (stop_words : List Word)
    (h : ∃ w ∈ stop_words, ∃ c ∈ w, c.toNat < 0x20) :
    ofContainer (R := R) stop_words = .error .invalid_argument := by
  obtain ⟨w, hw, hc⟩ := h
  unfold ofContainer
  rw [MakeUniqueNonEmptyStrings_error stop_words [] ⟨w, hw, (IsValidWord_eq_false_iff w).2 hc⟩]

/-- The loop of `AddDocument` gives the inverted index no term other than the
words it runs over. -/
theorem foldl_AddDocumentStep_inverted_other (document_id : Int) (x : R) (words : List Word)
    (t : Word) (ht : t ∉ words) :
    ∀ s : SearchServer R,
      OMap.find? (words.foldl (AddDocumentStep document_id x) s).word_to_document_freqs_ t =
        OMap.find? s.word_to_document_freqs_ t := by
  induction words with
  | nil => intro s; rfl
  | cons w ws ih =>
    intro s
    have h1 : t ≠ w := fun e => ht (by rw [e]; exact List.mem_cons_self _ _)
    have h2 : t ∉ ws := fun h => ht (List.mem_cons_of_mem _ h)
    rw [List.foldl_cons, ih h2]
    simp only [AddDocumentStep, OMap.find?_insert, h1, if_false]

/-- The stop words are not changed by `AddDocument`, and it gives the inverted
index no term that is a stop word. -/
theorem AddDocument_stop_words (s : SearchServer R) (document_id : Int) (document : Word)
    (status : DocumentStatus) (ratings : List Int) :
    (AddDocument s document_id document status ratings).1.stop_words_ = s.stop_words_ ∧
    ∀ w ∈ s.stop_words_,
      OMap.find? (AddDocument s document_id document status ratings).1.word_to_document_freqs_ w =
        OMap.find? s.word_to_document_freqs_ w := by
  by_cases hg : document_id < 0 ∨ OMap.count s.documents_ document_id > 0
  · simp only [AddDocument, hg, if_true]
    exact ⟨trivial, fun _ _ => trivial⟩
  · cases hw : SplitIntoWordsNoStop s document with
    | error e =>
      simp only [AddDocument, hg, if_false, hw]
      exact ⟨trivial, fun _ _ => trivial⟩
    | ok words =>
      have hwords : ∀ w ∈ s.stop_words_, w ∉ words := by
        intro w hws hmem
        unfold SplitIntoWordsNoStop at hw
        rcases SplitIntoWordsNoStopLoop_spec s (SplitIntoWords document) [] with
          ⟨_, herr⟩ | ⟨_, hok⟩
        · rw [herr] at hw
          cases hw
        · rw [hok] at hw
          cases hw
          rw [List.nil_append, List.mem_filter] at hmem
          rw [(IsStopWord_iff s w).2 hws] at hmem
          exact absurd hmem.2 (by decide)
      have hfix := AddDocument_foldl_fixed document_id (1 / (words.length : R)) words s
      cases hr : ComputeAverageRating ratings with
      | error e =>
        simp only [AddDocument, hg, if_false, hw, hr]
        exact ⟨hfix.2.2, fun w hws =>
          foldl_AddDocumentStep_inverted_other document_id _ words w (hwords w hws) s⟩
      | ok rating =>
        simp only [AddDocument, hg, if_false, hw, hr]
        exact ⟨hfix.2.2, fun w hws =>
          foldl_AddDocumentStep_inverted_other document_id _ words w (hwords w hws) s⟩

/-- The loop of `RemoveDocument` gives the inverted index no term. -/
theorem RemoveDocumentLoop_none (document_id : Int) (words : List Word) (t : Word) :
    ∀ (w2d : OMap Word (OMap Int R)), OMap.find? w2d t = none →
      OMap.find? (RemoveDocumentLoop document_id words w2d).1 t = none := by
  induction words with
  | nil => intro w2d h; exact h
  | cons w ws ih =>
    intro w2d h
    unfold RemoveDocumentLoop
    cases hf : OMap.find? w2d w with
    | none => exact h
    | some docs =>
      simp only
      apply ih
      rw [OMap.find?_insert]
      by_cases e : t = w
      · rw [e, hf] at h
        cases h
      · simp only [e, if_false]
        exact h

/-- The stop words are not changed by `RemoveDocument`, and it gives the
inverted index no term. -/
theorem RemoveDocument_stop_words (s : SearchServer R) (document_id : Int) :
    (RemoveDocument s document_id).1.stop_words_ = s.stop_words_ ∧
    ∀ t, OMap.find? s.word_to_document_freqs_ t = none →
      OMap.find? (RemoveDocument s document_id).1.word_to_document_freqs_ t = none := by
  unfold RemoveDocument
  by_cases hc : OSet.count s.document_ids_ document_id = 0
  · simp only [hc, if_true]
    exact ⟨trivial, fun _ h => h⟩
  · simp only [hc, if_false]
    cases hf : OMap.find? s.document_to_word_freqs_ document_id with
    | none => exact ⟨rfl, fun _ h => h⟩
    | some word_freqs =>
      simp only
      cases hl : RemoveDocumentLoop document_id (OMap.keys word_freqs)
          s.word_to_document_freqs_ with
      | mk w2d b =>
        have hnone : ∀ t, OMap.find? s.word_to_document_freqs_ t = none →
            OMap.find? w2d t = none := by
          intro t ht
          have := RemoveDocumentLoop_none document_id (OMap.keys word_freqs) t
            s.word_to_document_freqs_ ht
          rw [hl] at this
          exact this
        cases b with
        | false => exact ⟨rfl, hnone⟩
        | true => exact ⟨rfl, hnone⟩

/-- A server that never had `SetStopWords` called is reachable. -/
theorem ReachableWithoutSetStopWords.reachable {s : SearchServer R}
    (h : ReachableWithoutSetStopWords s) : Reachable s := by
  induction h with
  | ctor stop_words s hs => exact Reachable.ctor stop_words s hs
  | addDocument s document_id document status ratings _ hex ih =>
    exact Reachable.addDocument s document_id document status ratings ih hex
  | removeDocument s document_id _ ih => exact Reachable.removeDocument s document_id ih

/-- On a server that never had `SetStopWords` called every stop word is a
valid word that is not empty, and is not a term of the inverted index. -/
theorem ReachableWithoutSetStopWords.stop {s : SearchServer R}
    (h : ReachableWithoutSetStopWords s) :
    ∀ w ∈ s.stop_words_, w ≠ [] ∧ IsValidWord w = true ∧
      OMap.find? s.word_to_document_freqs_ w = none := by
  induction h with
  | ctor stop_words s hs =>
    unfold SearchServer.ofContainer at hs
    cases hm : MakeUniqueNonEmptyStrings stop_words [] with
    | error e => simp [hm] at hs
    | ok stop =>
      simp only [hm, Except.ok.injEq] at hs
      subst hs
      obtain ⟨h1, h2⟩ := MakeUniqueNonEmptyStrings_ok stop_words [] stop hm
      intro w hw
      rcases (h2 w).1 hw with h3 | ⟨h3, h4⟩
      · cases h3
      · exact ⟨h4, h1 w h3, rfl⟩
  | addDocument s document_id document status ratings _ _ ih =>
    obtain ⟨h1, h2⟩ := AddDocument_stop_words s document_id document status ratings
    intro w hw
    rw [h1] at hw
    obtain ⟨h3, h4, h5⟩ := ih w hw
    exact ⟨h3, h4, by rw [h2 w hw]; exact h5⟩
  | removeDocument s document_id _ ih =>
    obtain ⟨h1, h2⟩ := RemoveDocument_stop_words s document_id
    intro w hw
    rw [h1] at hw
    obtain ⟨h3, h4, h5⟩ := ih w hw
    exact ⟨h3, h4, h2 w h5⟩

/-- On a consistent server a word that is not a term of the inverted index is
in the forward-index entry of no document. -/
theorem not_mem_GetWordFrequencies (s : SearchServer R) (hs : Inv s) (w : Word)
    (h : OMap.find? s.word_to_document_freqs_ w = none) (d : Int) :
    w ∉ OMap.keys (GetWordFrequencies s d) := by
  rw [OMap.mem_keys_iff, find?_GetWordFrequencies, hs.transpose d w]
  unfold OMap.find2?
  rw [h]
  simp

theorem serverCatStop_reachable : Reachable (serverCatStop : SearchServer R) :=
  Reachable.setStopWords serverCat "cat".toList serverCat_reachable

theorem serverEmptied_reachable : Reachable (serverEmptied : SearchServer R) :=
  Reachable.removeDocument server2 1 server2_reachable

theorem server0_reachable_without_SetStopWords :
    ReachableWithoutSetStopWords (server0 : SearchServer R) :=
  ReachableWithoutSetStopWords.ctor ["and".toList] server0 rfl

theorem server1_reachable_without_SetStopWords :
    ReachableWithoutSetStopWords (server1 : SearchServer R) :=
  ReachableWithoutSetStopWords.addDocument server0 0 "white cat and fashionable collar".toList
    .ACTUAL [8, -3] server0_reachable_without_SetStopWords
    (fun e he => by
      have h2 : (AddDocument (server0 : SearchServer R) 0
          "white cat and fashionable collar".toList .ACTUAL [8, -3]).2 = .ok () := rfl
      rw [h2] at he
      cases he)

end SearchServer

end Search

namespace Search

namespace SearchServer

variable {R : Type} [LinearOrderedField R]

/-! ## The assertions and lookups of the sequenced search -/

/-- On a consistent server every document id stored under a term of the
inverted index has a document record. -/
theorem Inv.record_of_inverted {s : SearchServer R} (hs : Inv s) (t : Word) (docs : OMap Int R)
    (d : Int) (ht : OMap.find? s.word_to_document_freqs_ t = some docs)
    (hd : (OMap.find? docs d).isSome = true) : (OMap.find? s.documents_ d).isSome = true := by
  have h1 : (OMap.find2? s.document_to_word_freqs_ d t).isSome = true := by
    rw [hs.transpose d t]
    unfold OMap.find2?
    rw [ht]
    exact hd
  apply (hs.records_live d).2
  apply hs.forward_live d
  unfold OMap.find2? at h1
  cases hf : OMap.find? s.document_to_word_freqs_ d with
  | none => rw [hf] at h1; cases h1
  | some ws => rfl

/-- The last loop of `FindAllDocuments` returns when every document it is
given has a record. -/
theorem EmitDocuments_total (s : SearchServer R) (m : OMap Int R) :
    ∀ acc : List (Document R),
      (∀ d, (OMap.find? m d).isSome = true → (OMap.find? s.documents_ d).isSome = true) →
      ∃ docs, EmitDocuments s m acc = .ok docs := by
  induction m with
  | nil => intro acc _; exact ⟨acc, rfl⟩
  | cons p rest ih =>
    obtain ⟨d, rel⟩ := p
    intro acc h
    unfold EmitDocuments
    have hd : (OMap.find? s.documents_ d).isSome = true := h d (by simp [OMap.find?])
    cases hf : OMap.find? s.documents_ d with
    | none => rw [hf] at hd; cases hd
    | some data =>
      simp only
      apply ih
      intro d' hd'
      apply h d'
      unfold OMap.find?
      split
      · rfl
      · exact hd'

/-- The first loop of the sequenced `FindAllDocuments` on a consistent server:
it fails the assertion `word_size != 0`, where assertions are compiled in and
one of the words is a term with an empty document mapping, and returns
otherwise. -/
theorem PlusLoop_total (tc : Toolchain R) (s : SearchServer R) (hs : Inv s)
    (key_mapper : Int → DocumentStatus → Int → Bool) (words : List Word) :
    ∀ acc : OMap Int R,
      ((tc.ndebug = false ∧ ∃ w ∈ words, OMap.find? s.word_to_document_freqs_ w = some []) ∧
        PlusLoop tc s key_mapper words acc = .error .assertion_failed) ∨
      (¬ (tc.ndebug = false ∧ ∃ w ∈ words, OMap.find? s.word_to_document_freqs_ w = some []) ∧
        ∃ acc', PlusLoop tc s key_mapper words acc = .ok acc') := by
  induction words with
  | nil =>
    intro acc
    right
    refine ⟨?_, acc, rfl⟩
    rintro ⟨_, w, hw, _⟩
    cases hw
  | cons w rest ih =>
    intro acc
    unfold PlusLoop
    cases hf : OMap.find? s.word_to_document_freqs_ w with
    | none =>
      have hc : OMap.count s.word_to_document_freqs_ w = 0 := by
        unfold OMap.count
        rw [hf]
        rfl
      simp only [hc, if_true]
      rcases ih acc with ⟨⟨h1, v, hv, hv2⟩, h2⟩ | ⟨h1, h2⟩
      · exact Or.inl ⟨⟨h1, v, List.mem_cons_of_mem _ hv, hv2⟩, h2⟩
      · refine Or.inr ⟨?_, h2⟩
        rintro ⟨h3, v, hv, hv2⟩
        rcases List.mem_cons.1 hv with e | hv
        · rw [e, hf] at hv2
          cases hv2
        · exact h1 ⟨h3, v, hv, hv2⟩
    | some docs =>
      have hc : ¬ OMap.count s.word_to_document_freqs_ w = 0 := by
        unfold OMap.count
        rw [hf]
        simp
      simp only [hc, if_false]
      by_cases hfail : tc.ndebug = false ∧ docs = []
      · left
        obtain ⟨hn, hd⟩ := hfail
        subst hd
        refine ⟨⟨hn, w, List.mem_cons_self _ _, hf⟩, ?_⟩
        have hidf : ComputeWordInverseDocumentFreq tc s w = .error .assertion_failed := by
          unfold ComputeWordInverseDocumentFreq
          simp [hn, hc, hf]
        rw [hidf]
      · have hidf : ∃ v, ComputeWordInverseDocumentFreq tc s w = .ok v := by
          unfold ComputeWordInverseDocumentFreq
          by_cases hn : tc.ndebug = true
          · simp [hn, hf]
          · have hn' : tc.ndebug = false := by
              cases hb : tc.ndebug with
              | true => exact absurd hb hn
              | false => rfl
            have hd : docs ≠ [] := fun e => hfail ⟨hn', e⟩
            have hlen : ¬ ((docs.length : Nat) : Int) = 0 := by
              intro e
              exact hd (List.length_eq_zero.1 (by exact_mod_cast e))
            simp [hn', hc, hf, hlen]
        obtain ⟨v, hv⟩ := hidf
        rw [hv]
        simp only
        obtain ⟨acc1, hacc1, _⟩ := AccumulateWord_spec s key_mapper v docs acc
          (hs.wf_inverted_inner w docs hf) (fun d hd => hs.record_of_inverted w docs d hf hd)
        rw [hacc1]
        simp only
        rcases ih acc1 with ⟨⟨h1, u, hu, hu2⟩, h2⟩ | ⟨h1, h2⟩
        · exact Or.inl ⟨⟨h1, u, List.mem_cons_of_mem _ hu, hu2⟩, h2⟩
        · refine Or.inr ⟨?_, h2⟩
          rintro ⟨h3, u, hu, hu2⟩
          rcases List.mem_cons.1 hu with e | hu
          · rw [e, hf] at hu2
            cases hu2
            exact hfail ⟨h3, rfl⟩
          · exact h1 ⟨h3, u, hu, hu2⟩

/-- The sequenced `FindAllDocuments` on a consistent server performs no failing
lookup: it fails the assertion `word_size != 0`, where assertions are compiled
in and a plus-word is a term with an empty document mapping, and returns
otherwise. -/
theorem FindAllDocumentsSeq_total (tc : Toolchain R) (s : SearchServer R) (hs : Inv s)
    (query : Query) (key_mapper : Int → DocumentStatus → Int → Bool) :
    ((tc.ndebug = false ∧
        ∃ w ∈ query.plus_words, OMap.find? s.word_to_document_freqs_ w = some []) ∧
      FindAllDocumentsSeq tc s query key_mapper = .error .assertion_failed) ∨
    (¬ (tc.ndebug = false ∧
        ∃ w ∈ query.plus_words, OMap.find? s.word_to_document_freqs_ w = some []) ∧
      ∃ docs, FindAllDocumentsSeq tc s query key_mapper = .ok docs) := by
  unfold FindAllDocumentsSeq
  rcases PlusLoop_total tc s hs key_mapper query.plus_words [] with ⟨h1, h2⟩ | ⟨h1, acc, h2⟩
  · left
    rw [h2]
    exact ⟨h1, rfl⟩
  · right
    refine ⟨h1, ?_⟩
    rw [h2]
    simp only
    apply EmitDocuments_total
    intro d hd
    obtain ⟨_, hfind1⟩ := PlusLoop_spec tc s key_mapper hs query.plus_words [] acc h2
    obtain ⟨_, hfind2⟩ := MinusLoop_spec s query.minus_words acc
    rw [hfind2 d] at hd
    split at hd
    · cases hd
    · rw [hfind1 d] at hd
      split at hd
      · rename_i hacc
        unfold Accepts at hacc
        cases hf : OMap.find? s.documents_ d with
        | none => rw [hf] at hacc; cases hacc
        | some data => rfl
      · simp [OMap.find?] at hd

/-- How the sequenced `FindTopDocuments` ends on a consistent server: with
`invalid_argument` for a query that does not parse; else with the failed
assertion `word_size != 0`, where assertions are compiled in and a plus-word is
a term with an empty document mapping; else with the documents found, sorted,
or outside the precondition of `std::sort`. -/
theorem FindTopDocuments_seq_total (tc : Toolchain R) (s : SearchServer R) (hs : Inv s)
    (raw_query : Word) (key_mapper : Int → DocumentStatus → Int → Bool) :
    (ParseQuery s .seq raw_query = .error .invalid_argument ∧
      FindTopDocuments tc s .seq raw_query key_mapper = .error .invalid_argument) ∨
    (∃ query, ParseQuery s .seq raw_query = .ok query ∧
      (((tc.ndebug = false ∧
          ∃ w ∈ query.plus_words, OMap.find? s.word_to_document_freqs_ w = some []) ∧
        FindTopDocuments tc s .seq raw_query key_mapper = .error .assertion_failed) ∨
      (¬ (tc.ndebug = false ∧
          ∃ w ∈ query.plus_words, OMap.find? s.word_to_document_freqs_ w = some []) ∧
        ((∃ result, FindTopDocuments tc s .seq raw_query key_mapper = .ok result) ∨
          FindTopDocuments tc s .seq raw_query key_mapper = .error .undefined_sort)))) := by
  unfold FindTopDocuments
  cases hq : ParseQuery s .seq raw_query with
  | error e =>
    left
    rw [ParseQuery_error_kind s .seq raw_query e hq]
    exact ⟨rfl, rfl⟩
  | ok query =>
    right
    refine ⟨query, rfl, ?_⟩
    simp only [FindAllDocuments]
    rcases FindAllDocumentsSeq_total tc s hs query key_mapper with ⟨h1, h2⟩ | ⟨h1, docs, h2⟩
    · left
      rw [h2]
      exact ⟨h1, rfl⟩
    · right
      refine ⟨h1, ?_⟩
      rw [h2]
      simp only
      unfold stdSort
      by_cases hswo : StrictWeakOn CompareDocuments docs
      · left
        simp only [hswo, if_true]
        split
        · exact ⟨_, rfl⟩
        · exact ⟨_, rfl⟩
      · right
        simp only [hswo, if_false]

/-! ## The scenario after `RemoveDocument(1)` -/

/-- The data members of the scenario after `RemoveDocument(1)`: the terms
"fluffy" and "tail" of document 1 alone are left with empty document
mappings. -/
theorem serverEmptied_eq :
    (serverEmptied : SearchServer R) =
      ⟨["and".toList],
        ["cat".toList, "collar".toList, "fashionable".toList, "fluffy".toList, "tail".toList,
          "white".toList],
        [("cat".toList, [(0, 0 + 1 / ((4 : Nat) : R))]),
          ("collar".toList, [(0, 0 + 1 / ((4 : Nat) : R))]),
          ("fashionable".toList, [(0, 0 + 1 / ((4 : Nat) : R))]),
          ("fluffy".toList, []),
          ("tail".toList, []),
          ("white".toList, [(0, 0 + 1 / ((4 : Nat) : R))])],
        [(0, ⟨2, .ACTUAL⟩)],
        [0],
        [(0, [("cat".toList, 0 + 1 / ((4 : Nat) : R)),
          ("collar".toList, 0 + 1 / ((4 : Nat) : R)),
          ("fashionable".toList, 0 + 1 / ((4 : Nat) : R)),
          ("white".toList, 0 + 1 / ((4 : Nat) : R))])]⟩ := by
  rfl

/-- The sequenced search for "fluffy cat" in the scenario after
`RemoveDocument(1)`, with assertions compiled in. -/
theorem serverEmptied_search (log : R → R)
    (sort : (Document R → Document R → Bool) → List (Document R) → List (Document R)) :
    FindTopDocumentsByStatus ⟨log, false, sort⟩ (serverEmptied : SearchServer R) .seq
      "fluffy cat".toList .ACTUAL = .error .assertion_failed := by
  rw [serverEmptied_eq]
  rfl

end SearchServer

end Search

namespace Search

namespace SearchServer

variable {R : Type} [LinearOrderedField R]

/-! ## C1 -/

/-- C1: in every server reached from construction by calls of `AddDocument` and
`RemoveDocument` (and `SetStopWords`), the forward index is the exact
transpose of the inverted index: `document_to_word_freqs_[d][t]` is `f` if and
only if `word_to_document_freqs_[t][d]` is `f`, and every such `d` is a live
id. -/
theorem forward_index_transposes_inverted_index (s : SearchServer R) (hs : Reachable s)
    (d : Int) (t : Word) (f : R) :
    (OMap.find2? s.document_to_word_freqs_ d t = some f ↔
      OMap.find2? s.word_to_document_freqs_ t d = some f) ∧
    (OMap.find2? s.word_to_document_freqs_ t d = some f → d ∈ s.document_ids_) := by
  have hi := hs.inv
  refine ⟨by rw [hi.transpose], ?_⟩
  intro h
  rw [← hi.transpose] at h
  apply hi.forward_live
  unfold OMap.find2? at h
  cases e : OMap.find? s.document_to_word_freqs_ d with
  | none => simp [e] at h
  | some ws => rfl

/-- Witness for C1: the server of the scenario, document 1 and "fluffy". -/
theorem forward_index_transposes_inverted_index_witness :
    Reachable (server2 : SearchServer ℚ) ∧
    ((OMap.find2? (server2 : SearchServer ℚ).document_to_word_freqs_ 1 "fluffy".toList
        = some (1 / 2) ↔
      OMap.find2? (server2 : SearchServer ℚ).word_to_document_freqs_ "fluffy".toList 1
        = some (1 / 2)) ∧
    (OMap.find2? (server2 : SearchServer ℚ).word_to_document_freqs_ "fluffy".toList 1
        = some (1 / 2) → (1 : Int) ∈ (server2 : SearchServer ℚ).document_ids_)) :=
  ⟨server2_reachable,
    forward_index_transposes_inverted_index server2 server2_reachable 1 "fluffy".toList (1 / 2)⟩

/-! ## C2 -/

theorem ComputeAverageRating_ok {ratings : List Int} (h : ratings ≠ []) :
    ∃ rating, ComputeAverageRating ratings = .ok rating := by
  unfold ComputeAverageRating
  have : ratings.length ≠ 0 := fun e => h (List.length_eq_zero.1 e)
  simp [this]

/-- C2: on a reachable server and with a non-empty list of ratings,
`AddDocument` fails with `invalid_argument` if and only if the id is negative,
or is already live, or some token of the text split at its spaces contains a
character with code below 0x20; it ends in no other way than by returning or
by that exception; and whenever it fails the server is left as it was. -/
theorem AddDocument_fails_iff_and_leaves_server (s : SearchServer R) (hs : Reachable s)
    (document_id : Int) (document : Word) (status : DocumentStatus) (ratings : List Int)
    (hr : ratings ≠ []) :
    ((AddDocument s document_id document status ratings).2 = .error .invalid_argument ↔
      (document_id < 0 ∨ document_id ∈ s.document_ids_ ∨
        ∃ tok ∈ document.splitOn ' ', ∃ c ∈ tok, c.toNat < 0x20)) ∧
    ((AddDocument s document_id document status ratings).2 = .ok () ∨
      (AddDocument s document_id document status ratings).2 = .error .invalid_argument) ∧
    (∀ e, (AddDocument s document_id document status ratings).2 = .error e →
      (AddDocument s document_id document status ratings).1 = s) := by
  have hi := hs.inv
  have hlive : OMap.count s.documents_ document_id > 0 ↔ document_id ∈ s.document_ids_ := by
    rw [← hi.records_live]
    unfold OMap.count
    split <;> simp_all
  have hbad : (∃ tok ∈ SplitIntoWords document, IsValidWord tok = false) ↔
      ∃ tok ∈ document.splitOn ' ', ∃ c ∈ tok, c.toNat < 0x20 := by
    rw [SplitIntoWords_eq_splitOn]
    constructor
    · rintro ⟨tok, ht, hv⟩
      exact ⟨tok, ht, (IsValidWord_eq_false_iff tok).1 hv⟩
    · rintro ⟨tok, ht, hv⟩
      exact ⟨tok, ht, (IsValidWord_eq_false_iff tok).2 hv⟩
  by_cases hg : document_id < 0 ∨ OMap.count s.documents_ document_id > 0
  · have hres : AddDocument s document_id document status ratings =
        (s, .error .invalid_argument) := by
      simp only [AddDocument, hg, if_true]
    rw [hres]
    refine ⟨?_, Or.inr rfl, fun _ _ => rfl⟩
    constructor
    · intro _
      rcases hg with h | h
      · exact Or.inl h
      · exact Or.inr (Or.inl (hlive.1 h))
    · intro _
      rfl
  · have hg1 : ¬ document_id < 0 := fun h => hg (Or.inl h)
    have hg2 : ¬ document_id ∈ s.document_ids_ := fun h => hg (Or.inr (hlive.2 h))
    rcases SplitIntoWordsNoStopLoop_spec s (SplitIntoWords document) [] with
      ⟨hex, herr⟩ | ⟨hall, hok⟩
    · have hres : AddDocument s document_id document status ratings =
          (s, .error .invalid_argument) := by
        simp only [AddDocument, hg, if_false, SplitIntoWordsNoStop, herr]
      rw [hres]
      refine ⟨?_, Or.inr rfl, fun _ _ => rfl⟩
      constructor
      · intro _
        exact Or.inr (Or.inr (hbad.1 hex))
      · intro _
        rfl
    · obtain ⟨rating, hrating⟩ := ComputeAverageRating_ok hr
      have hres : (AddDocument s document_id document status ratings).2 = .ok () := by
        simp only [AddDocument, hg, if_false, SplitIntoWordsNoStop, hok, hrating]
      rw [hres]
      refine ⟨?_, Or.inl rfl, fun e he => by cases he⟩
      constructor
      · intro h
        cases h
      · rintro (h | h | h)
        · exact absurd h hg1
        · exact absurd h hg2
        · exfalso
          obtain ⟨tok, ht, hv⟩ := hbad.2 h
          rw [hall tok ht] at hv
          cases hv

/-- Witness for C2: `AddDocument(-1, "cat", ACTUAL, {1})` on the server of the
scenario. -/
theorem AddDocument_fails_iff_and_leaves_server_witness :
    Reachable (server2 : SearchServer ℚ) ∧ ([1] : List Int) ≠ [] ∧
    (((AddDocument (server2 : SearchServer ℚ) (-1) "cat".toList .ACTUAL [1]).2
        = .error .invalid_argument ↔
      ((-1 : Int) < 0 ∨ (-1 : Int) ∈ (server2 : SearchServer ℚ).document_ids_ ∨
        ∃ tok ∈ "cat".toList.splitOn ' ', ∃ c ∈ tok, c.toNat < 0x20)) ∧
    ((AddDocument (server2 : SearchServer ℚ) (-1) "cat".toList .ACTUAL [1]).2 = .ok () ∨
      (AddDocument (server2 : SearchServer ℚ) (-1) "cat".toList .ACTUAL [1]).2
        = .error .invalid_argument) ∧
    (∀ e, (AddDocument (server2 : SearchServer ℚ) (-1) "cat".toList .ACTUAL [1]).2 = .error e →
      (AddDocument (server2 : SearchServer ℚ) (-1) "cat".toList .ACTUAL [1]).1 = server2)) :=
  ⟨server2_reachable, by decide,
    AddDocument_fails_iff_and_leaves_server server2 server2_reachable (-1) "cat".toList .ACTUAL [1]
      (by decide)⟩

/-! ## C3 -/

theorem MalformedQuery_of_nil_mem {text : Word} (h : [] ∈ text.splitOn ' ') :
    MalformedQuery text :=
  ⟨[], h, Or.inl rfl⟩

/-- C3: parsing a query text, under either policy, fails with
`invalid_argument` if and only if the text split at every single space has a
token that is empty, or is exactly "-", or begins with "--", or contains a
character with code below 0x20, and succeeds otherwise; `FindTopDocuments`
throws `invalid_argument` in exactly these cases, and so does `MatchDocument`
on a live id; in particular the empty text is rejected, and so is every text
with a leading, a trailing or a doubled space. -/
theorem ParseQuery_fails_iff_malformed (tc : Toolchain R) (s : SearchServer R)
    (policy : ExecutionPolicy) (text : Word) (key_mapper : Int → DocumentStatus → Int → Bool)
    (document_id : Int) :
    (ParseQuery s policy text = .error .invalid_argument ↔ MalformedQuery text) ∧
    ((∃ q, ParseQuery s policy text = .ok q) ↔ ¬ MalformedQuery text) ∧
    (FindTopDocuments tc s policy text key_mapper = .error .invalid_argument ↔
      MalformedQuery text) ∧
    (MatchDocument s policy text document_id = .error .invalid_argument ↔
      document_id ∈ s.document_ids_ ∧ MalformedQuery text) ∧
    ParseQuery s policy [] = .error .invalid_argument ∧
    (∀ rest, ParseQuery s policy (' ' :: rest) = .error .invalid_argument) ∧
    (∀ front, ParseQuery s policy (front ++ [' ']) = .error .invalid_argument) ∧
    (∀ front rest, ParseQuery s policy (front ++ ' ' :: ' ' :: rest) = .error .invalid_argument) := by
  have hiff : ∀ t : Word, ParseQuery s policy t = .error .invalid_argument ↔ MalformedQuery t :=
    fun t => ParseQuery_error_iff s policy t
  refine ⟨hiff text, ?_, ?_, ?_, ?_, ?_, ?_, ?_⟩
  · constructor
    · rintro ⟨q, hq⟩ hbad
      rw [(hiff text).2 hbad] at hq
      cases hq
    · intro hgood
      rcases ParseQuery_ok_or_error s policy text with h | h
      · exact h
      · exact absurd ((hiff text).1 h) hgood
  · rw [FindTopDocuments_invalid_argument_iff, hiff]
  · by_cases hlive : document_id ∈ s.document_ids_
    · rw [MatchDocument_invalid_argument_iff s policy text document_id hlive, hiff]
      simp [hlive]
    · have hc : OSet.count s.document_ids_ document_id = 0 := by
        unfold OSet.count
        simp [hlive]
      simp only [MatchDocument, hc, if_true, hlive, false_and, iff_false]
      intro h
      cases h
  · exact (hiff []).2 (MalformedQuery_of_nil_mem (by simp [splitOn_nil_char]))
  · intro rest
    exact (hiff _).2 (MalformedQuery_of_nil_mem (by simp [splitOn_cons_char]))
  · intro front
    exact (hiff _).2 (MalformedQuery_of_nil_mem (by
      rw [splitOn_append_space, splitOn_nil_char]
      simp))
  · intro front rest
    exact (hiff _).2 (MalformedQuery_of_nil_mem (by
      rw [splitOn_append_space, splitOn_cons_char]
      simp))

/-! ## The scenario over the reals -/

theorem real_log_two_bound : (1 : ℝ) / 500000 ≤ Real.log 2 := by
  have h := Real.log_two_gt_d9
  norm_num at h ⊢
  linarith

/-- The ranking of the scenario, computed with the logarithm of the reals and
insertion sort. -/
theorem scenario_real :
    FindTopDocuments (⟨Real.log, false, insertionSort⟩ : Toolchain ℝ) server2 .seq
        "fluffy well-groomed cat".toList (hasStatus .ACTUAL) =
      .ok [⟨1, Real.log 2 / 2, 5⟩, ⟨0, 0, 2⟩] :=
  scenario_ranking (⟨Real.log, false, insertionSort⟩ : Toolchain ℝ) insertionSort_contract
    Real.log_one real_log_two_bound

/-! ## C4 -/

/-- C4: when the sequenced `FindTopDocuments` returns a list on a reachable
server, the query has parsed, and with M the live ids whose document the
predicate accepts, that have a plus-term of the query in their forward-index
entry and no minus-term of it: the returned ids are pairwise distinct, all
belong to M, and the list has min(5, |M|) entries.  In the scenario the query
"fluffy well-groomed cat" returns a list, and the ids in it are 0 and 1. -/
theorem FindTopDocuments_returns_matching_ids (tc : Toolchain R) (hsort : SortContract tc.sort)
    (s : SearchServer R) (hs : Reachable s) (raw_query : Word)
    (key_mapper : Int → DocumentStatus → Int → Bool) (result : List (Document R))
    (h : FindTopDocuments tc s .seq raw_query key_mapper = .ok result) :
    (∃ query, ParseQuery s .seq raw_query = .ok query ∧
      (result.map (fun r => r.id)).Nodup ∧
      (∀ r ∈ result, r.id ∈ MatchingIds s query key_mapper) ∧
      result.length = min 5 (MatchingIds s query key_mapper).length) ∧
    (∃ found, FindTopDocumentsByStatus tc server2 .seq "fluffy well-groomed cat".toList .ACTUAL =
        .ok found ∧ ∀ d, d ∈ found.map (fun r => r.id) ↔ d = 0 ∨ d = 1) := by
  refine ⟨FindTopDocuments_seq_ids tc hsort s hs.inv raw_query key_mapper result h, ?_⟩
  obtain ⟨sorted, hres, hperm, _⟩ := scenario_result tc hsort
  refine ⟨sorted, hres, ?_⟩
  intro d
  have := (hperm.map (fun r : Document R => r.id)).mem_iff (a := d)
  simpa using this

/-- Witness for C4: the query "fluffy well-groomed cat" of the scenario, over
the reals. -/
theorem FindTopDocuments_returns_matching_ids_witness :
    SortContract (insertionSort (α := Document ℝ)) ∧
    Reachable (server2 : SearchServer ℝ) ∧
    FindTopDocuments (⟨Real.log, false, insertionSort⟩ : Toolchain ℝ) server2 .seq
        "fluffy well-groomed cat".toList (hasStatus .ACTUAL) =
      .ok [⟨1, Real.log 2 / 2, 5⟩, ⟨0, 0, 2⟩] ∧
    ((∃ query, ParseQuery (server2 : SearchServer ℝ) .seq "fluffy well-groomed cat".toList =
        .ok query ∧
      (([⟨1, Real.log 2 / 2, 5⟩, ⟨0, 0, 2⟩] : List (Document ℝ)).map (fun r => r.id)).Nodup ∧
      (∀ r ∈ ([⟨1, Real.log 2 / 2, 5⟩, ⟨0, 0, 2⟩] : List (Document ℝ)),
        r.id ∈ MatchingIds (server2 : SearchServer ℝ) query (hasStatus .ACTUAL)) ∧
      ([⟨1, Real.log 2 / 2, 5⟩, ⟨0, 0, 2⟩] : List (Document ℝ)).length =
        min 5 (MatchingIds (server2 : SearchServer ℝ) query (hasStatus .ACTUAL)).length) ∧
    (∃ found, FindTopDocumentsByStatus (⟨Real.log, false, insertionSort⟩ : Toolchain ℝ) server2
        .seq "fluffy well-groomed cat".toList .ACTUAL = .ok found ∧
      ∀ d, d ∈ found.map (fun r => r.id) ↔ d = 0 ∨ d = 1)) :=
  ⟨insertionSort_contract, server2_reachable, scenario_real,
    FindTopDocuments_returns_matching_ids (⟨Real.log, false, insertionSort⟩ : Toolchain ℝ)
      insertionSort_contract server2 server2_reachable "fluffy well-groomed cat".toList
      (hasStatus .ACTUAL) _ scenario_real⟩

/-! ## C5 -/

/-- C5: when the sequenced `FindTopDocuments` returns a list on a reachable
server, no returned document has a minus-term of the query in its
forward-index entry, whatever the predicate is.  In the scenario the query
"cat -fluffy" returns document 0 alone, not document 1. -/
theorem FindTopDocuments_excludes_minus_terms (tc : Toolchain R) (hsort : SortContract tc.sort)
    (s : SearchServer R) (hs : Reachable s) (raw_query : Word)
    (key_mapper : Int → DocumentStatus → Int → Bool) (result : List (Document R))
    (h : FindTopDocuments tc s .seq raw_query key_mapper = .ok result) :
    (∃ query, ParseQuery s .seq raw_query = .ok query ∧
      ∀ r ∈ result, ∀ t ∈ query.minus_words, InForward s r.id t = false) ∧
    (∃ found, FindTopDocumentsByStatus tc server2 .seq "cat -fluffy".toList .ACTUAL = .ok found ∧
      found.map (fun r => r.id) = [0]) := by
  constructor
  · obtain ⟨query, hq, _, hmem, _⟩ :=
      FindTopDocuments_seq_ids tc hsort s hs.inv raw_query key_mapper result h
    refine ⟨query, hq, ?_⟩
    intro r hr t ht
    have h1 := (mem_MatchingIds s hs.inv query key_mapper r.id).1 (hmem r hr)
    unfold Matches at h1
    simp only [Bool.and_eq_true, Bool.not_eq_true', List.any_eq_false] at h1
    have h2 := h1.2 t ht
    simpa using h2
  · exact ⟨_, scenario_minus_result tc hsort, rfl⟩

/-- Witness for C5: the query "cat -fluffy" of the scenario, over the reals. -/
theorem FindTopDocuments_excludes_minus_terms_witness :
    SortContract (insertionSort (α := Document ℝ)) ∧
    Reachable (server2 : SearchServer ℝ) ∧
    FindTopDocuments (⟨Real.log, false, insertionSort⟩ : Toolchain ℝ) server2 .seq
        "cat -fluffy".toList (hasStatus .ACTUAL) =
      .ok [⟨0, rawRelevance0 ⟨Real.log, false, insertionSort⟩, 2⟩] ∧
    ((∃ query, ParseQuery (server2 : SearchServer ℝ) .seq "cat -fluffy".toList = .ok query ∧
      ∀ r ∈ ([⟨0, rawRelevance0 ⟨Real.log, false, insertionSort⟩, 2⟩] : List (Document ℝ)),
        ∀ t ∈ query.minus_words, InForward (server2 : SearchServer ℝ) r.id t = false) ∧
    (∃ found, FindTopDocumentsByStatus (⟨Real.log, false, insertionSort⟩ : Toolchain ℝ) server2
        .seq "cat -fluffy".toList .ACTUAL = .ok found ∧
      found.map (fun r => r.id) = [0])) :=
  ⟨insertionSort_contract, server2_reachable,
    scenario_minus_result (⟨Real.log, false, insertionSort⟩ : Toolchain ℝ) insertionSort_contract,
    FindTopDocuments_excludes_minus_terms (⟨Real.log, false, insertionSort⟩ : Toolchain ℝ)
      insertionSort_contract server2 server2_reachable "cat -fluffy".toList
      (hasStatus .ACTUAL) _
      (scenario_minus_result (⟨Real.log, false, insertionSort⟩ : Toolchain ℝ)
        insertionSort_contract)⟩

/-! ## C6 -/

/-- C6: when `FindTopDocuments` returns a list, under either policy, every two
consecutive results `a`, `b` satisfy: if `|a.relevance - b.relevance| < 1e-6`
then `a.rating >= b.rating`, otherwise `a.relevance > b.relevance`.  In the
scenario, with the logarithm of the reals and any `std::sort`, the query
"fluffy well-groomed cat" lists document 1 before document 0. -/
theorem FindTopDocuments_results_ordered (tc : Toolchain R) (hsort : SortContract tc.sort)
    (s : SearchServer R) (policy : ExecutionPolicy) (raw_query : Word)
    (key_mapper : Int → DocumentStatus → Int → Bool) (result : List (Document R))
    (h : FindTopDocuments tc s policy raw_query key_mapper = .ok result) :
    result.Chain' (fun a b =>
      if |a.relevance - b.relevance| < 1 / 1000000 then a.rating ≥ b.rating
      else a.relevance > b.relevance) ∧
    (∀ (ndebug : Bool) (sort : (Document ℝ → Document ℝ → Bool) → List (Document ℝ) →
        List (Document ℝ)), SortContract sort →
      FindTopDocumentsByStatus (⟨Real.log, ndebug, sort⟩ : Toolchain ℝ) server2 .seq
          "fluffy well-groomed cat".toList .ACTUAL =
        .ok [⟨1, Real.log 2 / 2, 5⟩, ⟨0, 0, 2⟩]) := by
  constructor
  · obtain ⟨query, docs, _, _, hswo, hres⟩ :=
      FindTopDocuments_ok tc s policy raw_query key_mapper result h
    obtain ⟨_, hpair⟩ := hsort CompareDocuments docs hswo
    have hpair' : result.Pairwise (fun a b => CompareDocuments b a = false) := by
      rw [hres]
      exact hpair.sublist (List.take_sublist _ _)
    apply List.Pairwise.chain'
    refine hpair'.imp ?_
    intro a b hba
    unfold CompareDocuments at hba
    rw [abs_sub_comm b.relevance a.relevance] at hba
    by_cases hc : |a.relevance - b.relevance| < 1 / 1000000
    · simp only [hc, if_true, decide_eq_false_iff_not, not_lt] at hba ⊢
      exact hba
    · simp only [hc, if_false, decide_eq_false_iff_not, not_lt] at hba ⊢
      rcases lt_or_eq_of_le hba with hlt | heq
      · exact hlt
      · exfalso
        apply hc
        rw [heq, sub_self, abs_zero]
        norm_num
  · intro ndebug sort hs
    exact scenario_ranking (⟨Real.log, ndebug, sort⟩ : Toolchain ℝ) hs Real.log_one
      real_log_two_bound

/-- Witness for C6: the query "fluffy well-groomed cat" of the scenario, over
the reals. -/
theorem FindTopDocuments_results_ordered_witness :
    SortContract (insertionSort (α := Document ℝ)) ∧
    FindTopDocuments (⟨Real.log, false, insertionSort⟩ : Toolchain ℝ) server2 .seq
        "fluffy well-groomed cat".toList (hasStatus .ACTUAL) =
      .ok [⟨1, Real.log 2 / 2, 5⟩, ⟨0, 0, 2⟩] ∧
    (([⟨1, Real.log 2 / 2, 5⟩, ⟨0, 0, 2⟩] : List (Document ℝ)).Chain' (fun a b =>
      if |a.relevance - b.relevance| < 1 / 1000000 then a.rating ≥ b.rating
      else a.relevance > b.relevance) ∧
    (∀ (ndebug : Bool) (sort : (Document ℝ → Document ℝ → Bool) → List (Document ℝ) →
        List (Document ℝ)), SortContract sort →
      FindTopDocumentsByStatus (⟨Real.log, ndebug, sort⟩ : Toolchain ℝ) server2 .seq
          "fluffy well-groomed cat".toList .ACTUAL =
        .ok [⟨1, Real.log 2 / 2, 5⟩, ⟨0, 0, 2⟩])) :=
  ⟨insertionSort_contract, scenario_real,
    FindTopDocuments_results_ordered (⟨Real.log, false, insertionSort⟩ : Toolchain ℝ)
      insertionSort_contract server2 .seq "fluffy well-groomed cat".toList
      (hasStatus .ACTUAL) _ scenario_real⟩

/-! ## C7 -/

/-- C7: when the sequenced `FindTopDocuments` returns a list on a reachable
server with N live documents, each returned entry carries the stored rating of
its document `d`, and as relevance the sum, over the plus-terms `t` of the
query that occur in the forward-index entry of `d`, of
`tf(t, d) * log (N / df(t))`, where `tf(t, d)` is the frequency stored for
`(t, d)` and `df(t)` the number of live documents that contain `t`. -/
theorem FindTopDocuments_relevance_and_rating (tc : Toolchain R)
    (hsort : SortContract tc.sort) (s : SearchServer R) (hs : Reachable s) (raw_query : Word)
    (key_mapper : Int → DocumentStatus → Int → Bool) (result : List (Document R))
    (h : FindTopDocuments tc s .seq raw_query key_mapper = .ok result) :
    ∃ query, ParseQuery s .seq raw_query = .ok query ∧
      ∀ r ∈ result,
        r.rating = storedRating s r.id ∧
        r.relevance =
          ((query.plus_words.filter (InForward s r.id)).map
            (fun t => termFreq s t r.id *
              tc.log ((liveCount s : R) / (docFreq s t : R)))).sum := by
  obtain ⟨query, m, sorted, hq, hwf, hfind, hperm, _, hres⟩ :=
    FindTopDocuments_seq_ok tc hsort s hs.inv raw_query key_mapper result h
  refine ⟨query, hq, ?_⟩
  intro r hr
  rw [hres] at hr
  have h1 := hperm.mem_iff.1 (List.mem_of_mem_take hr)
  obtain ⟨p, hp, rfl⟩ := List.mem_map.1 h1
  obtain ⟨d, rel⟩ := p
  have h2 := OMap.find?_of_mem hwf hp
  rw [hfind d] at h2
  refine ⟨rfl, ?_⟩
  by_cases hm : Matches s query key_mapper d = true
  · simp only [hm, if_true, Option.some.injEq] at h2
    rw [← h2]
    rfl
  · simp [hm] at h2

/-- Witness for C7: the query "fluffy well-groomed cat" of the scenario, over
the reals. -/
theorem FindTopDocuments_relevance_and_rating_witness :
    SortContract (insertionSort (α := Document ℝ)) ∧
    Reachable (server2 : SearchServer ℝ) ∧
    FindTopDocuments (⟨Real.log, false, insertionSort⟩ : Toolchain ℝ) server2 .seq
        "fluffy well-groomed cat".toList (hasStatus .ACTUAL) =
      .ok [⟨1, Real.log 2 / 2, 5⟩, ⟨0, 0, 2⟩] ∧
    (∃ query, ParseQuery (server2 : SearchServer ℝ) .seq "fluffy well-groomed cat".toList =
        .ok query ∧
      ∀ r ∈ ([⟨1, Real.log 2 / 2, 5⟩, ⟨0, 0, 2⟩] : List (Document ℝ)),
        r.rating = storedRating (server2 : SearchServer ℝ) r.id ∧
        r.relevance =
          ((query.plus_words.filter (InForward (server2 : SearchServer ℝ) r.id)).map
            (fun t => termFreq (server2 : SearchServer ℝ) t r.id *
              Real.log ((liveCount (server2 : SearchServer ℝ) : ℝ) /
                (docFreq (server2 : SearchServer ℝ) t : ℝ)))).sum) :=
  ⟨insertionSort_contract, server2_reachable, scenario_real,
    FindTopDocuments_relevance_and_rating (⟨Real.log, false, insertionSort⟩ : Toolchain ℝ)
      insertionSort_contract server2 server2_reachable "fluffy well-groomed cat".toList
      (hasStatus .ACTUAL) _ scenario_real⟩

/-! ## C8 -/

/-- C8, at its failing input: in the scenario the query "fluffy well-groomed
cat", whose plus-term "well-groomed" occurs in no document, makes the
sequenced `FindTopDocuments` return a list, while the parallel one ends the
process: by the failed assertion of `ComputeWordInverseDocumentFreq`, or, with
the assertions compiled out, by the `out_of_range` of
`word_to_document_freqs_.at(word)` leaving the parallel loop. -/
theorem FindTopDocuments_par_differs_from_seq (tc : Toolchain R) :
    (∃ found, FindTopDocumentsByStatus tc server2 .seq "fluffy well-groomed cat".toList .ACTUAL =
      .ok found) ∧
    FindTopDocumentsByStatus tc server2 .par "fluffy well-groomed cat".toList .ACTUAL =
      .error (if tc.ndebug then .terminate else .assertion_failed) := by
  constructor
  · have hswo : StrictWeakOn CompareDocuments
        [(⟨0, rawRelevance0 tc, 2⟩ : Document R), ⟨1, rawRelevance1 tc, 5⟩] :=
      StrictWeakOn_pair _ CompareDocuments_irrefl CompareDocuments_asymm _ _
    simp only [FindTopDocumentsByStatus, FindTopDocuments, scenario_parse, FindAllDocuments,
      scenario_docs, stdSort, hswo, if_true]
    split
    · exact ⟨_, rfl⟩
    · exact ⟨_, rfl⟩
  · obtain ⟨log, ndebug, sort⟩ := tc
    cases ndebug <;> rfl

/-! ## C9 -/

/-- C9: on a reachable server, for every query text, well-formed or not, and
every id, `MatchDocument` fails with `out_of_range` if and only if the id is
not live.  In the scenario, which has no document 999, `MatchDocument("cat",
999)` fails with `out_of_range`, and so does `MatchDocument("--cat", 999)`. -/
theorem MatchDocument_out_of_range_iff (s : SearchServer R) (hs : Reachable s)
    (policy : ExecutionPolicy) (raw_query : Word) (document_id : Int) :
    (MatchDocument s policy raw_query document_id = .error .out_of_range ↔
      document_id ∉ s.document_ids_) ∧
    MatchDocument (server2 : SearchServer R) .seq "cat".toList 999 = .error .out_of_range ∧
    MatchDocument (server2 : SearchServer R) .seq "--cat".toList 999 = .error .out_of_range := by
  refine ⟨?_, rfl, rfl⟩
  by_cases hd : document_id ∈ s.document_ids_
  · simp only [hd, not_true_eq_false, iff_false]
    cases hq : ParseQuery s policy raw_query with
    | error e =>
      have he := ParseQuery_error_kind s policy raw_query e hq
      subst he
      have := (MatchDocument_invalid_argument_iff s policy raw_query document_id hd).2 hq
      rw [this]
      intro h
      cases h
    | ok query =>
      obtain ⟨data, _, hres⟩ := MatchDocument_live s hs.inv policy raw_query document_id hd query hq
      rw [hres]
      intro h
      cases h
  · simp only [hd, not_false_eq_true, iff_true]
    have hc : OSet.count s.document_ids_ document_id = 0 := by
      unfold OSet.count
      simp [hd]
    simp only [MatchDocument, hc, if_true]

/-- Witness for C9: `MatchDocument("cat", 999)` in the scenario. -/
theorem MatchDocument_out_of_range_iff_witness :
    Reachable (server2 : SearchServer ℚ) ∧
    ((MatchDocument (server2 : SearchServer ℚ) .seq "cat".toList 999 = .error .out_of_range ↔
      (999 : Int) ∉ (server2 : SearchServer ℚ).document_ids_) ∧
    MatchDocument (server2 : SearchServer ℚ) .seq "cat".toList 999 = .error .out_of_range ∧
    MatchDocument (server2 : SearchServer ℚ) .seq "--cat".toList 999 = .error .out_of_range) :=
  ⟨server2_reachable,
    MatchDocument_out_of_range_iff server2 server2_reachable .seq "cat".toList 999⟩

/-! ## C10 -/

/-- C10: on a reachable server, for a live id `d` and a query that parses, the
sequenced `MatchDocument` returns the stored status of `d` together with: no
term, if some minus-term of the query occurs in the forward-index entry of
`d`; otherwise exactly the plus-terms of the query that occur in that entry,
which are listed in strictly ascending lexicographic order, hence each
once. -/
theorem MatchDocument_returns_matched_plus_terms (s : SearchServer R) (hs : Reachable s)
    (raw_query : Word) (d : Int) (hd : d ∈ s.document_ids_) (query : Query)
    (hq : ParseQuery s .seq raw_query = .ok query) :
    ∃ data, OMap.find? s.documents_ d = some data ∧
      MatchDocument s .seq raw_query d =
        .ok (if query.minus_words.any (InForward s d) then []
             else query.plus_words.filter (InForward s d), data.status) ∧
      (query.plus_words.filter (InForward s d)).Pairwise (fun a b => a < b) ∧
      (query.plus_words.filter (InForward s d)).Nodup := by
  obtain ⟨data, hdata, hres⟩ := MatchDocument_live s hs.inv .seq raw_query d hd query hq
  have hwf : (query.plus_words.filter (InForward s d)).Pairwise (fun a b => a < b) :=
    (ParseQuery_WF s .seq raw_query query hq).1.sublist (List.filter_sublist _)
  exact ⟨data, hdata, hres, hwf, hwf.imp (fun h => ne_of_lt h)⟩

/-- Witness for C10: document 1 of the scenario and the query "tail fluffy dog
cat -white". -/
theorem MatchDocument_returns_matched_plus_terms_witness :
    Reachable (server2 : SearchServer ℚ) ∧ (1 : Int) ∈ (server2 : SearchServer ℚ).document_ids_ ∧
    ParseQuery (server2 : SearchServer ℚ) .seq "tail fluffy dog cat -white".toList =
      .ok ⟨["cat".toList, "dog".toList, "fluffy".toList, "tail".toList], ["white".toList]⟩ ∧
    (∃ data, OMap.find? (server2 : SearchServer ℚ).documents_ 1 = some data ∧
      MatchDocument (server2 : SearchServer ℚ) .seq "tail fluffy dog cat -white".toList 1 =
        .ok (if (["white".toList] : List Word).any (InForward (server2 : SearchServer ℚ) 1)
             then []
             else (["cat".toList, "dog".toList, "fluffy".toList, "tail".toList] : List Word).filter
               (InForward (server2 : SearchServer ℚ) 1), data.status) ∧
      ((["cat".toList, "dog".toList, "fluffy".toList, "tail".toList] : List Word).filter
        (InForward (server2 : SearchServer ℚ) 1)).Pairwise (fun a b => a < b) ∧
      ((["cat".toList, "dog".toList, "fluffy".toList, "tail".toList] : List Word).filter
        (InForward (server2 : SearchServer ℚ) 1)).Nodup) :=
  ⟨server2_reachable, by decide, rfl,
    MatchDocument_returns_matched_plus_terms server2 server2_reachable
      "tail fluffy dog cat -white".toList 1 (by decide)
      ⟨["cat".toList, "dog".toList, "fluffy".toList, "tail".toList], ["white".toList]⟩ rfl⟩

end SearchServer

end Search

namespace Search

namespace SearchServer

variable {R : Type} [LinearOrderedField R]

/-! ## C11 -/

/-- C11, at its failing input: on the server with the stop word "and" and the
live document 0 whose text is "and", of which no term was indexed,
`RemoveDocument(0)` throws `out_of_range`, from
`document_to_word_freqs_.at(document_id)`, after it has erased the id and the
record. -/
theorem RemoveDocument_throws_without_forward_entry :
    Reachable (serverStopOnly : SearchServer R) ∧
    (0 : Int) ∈ (serverStopOnly : SearchServer R).document_ids_ ∧
    RemoveDocument (serverStopOnly : SearchServer R) 0 =
      (⟨["and".toList], [], [], [], [], []⟩, .error .out_of_range) :=
  ⟨serverStopOnly_reachable, List.mem_cons_self (0 : Int) [], rfl⟩

/-! ## C12 -/

/-- C12: on every server, reachable or not, `RemoveDocument` of an id that is
not live returns without a change; and after `RemoveDocument(d)`, whether it
returned or threw, a second `RemoveDocument(d)` returns without a change, so
that the server after the two calls is the server after the first. -/
theorem RemoveDocument_idempotent (s : SearchServer R) (d : Int) :
    (d ∉ s.document_ids_ → RemoveDocument s d = (s, .ok ())) ∧
    RemoveDocument (RemoveDocument s d).1 d = ((RemoveDocument s d).1, .ok ()) :=
  ⟨RemoveDocument_not_live s d,
    RemoveDocument_not_live _ d (RemoveDocument_not_live_after s d)⟩

/-- Witness for C12: the scenario, where document 999 is not live and
document 1 is. -/
theorem RemoveDocument_idempotent_witness :
    (999 : Int) ∉ (server2 : SearchServer ℚ).document_ids_ ∧
    RemoveDocument (server2 : SearchServer ℚ) 999 = (server2, .ok ()) ∧
    RemoveDocument (RemoveDocument (server2 : SearchServer ℚ) 1).1 1 =
      ((RemoveDocument (server2 : SearchServer ℚ) 1).1, .ok ()) :=
  ⟨by decide, (RemoveDocument_idempotent server2 999).1 (by decide),
    (RemoveDocument_idempotent server2 1).2⟩

/-! ## C13 -/

/-- C13, at its failing input: `AddDocument(0, "cat", ACTUAL, {})` on the server
with the stop word "and" does not record the document: the division by
`ratings.size()` in `ComputeAverageRating` is a division by zero; and on no
server does a call with no ratings return. -/
theorem AddDocument_faults_without_ratings :
    (AddDocument (server0 : SearchServer R) 0 "cat".toList .ACTUAL []).2 =
      .error .division_by_zero ∧
    ComputeAverageRating [] = .error .division_by_zero ∧
    ∀ (s : SearchServer R) (document_id : Int) (document : Word) (status : DocumentStatus),
      (AddDocument s document_id document status []).2 = .error .invalid_argument ∨
      (AddDocument s document_id document status []).2 = .error .division_by_zero :=
  ⟨rfl, rfl, AddDocument_no_ratings⟩

/-! ## C14 -/

/-- C14: for a non-empty list of ratings whose sum fits in a 32-bit signed
`int`, `ComputeAverageRating` returns the sum divided by the number of ratings,
the quotient truncated toward zero, and that is the rating in the record of a
successful `AddDocument`; the ratings -1, -2 give -1 and the ratings 1, 2
give 1. -/
theorem AddDocument_stores_truncated_mean (ratings : List Int) (hne : ratings ≠ [])
    (h1 : -2 ^ 31 ≤ ratings.sum) (h2 : ratings.sum < 2 ^ 31) :
    ComputeAverageRating ratings = .ok (Int.tdiv ratings.sum (ratings.length : Int)) ∧
    (∀ (s : SearchServer R) (document_id : Int) (document : Word) (status : DocumentStatus),
      (AddDocument s document_id document status ratings).2 = .ok () →
      OMap.find? (AddDocument s document_id document status ratings).1.documents_ document_id =
        some ⟨Int.tdiv ratings.sum (ratings.length : Int), status⟩) ∧
    ComputeAverageRating [-1, -2] = .ok (-1) ∧
    ComputeAverageRating [1, 2] = .ok 1 := by
  have hr := ComputeAverageRating_of_fits ratings hne h1 h2
  refine ⟨hr, ?_, rfl, rfl⟩
  intro s document_id document status hok
  obtain ⟨rating, hrating, hfind⟩ := AddDocument_record s document_id document status ratings hok
  rw [hr] at hrating
  cases hrating
  exact hfind

/-- Witness for C14: document 0 of the scenario, with the ratings 8, -3. -/
theorem AddDocument_stores_truncated_mean_witness :
    ([8, -3] : List Int) ≠ [] ∧ -2 ^ 31 ≤ ([8, -3] : List Int).sum ∧
    ([8, -3] : List Int).sum < 2 ^ 31 ∧
    (ComputeAverageRating [8, -3] =
        .ok (Int.tdiv ([8, -3] : List Int).sum (([8, -3] : List Int).length : Int)) ∧
    (∀ (s : SearchServer ℚ) (document_id : Int) (document : Word) (status : DocumentStatus),
      (AddDocument s document_id document status [8, -3]).2 = .ok () →
      OMap.find? (AddDocument s document_id document status [8, -3]).1.documents_ document_id =
        some ⟨Int.tdiv ([8, -3] : List Int).sum (([8, -3] : List Int).length : Int), status⟩) ∧
    ComputeAverageRating [-1, -2] = .ok (-1) ∧
    ComputeAverageRating [1, 2] = .ok 1) :=
  ⟨by decide, by decide, by decide,
    AddDocument_stores_truncated_mean [8, -3] (by decide) (by decide) (by decide)⟩

/-! ## C15 -/

/-- C15: after a successful `AddDocument(id, text, ...)` on a reachable server,
with the retained tokens those tokens of the text split at its spaces that
are not stop words, and N their number: `GetWordFrequencies(id)` maps every
retained token to its number of occurrences among the retained tokens divided
by N, has no other key, and has each key once (for N = 0 it is empty). -/
theorem AddDocument_stores_term_frequencies (s : SearchServer R) (hs : Reachable s)
    (document_id : Int) (document : Word) (status : DocumentStatus) (ratings : List Int)
    (hok : (AddDocument s document_id document status ratings).2 = .ok ()) :
    (∀ t, OMap.find?
        (GetWordFrequencies (AddDocument s document_id document status ratings).1 document_id) t =
      if t ∈ (document.splitOn ' ').filter (fun w => !IsStopWord s w) then
        some ((((document.splitOn ' ').filter (fun w => !IsStopWord s w)).count t : R) /
          ((((document.splitOn ' ').filter (fun w => !IsStopWord s w)).length : Nat) : R))
      else none) ∧
    (∀ t, t ∈ OMap.keys
        (GetWordFrequencies (AddDocument s document_id document status ratings).1 document_id) ↔
      t ∈ (document.splitOn ' ').filter (fun w => !IsStopWord s w)) ∧
    (OMap.keys
      (GetWordFrequencies (AddDocument s document_id document status ratings).1
        document_id)).Nodup := by
  have hfind : ∀ t, OMap.find?
        (GetWordFrequencies (AddDocument s document_id document status ratings).1 document_id) t =
      if t ∈ (document.splitOn ' ').filter (fun w => !IsStopWord s w) then
        some ((((document.splitOn ' ').filter (fun w => !IsStopWord s w)).count t : R) /
          ((((document.splitOn ' ').filter (fun w => !IsStopWord s w)).length : Nat) : R))
      else none := by
    intro t
    rw [find?_GetWordFrequencies]
    exact AddDocument_frequencies s hs.inv document_id document status ratings hok t
  refine ⟨hfind, ?_, ?_⟩
  · intro t
    rw [OMap.mem_keys_iff, hfind t]
    split <;> simp_all
  · have hex : ∀ e, (AddDocument s document_id document status ratings).2 = .error e →
        e.isException = true := by
      intro e he
      rw [hok] at he
      cases he
    have hinv := hs.inv.addDocument document_id document status ratings hex
    apply OMap.WF_nodup
    unfold GetWordFrequencies
    split
    · exact OMap.WF_getD_nil _ _ (hinv.wf_forward_inner document_id)
    · exact OMap.WF_nil

/-- Witness for C15: adding document 1 of the scenario, "fluffy cat fluffy
tail". -/
theorem AddDocument_stores_term_frequencies_witness :
    Reachable (server1 : SearchServer ℚ) ∧
    (AddDocument (server1 : SearchServer ℚ) 1 "fluffy cat fluffy tail".toList .ACTUAL
      [7, 2, 7]).2 = .ok () ∧
    OMap.find? (GetWordFrequencies (AddDocument (server1 : SearchServer ℚ) 1
        "fluffy cat fluffy tail".toList .ACTUAL [7, 2, 7]).1 1) "fluffy".toList =
      if "fluffy".toList ∈ ("fluffy cat fluffy tail".toList.splitOn ' ').filter
          (fun w => !IsStopWord (server1 : SearchServer ℚ) w) then
        some (((("fluffy cat fluffy tail".toList.splitOn ' ').filter
            (fun w => !IsStopWord (server1 : SearchServer ℚ) w)).count "fluffy".toList : ℚ) /
          (((("fluffy cat fluffy tail".toList.splitOn ' ').filter
            (fun w => !IsStopWord (server1 : SearchServer ℚ) w)).length : Nat) : ℚ))
      else none :=
  ⟨server1_reachable, rfl,
    (AddDocument_stores_term_frequencies server1 server1_reachable 1
      "fluffy cat fluffy tail".toList .ACTUAL [7, 2, 7] rfl).1 "fluffy".toList⟩

end SearchServer

namespace RequestQueue

variable {R : Type} [LinearOrderedField R]

/-! ## C16 -/

/-- C16: after a sequence of n calls of `AddFindRequest` that all return, on a
queue as constructed, the deque holds the queries and result sizes of the most
recent min(n, 1440) calls, in order, and `GetNoResultRequests()` is the number
of held calls with an empty result; after 1441 calls of which all but the
first have a result that is not empty, `GetNoResultRequests()` is 0. -/
theorem holds_most_recent_calls (tc : Toolchain R)
    (calls : List (SearchServer R × Word × (Int → DocumentStatus → Int → Bool)))
    (q : RequestQueue) (log : List QueryResult)
    (h : AddFindRequests tc RequestQueue.new calls = some (q, log)) :
    log.length = calls.length ∧
    log.map (fun e => e.raw_query_) = calls.map (fun c => c.2.1) ∧
    q.requests_ = mostRecent 1440 log ∧
    q.requests_.length = min calls.length 1440 ∧
    GetNoResultRequests q = (emptyResults q.requests_ : Int) ∧
    (calls.length = 1441 → (∀ e ∈ log.drop 1, e.documents_size_ ≠ 0) →
      GetNoResultRequests q = 0) := by
  obtain ⟨h1, h2, h3, h4⟩ :=
    AddFindRequests_spec tc calls RequestQueue.new [] q log rfl rfl h
  rw [List.nil_append] at h3
  have h3' : q.requests_ = mostRecent 1440 log := h3
  refine ⟨h1, h2, h3', ?_, h4, ?_⟩
  · rw [h3', mostRecent_length, h1]
  · intro hn hall
    unfold GetNoResultRequests
    rw [h4, h3']
    have hd : mostRecent 1440 log = log.drop 1 := by
      unfold mostRecent
      rw [h1, hn]
    rw [hd]
    unfold emptyResults
    have : List.filter (fun e => decide (e.documents_size_ = 0)) (log.drop 1) = [] := by
      apply List.filter_eq_nil_iff.2
      intro e he
      simpa using hall e he
    rw [this]
    rfl

/-- Witness for C16: one call, the query "fluffy well-groomed cat" of the
scenario over the reals, which has two results. -/
theorem holds_most_recent_calls_witness :
    AddFindRequests (⟨Real.log, false, insertionSort⟩ : Toolchain ℝ) RequestQueue.new
        [(SearchServer.server2, "fluffy well-groomed cat".toList,
          SearchServer.hasStatus .ACTUAL)] =
      some (⟨[⟨"fluffy well-groomed cat".toList, 2⟩], 0⟩,
        [⟨"fluffy well-groomed cat".toList, 2⟩]) ∧
    (([⟨"fluffy well-groomed cat".toList, 2⟩] : List QueryResult).length =
      ([(SearchServer.server2, "fluffy well-groomed cat".toList,
          SearchServer.hasStatus .ACTUAL)] :
        List (SearchServer ℝ × Word × (Int → DocumentStatus → Int → Bool))).length ∧
    ([⟨"fluffy well-groomed cat".toList, 2⟩] : List QueryResult).map (fun e => e.raw_query_) =
      ([(SearchServer.server2, "fluffy well-groomed cat".toList,
          SearchServer.hasStatus .ACTUAL)] :
        List (SearchServer ℝ × Word × (Int → DocumentStatus → Int → Bool))).map
        (fun c => c.2.1) ∧
    (⟨[⟨"fluffy well-groomed cat".toList, 2⟩], 0⟩ : RequestQueue).requests_ =
      mostRecent 1440 [⟨"fluffy well-groomed cat".toList, 2⟩] ∧
    (⟨[⟨"fluffy well-groomed cat".toList, 2⟩], 0⟩ : RequestQueue).requests_.length =
      min ([(SearchServer.server2, "fluffy well-groomed cat".toList,
          SearchServer.hasStatus .ACTUAL)] :
        List (SearchServer ℝ × Word × (Int → DocumentStatus → Int → Bool))).length 1440 ∧
    GetNoResultRequests (⟨[⟨"fluffy well-groomed cat".toList, 2⟩], 0⟩ : RequestQueue) =
      (emptyResults
        (⟨[⟨"fluffy well-groomed cat".toList, 2⟩], 0⟩ : RequestQueue).requests_ : Int) ∧
    (([(SearchServer.server2, "fluffy well-groomed cat".toList,
          SearchServer.hasStatus .ACTUAL)] :
        List (SearchServer ℝ × Word × (Int → DocumentStatus → Int → Bool))).length = 1441 →
      (∀ e ∈ ([⟨"fluffy well-groomed cat".toList, 2⟩] : List QueryResult).drop 1,
        e.documents_size_ ≠ 0) →
      GetNoResultRequests (⟨[⟨"fluffy well-groomed cat".toList, 2⟩], 0⟩ : RequestQueue) = 0)) :=
  have hrun : AddFindRequests (⟨Real.log, false, insertionSort⟩ : Toolchain ℝ) RequestQueue.new
        [(SearchServer.server2, "fluffy well-groomed cat".toList,
          SearchServer.hasStatus .ACTUAL)] =
      some (⟨[⟨"fluffy well-groomed cat".toList, 2⟩], 0⟩,
        [⟨"fluffy well-groomed cat".toList, 2⟩]) := by
    simp only [AddFindRequests, AddFindRequest, SearchServer.scenario_real]
    rfl
  ⟨hrun, holds_most_recent_calls _ _ _ _ hrun⟩

end RequestQueue

namespace SearchServer

variable {R : Type} [LinearOrderedField R]

/-! ## C17 -/

/-- C17: for a query text that parses, under either policy, a word is a
minus-term if and only if the word with a '-' before it is a token of the text
split at its spaces and the word is not a stop word, and a word is a plus-term
if and only if it is a token that does not begin with '-' and is not a stop
word; so no stop word is a plus-term or a minus-term; and both term sets are
in strictly ascending order. -/
theorem ParseQuery_plus_and_minus_terms (s : SearchServer R) (policy : ExecutionPolicy)
    (text : Word) (q : Query) (h : ParseQuery s policy text = .ok q) :
    (∀ w, w ∈ q.minus_words ↔ ('-' :: w) ∈ text.splitOn ' ' ∧ w ∉ s.stop_words_) ∧
    (∀ w, w ∈ q.plus_words ↔
      w ∈ text.splitOn ' ' ∧ w.head? ≠ some '-' ∧ w ∉ s.stop_words_) ∧
    (∀ w ∈ s.stop_words_, w ∉ q.plus_words ∧ w ∉ q.minus_words) ∧
    q.plus_words.Pairwise (fun a b => a < b) ∧
    q.minus_words.Pairwise (fun a b => a < b) := by
  have hwf := ParseQuery_WF s policy text q h
  unfold ParseQuery at h
  rw [SplitIntoWords_eq_splitOn] at h
  obtain ⟨hp, hm⟩ := ParseQueryLoop_mem s policy _ _ q h
  have hm' : ∀ w, w ∈ q.minus_words ↔ ('-' :: w) ∈ text.splitOn ' ' ∧ w ∉ s.stop_words_ := by
    intro w
    rw [hm w]
    simp
  have hp' : ∀ w, w ∈ q.plus_words ↔
      w ∈ text.splitOn ' ' ∧ w.head? ≠ some '-' ∧ w ∉ s.stop_words_ := by
    intro w
    rw [hp w]
    simp
  refine ⟨hm', hp', ?_, hwf.1, hwf.2⟩
  intro w hw
  exact ⟨fun h1 => ((hp' w).1 h1).2.2 hw, fun h1 => ((hm' w).1 h1).2 hw⟩

/-- Witness for C17: the query "cat -fluffy -and and" in the scenario, whose
stop word is "and". -/
theorem ParseQuery_plus_and_minus_terms_witness :
    ParseQuery (server2 : SearchServer ℚ) .seq "cat -fluffy -and and".toList =
      .ok ⟨["cat".toList], ["fluffy".toList]⟩ ∧
    ((∀ w, w ∈ (["fluffy".toList] : List Word) ↔
      ('-' :: w) ∈ "cat -fluffy -and and".toList.splitOn ' ' ∧
        w ∉ (server2 : SearchServer ℚ).stop_words_) ∧
    (∀ w, w ∈ (["cat".toList] : List Word) ↔
      w ∈ "cat -fluffy -and and".toList.splitOn ' ' ∧ w.head? ≠ some '-' ∧
        w ∉ (server2 : SearchServer ℚ).stop_words_) ∧
    (∀ w ∈ (server2 : SearchServer ℚ).stop_words_,
      w ∉ (["cat".toList] : List Word) ∧ w ∉ (["fluffy".toList] : List Word)) ∧
    (["cat".toList] : List Word).Pairwise (fun a b => a < b) ∧
    (["fluffy".toList] : List Word).Pairwise (fun a b => a < b)) :=
  ⟨rfl, ParseQuery_plus_and_minus_terms server2 .seq "cat -fluffy -and and".toList
    ⟨["cat".toList], ["fluffy".toList]⟩ rfl⟩

/-! ## C18 -/

/-- C18, at its failing input: on the server with the stop word "and" after
`AddDocument(0, "and", ...)`, document 0 is live and has a record, and the
count of documents is 1, but no id has a forward-index entry. -/
theorem live_document_without_forward_entry :
    Reachable (serverStopOnly : SearchServer R) ∧
    (serverStopOnly : SearchServer R).document_ids_ = [0] ∧
    OMap.keys (serverStopOnly : SearchServer R).documents_ = [0] ∧
    GetDocumentCount (serverStopOnly : SearchServer R) = 1 ∧
    OMap.keys (serverStopOnly : SearchServer R).document_to_word_freqs_ = [] :=
  ⟨serverStopOnly_reachable, rfl, rfl, rfl, rfl⟩

/-! ## C19 -/

/-- C19, at its failing input: after `AddDocument(0, "cat", ...)` and
`RemoveDocument(0)`, which returns, the inverted index still has the term "cat",
with an empty document mapping; a search for "cat" then fails the assertion
`word_size != 0` of `ComputeWordInverseDocumentFreq`, where assertions are
compiled in. -/
theorem RemoveDocument_leaves_empty_mapping :
    Reachable (RemoveDocument (serverCat : SearchServer R) 0).1 ∧
    (RemoveDocument (serverCat : SearchServer R) 0).2 = .ok () ∧
    (RemoveDocument (serverCat : SearchServer R) 0).1.word_to_document_freqs_ =
      [("cat".toList, [])] ∧
    ∀ (log : R → R)
      (sort : (Document R → Document R → Bool) → List (Document R) → List (Document R)),
      FindTopDocumentsByStatus ⟨log, false, sort⟩ (RemoveDocument (serverCat : SearchServer R) 0).1
        .seq "cat".toList .ACTUAL = .error .assertion_failed :=
  ⟨Reachable.removeDocument serverCat 0 serverCat_reachable, rfl, rfl, fun _ _ => rfl⟩

/-! ## C20 -/

/-- C20 fails: over the rationals the comparator orders the document with
relevance 0 and rating 3 before the one with relevance 0.0000006 and rating 2,
and that one before the one with relevance 0.0000012 and rating 1, but not the
first before the third, which it orders before the first; and with equal
ratings the first and second compare as equivalent, and so do the second and
third, but not the first and third. -/
theorem CompareDocuments_not_transitive :
    CompareDocuments (⟨0, 0, 3⟩ : Document ℚ) ⟨1, 6 / 10000000, 2⟩ = true ∧
    CompareDocuments (⟨1, 6 / 10000000, 2⟩ : Document ℚ) ⟨2, 12 / 10000000, 1⟩ = true ∧
    CompareDocuments (⟨0, 0, 3⟩ : Document ℚ) ⟨2, 12 / 10000000, 1⟩ = false ∧
    CompareDocuments (⟨2, 12 / 10000000, 1⟩ : Document ℚ) ⟨0, 0, 3⟩ = true ∧
    (CompareDocuments (⟨0, 0, 1⟩ : Document ℚ) ⟨1, 6 / 10000000, 1⟩ = false ∧
      CompareDocuments (⟨1, 6 / 10000000, 1⟩ : Document ℚ) ⟨0, 0, 1⟩ = false) ∧
    (CompareDocuments (⟨1, 6 / 10000000, 1⟩ : Document ℚ) ⟨2, 12 / 10000000, 1⟩ = false ∧
      CompareDocuments (⟨2, 12 / 10000000, 1⟩ : Document ℚ) ⟨1, 6 / 10000000, 1⟩ = false) ∧
    CompareDocuments (⟨2, 12 / 10000000, 1⟩ : Document ℚ) ⟨0, 0, 1⟩ = true := by
  refine ⟨?_, ?_, ?_, ?_, ⟨?_, ?_⟩, ⟨?_, ?_⟩, ?_⟩ <;>
    first
      | (rw [CompareDocuments_eq_true_iff, nearRelevance_iff]; norm_num)
      | (rw [CompareDocuments_eq_false_iff, nearRelevance_iff]; norm_num)

/-- C20, amended: the comparator is irreflexive and asymmetric on all
documents; on a set of documents on which "the relevances differ by less than
1e-6" is transitive, it is transitive and so is "neither ranks before the
other", and the sorted order of such a set is determined up to documents that
compare as equivalent. -/
theorem CompareDocuments_strict_weak_where_near_is_transitive (l : List (Document R))
    (hnear : ∀ a ∈ l, ∀ b ∈ l, ∀ c ∈ l,
      nearRelevance a b → nearRelevance b c → nearRelevance a c) :
    (∀ a : Document R, CompareDocuments a a = false) ∧
    (∀ a b : Document R, CompareDocuments a b = true → CompareDocuments b a = false) ∧
    (∀ a ∈ l, ∀ b ∈ l, ∀ c ∈ l,
      CompareDocuments a b = true → CompareDocuments b c = true →
        CompareDocuments a c = true) ∧
    (∀ a ∈ l, ∀ b ∈ l, ∀ c ∈ l,
      CompareDocuments a b = false → CompareDocuments b a = false →
      CompareDocuments b c = false → CompareDocuments c b = false →
        CompareDocuments a c = false ∧ CompareDocuments c a = false) ∧
    (∀ l1 l2 : List (Document R), l1.Perm l → l2.Perm l →
      l1.Pairwise (fun a b => CompareDocuments b a = false) →
      l2.Pairwise (fun a b => CompareDocuments b a = false) →
      List.Forall₂
        (fun a b => CompareDocuments a b = false ∧ CompareDocuments b a = false) l1 l2) := by
  have hswo := CompareDocuments_strictWeakOn l hnear
  exact ⟨CompareDocuments_irrefl, CompareDocuments_asymm, hswo.2.1, hswo.2.2,
    fun l1 l2 p1 p2 s1 s2 =>
      sorted_unique_up_to_equivalence CompareDocuments l l1 l2 hswo p1 p2 s1 s2⟩

/-- Witness for C20, amended: documents with the relevances 0, 0.0000006 and
0.0000009, any two of which differ by less than 1e-6. -/
theorem CompareDocuments_strict_weak_where_near_is_transitive_witness :
    (∀ a ∈ ([⟨0, 0, 3⟩, ⟨1, 6 / 10000000, 2⟩, ⟨2, 9 / 10000000, 1⟩] : List (Document ℚ)),
      ∀ b ∈ ([⟨0, 0, 3⟩, ⟨1, 6 / 10000000, 2⟩, ⟨2, 9 / 10000000, 1⟩] : List (Document ℚ)),
      ∀ c ∈ ([⟨0, 0, 3⟩, ⟨1, 6 / 10000000, 2⟩, ⟨2, 9 / 10000000, 1⟩] : List (Document ℚ)),
        nearRelevance a b → nearRelevance b c → nearRelevance a c) ∧
    (∀ a ∈ ([⟨0, 0, 3⟩, ⟨1, 6 / 10000000, 2⟩, ⟨2, 9 / 10000000, 1⟩] : List (Document ℚ)),
      ∀ b ∈ ([⟨0, 0, 3⟩, ⟨1, 6 / 10000000, 2⟩, ⟨2, 9 / 10000000, 1⟩] : List (Document ℚ)),
      ∀ c ∈ ([⟨0, 0, 3⟩, ⟨1, 6 / 10000000, 2⟩, ⟨2, 9 / 10000000, 1⟩] : List (Document ℚ)),
        CompareDocuments a b = true → CompareDocuments b c = true →
          CompareDocuments a c = true) :=
  have hnear : ∀ a ∈ ([⟨0, 0, 3⟩, ⟨1, 6 / 10000000, 2⟩, ⟨2, 9 / 10000000, 1⟩] :
        List (Document ℚ)),
      ∀ b ∈ ([⟨0, 0, 3⟩, ⟨1, 6 / 10000000, 2⟩, ⟨2, 9 / 10000000, 1⟩] : List (Document ℚ)),
      ∀ c ∈ ([⟨0, 0, 3⟩, ⟨1, 6 / 10000000, 2⟩, ⟨2, 9 / 10000000, 1⟩] : List (Document ℚ)),
        nearRelevance a b → nearRelevance b c → nearRelevance a c := by
    intro a ha b _ c hc _ _
    simp only [List.mem_cons, List.mem_singleton, List.not_mem_nil, or_false] at ha hc
    rw [nearRelevance_iff]
    rcases ha with rfl | rfl | rfl <;> rcases hc with rfl | rfl | rfl <;> norm_num
  ⟨hnear, (CompareDocuments_strict_weak_where_near_is_transitive _ hnear).2.2.1⟩

end SearchServer

end Search

namespace Search

namespace SearchServer

variable {R : Type} [LinearOrderedField R]

/-! ## C21 -/

/-- C21, at its failing inputs: `SetStopWords` inserts the words of its text as
they are, and has no path that throws.  After `AddDocument(0, "cat", ...)` and
`SetStopWords("cat")` the stop word "cat" is a term of the inverted index and
of the forward-index entry of document 0; after `SetStopWords` with the word
made of 'a' and the character of code 1 that word is a stop word; after
`SetStopWords("")` the empty word is a stop word.  What holds: a constructor
given a stop word with a character of code below 0x20 throws
`invalid_argument`, and on a server that never had `SetStopWords` called every
stop word is not empty, has no character of code below 0x20, and is a key
neither of the inverted index nor of a forward-index entry. -/
theorem SetStopWords_stores_words_unchecked :
    (Reachable (serverCatStop : SearchServer R) ∧
      (serverCatStop : SearchServer R).stop_words_ = ["and".toList, "cat".toList] ∧
      OMap.keys (serverCatStop : SearchServer R).word_to_document_freqs_ = ["cat".toList] ∧
      OMap.keys (GetWordFrequencies (serverCatStop : SearchServer R) 0) = ["cat".toList]) ∧
    (Reachable (SetStopWords (server0 : SearchServer R) ['a', Char.ofNat 1]) ∧
      (SetStopWords (server0 : SearchServer R) ['a', Char.ofNat 1]).stop_words_ =
        [['a', Char.ofNat 1], "and".toList] ∧
      (Char.ofNat 1).toNat < 0x20 ∧ IsValidWord ['a', Char.ofNat 1] = false) ∧
    (Reachable (SetStopWords (server0 : SearchServer R) []) ∧
      (SetStopWords (server0 : SearchServer R) []).stop_words_ = [[], "and".toList]) ∧
    (∀ stop_words : List Word, (∃ w ∈ stop_words, ∃ c ∈ w, c.toNat < 0x20) →
      ofContainer (R := R) stop_words = .error .invalid_argument) ∧
    (∀ s : SearchServer R, ReachableWithoutSetStopWords s → ∀ w ∈ s.stop_words_,
      w ≠ [] ∧ (∀ c ∈ w, ¬ c.toNat < 0x20) ∧
      w ∉ OMap.keys s.word_to_document_freqs_ ∧
      ∀ d, w ∉ OMap.keys (GetWordFrequencies s d)) := by
  refine ⟨⟨serverCatStop_reachable, rfl, rfl, rfl⟩,
    ⟨Reachable.setStopWords server0 _ server0_reachable, rfl, by decide, by decide⟩,
    ⟨Reachable.setStopWords server0 _ server0_reachable, rfl⟩, ofContainer_error, ?_⟩
  intro s hs w hw
  obtain ⟨h1, h2, h3⟩ := hs.stop w hw
  refine ⟨h1, (IsValidWord_eq_true_iff w).1 h2, ?_, not_mem_GetWordFrequencies s hs.reachable.inv w h3⟩
  rw [OMap.mem_keys_iff, h3]
  simp

/-- Witness for C21: the server with the stop word "and" after adding
document 0 of the scenario, on which `SetStopWords` was never called. -/
theorem SetStopWords_stores_words_unchecked_witness :
    ReachableWithoutSetStopWords (server1 : SearchServer ℚ) ∧
    ∀ w ∈ (server1 : SearchServer ℚ).stop_words_,
      w ≠ [] ∧ (∀ c ∈ w, ¬ c.toNat < 0x20) ∧
      w ∉ OMap.keys (server1 : SearchServer ℚ).word_to_document_freqs_ ∧
      ∀ d, w ∉ OMap.keys (GetWordFrequencies (server1 : SearchServer ℚ) d) :=
  ⟨server1_reachable_without_SetStopWords,
    SetStopWords_stores_words_unchecked.2.2.2.2 server1 server1_reachable_without_SetStopWords⟩

/-! ## C22 -/

/-- C22, at its failing input: in the scenario after `RemoveDocument(1)` the
term "fluffy" is a key of the inverted index with an empty document mapping,
and the sequenced search for "fluffy cat" fails the assertion `word_size != 0`
of `ComputeWordInverseDocumentFreq`, where assertions are compiled in.  What
holds on every reachable server: every document id stored under a term has a
record; the sequenced `FindTopDocuments` ends by returning, with
`invalid_argument`, with a failed assertion or outside the precondition of
`std::sort`, so never with a failing lookup; and it fails an assertion exactly
when assertions are compiled in, the query parses and one of its plus-terms is
a key of the inverted index with an empty document mapping. -/
theorem FindTopDocuments_seq_fails_assertion_after_RemoveDocument :
    (Reachable (serverEmptied : SearchServer R) ∧
      OMap.find? (serverEmptied : SearchServer R).word_to_document_freqs_ "fluffy".toList =
        some [] ∧
      ∀ (log : R → R)
        (sort : (Document R → Document R → Bool) → List (Document R) → List (Document R)),
        FindTopDocumentsByStatus ⟨log, false, sort⟩ (serverEmptied : SearchServer R) .seq
          "fluffy cat".toList .ACTUAL = .error .assertion_failed) ∧
    ∀ (tc : Toolchain R) (s : SearchServer R), Reachable s →
      (∀ t docs d, OMap.find? s.word_to_document_freqs_ t = some docs → d ∈ OMap.keys docs →
        d ∈ OMap.keys s.documents_) ∧
      ∀ (raw_query : Word) (key_mapper : Int → DocumentStatus → Int → Bool),
        (∀ e, FindTopDocuments tc s .seq raw_query key_mapper = .error e →
          e = .invalid_argument ∨ e = .assertion_failed ∨ e = .undefined_sort) ∧
        (FindTopDocuments tc s .seq raw_query key_mapper = .error .assertion_failed ↔
          tc.ndebug = false ∧ ∃ query, ParseQuery s .seq raw_query = .ok query ∧
            ∃ w ∈ query.plus_words, OMap.find? s.word_to_document_freqs_ w = some []) := by
  have hfluffy : OMap.find? (serverEmptied : SearchServer R).word_to_document_freqs_
      "fluffy".toList = some [] := by
    rw [serverEmptied_eq]
    rfl
  refine ⟨⟨serverEmptied_reachable, hfluffy, serverEmptied_search⟩, ?_⟩
  intro tc s hs
  refine ⟨?_, ?_⟩
  · intro t docs d ht hd
    rw [OMap.mem_keys_iff] at hd ⊢
    exact hs.inv.record_of_inverted t docs d ht hd
  · intro raw_query key_mapper
    rcases FindTopDocuments_seq_total tc s hs.inv raw_query key_mapper with
      ⟨hp, h⟩ | ⟨query, hq, ⟨⟨hn, hw⟩, h⟩ | ⟨hno, ⟨result, h⟩ | h⟩⟩
    · refine ⟨?_, ?_⟩
      · intro e he
        rw [h] at he
        cases he
        exact Or.inl rfl
      · rw [h]
        constructor
        · intro he
          cases he
        · rintro ⟨_, query, hq, _⟩
          rw [hp] at hq
          cases hq
    · refine ⟨?_, ?_⟩
      · intro e he
        rw [h] at he
        cases he
        exact Or.inr (Or.inl rfl)
      · rw [h]
        exact ⟨fun _ => ⟨hn, query, hq, hw⟩, fun _ => rfl⟩
    · refine ⟨?_, ?_⟩
      · intro e he
        rw [h] at he
        cases he
      · rw [h]
        constructor
        · intro he
          cases he
        · rintro ⟨hn, query', hq', hw⟩
          rw [hq] at hq'
          cases hq'
          exact absurd ⟨hn, hw⟩ hno
    · refine ⟨?_, ?_⟩
      · intro e he
        rw [h] at he
        cases he
        exact Or.inr (Or.inr rfl)
      · rw [h]
        constructor
        · intro he
          cases he
        · rintro ⟨hn, query', hq', hw⟩
          rw [hq] at hq'
          cases hq'
          exact absurd ⟨hn, hw⟩ hno

/-- Witness for C22: in the scenario, where no document was removed, every
document id stored under a term has a record. -/
theorem FindTopDocuments_seq_fails_assertion_after_RemoveDocument_witness :
    Reachable (server2 : SearchServer ℚ) ∧
    ∀ t docs d, OMap.find? (server2 : SearchServer ℚ).word_to_document_freqs_ t = some docs →
      d ∈ OMap.keys docs → d ∈ OMap.keys (server2 : SearchServer ℚ).documents_ :=
  ⟨server2_reachable,
    (FindTopDocuments_seq_fails_assertion_after_RemoveDocument.2
      ⟨fun _ => 0, false, insertionSort⟩ server2 server2_reachable).1⟩

end SearchServer

end Search
